import Mathlib

/-!
# Verification of `cdc-benchmarks`

A shallow embedding of the chunk sampler of `main.go` (`generateChunks`, `toXYs`) and
of the benchmark report plotter of `benchplot/main.go` (`parseLine`, `plotBar`),
together with the parts of the Go standard library they call (`float64`
conversions, `strconv.ParseFloat`, `regexp`, `strings`, `sort.Slice`), and the
proofs of their properties. Definitions come first, theorems follow.
-/

/-!
# Chunk sampler (`main.go`)
-/

/-- A byte of the input stream. -/
abbrev Byte := Fin 256

/-- Go `error` values that `generateChunks` distinguishes: the sentinel `io.EOF`
and every other error. The Go `nil` error is `none : Option GoError`. -/
inductive GoError where
  | EOF
  | other (msg : String)
  deriving DecidableEq, Repr

/-- Struct `chunkers.ChunkerOpts` as `generateChunks` fills it. -/
structure ChunkerOpts where
  MinSize : Int
  MaxSize : Int
  NormalSize : Int
  Key : Option (List Byte)
  deriving DecidableEq, Repr

/-- The chunking library `go-cdc-chunkers` as `generateChunks` uses it: the
constructor `NewChunker` and the three methods of a chunker, over the chunker's
internal state `σ`. `Next` returns the chunk, the error and the new state. -/
structure Chunkers (σ : Type) where
  NewChunker : String → List Byte → ChunkerOpts → Except GoError σ
  Next : σ → (List Byte × Option GoError) × σ
  MinSize : σ → Int
  MaxSize : σ → Int

/-- The pair `([]int, error)` returned by `generateChunks`; a `nil` slice is
`none`, a `nil` error is `none`. -/
structure ChunksResult where
  ret : Option (List Int)
  err : Option GoError
  deriving DecidableEq, Repr

/-- Elements of a Go slice that may be `nil` (a `nil` slice has no element). -/
def sliceElems (s : Option (List Int)) : List Int :=
  match s with
  | none => []
  | some l => l

/-- The `for` loop of `generateChunks` (main.go 172-188). The loop variable
`err` of the `for` clause is shadowed by the `err` of the body and stays `nil`,
so the loop only ends by `return` or `break`. `fuel` bounds the number of
iterations; `none` means the bound was reached. -/
def generateChunksLoop {σ : Type} (L : Chunkers σ) : Nat → σ → List Int → Option ChunksResult
  | 0, _, _ => none
  | fuel + 1, chunker, ret =>
    match L.Next chunker with
    | ((chunk, err), chunker) =>
      if err ≠ none ∧ err ≠ some GoError.EOF then
        some ⟨none, err⟩
      else if (chunk.length : Int) < L.MinSize chunker ∧ err ≠ some GoError.EOF then
        some ⟨none, err⟩
      else if (chunk.length : Int) > L.MaxSize chunker then
        some ⟨none, err⟩
      else
        let ret := ret ++ [(chunk.length : Int)]
        if err = some GoError.EOF then
          some ⟨some ret, none⟩
        else
          generateChunksLoop L fuel chunker ret

/-- Function `generateChunks` of main.go (158-189). -/
def generateChunks {σ : Type} (L : Chunkers σ) (fuel : Nat) (input : List Byte)
    (algorithm : String) (min avg max : Int) : Option ChunksResult :=
  let ret : List Int := []
  let opts : ChunkerOpts := { MinSize := min, MaxSize := max, NormalSize := avg, Key := none }
  match L.NewChunker algorithm input opts with
  | .error err => some ⟨none, some err⟩
  | .ok chunker => generateChunksLoop L fuel chunker ret

/-- A chunker run: starting in state `s`, the successive calls of `Next` return
the chunks `chunks` without error, each within the bounds, and then the chunk
`last` together with `io.EOF`, `last` being within the maximum. -/
def EmitsInBounds {σ : Type} (L : Chunkers σ) : σ → List (List Byte) → List Byte → Prop
  | s, [], last =>
    (L.Next s).1 = (last, some GoError.EOF) ∧ (last.length : Int) ≤ L.MaxSize (L.Next s).2
  | s, c :: cs, last =>
    (L.Next s).1 = (c, none) ∧ L.MinSize (L.Next s).2 ≤ (c.length : Int) ∧
      (c.length : Int) ≤ L.MaxSize (L.Next s).2 ∧ EmitsInBounds L (L.Next s).2 cs last

/-- A chunker cutting fixed `size`-byte chunks: the state is the unread input;
the last chunk (possibly short or empty) comes with `io.EOF`. -/
def fixedChunkers (size : Nat) (lo hi : Int) : Chunkers (List Byte) where
  NewChunker := fun _ input _ => .ok input
  Next := fun s =>
    if s.length ≤ size then ((s, some GoError.EOF), []) else ((s.take size, none), s.drop size)
  MinSize := fun _ => lo
  MaxSize := fun _ => hi

/-- A chunker whose every chunk is a single byte returned without error. -/
def oneByteChunkers (lo hi : Int) : Chunkers Unit where
  NewChunker := fun _ _ _ => .ok ()
  Next := fun _ => (([0], none), ())
  MinSize := fun _ => lo
  MaxSize := fun _ => hi

/-!
# float64
-/

/-- A Go `float64`: an IEEE 754 binary64 value given by its sign bit, its 11-bit
biased exponent and its 52-bit fraction. -/
structure F64 where
  sign : Bool
  expo : Fin 2048
  frac : Fin (2 ^ 52)
  deriving DecidableEq

namespace F64

/-- The binary64 value whose 63 low bits (exponent and fraction) are `bits` modulo `2 ^ 63`. -/
def ofBits (sign : Bool) (bits : Nat) : F64 :=
  ⟨sign, ⟨bits / 2 ^ 52 % 2048, Nat.mod_lt _ (by decide)⟩, ⟨bits % 2 ^ 52, Nat.mod_lt _ (by decide)⟩⟩

/-- Positive zero. -/
def zero : F64 := ofBits false 0

/-- Positive infinity. -/
def inf : F64 := ofBits false (2047 * 2 ^ 52)

/-- Is the value a NaN. -/
def isNaN (x : F64) : Bool := x.expo.val == 2047 && x.frac.val != 0

/-- Is the value `+0` or `-0`. -/
def isZero (x : F64) : Bool := x.expo.val == 0 && x.frac.val == 0

/-- The signed magnitude of the bit pattern; on values that are not NaN it orders
as the values do, and `+0` and `-0` share the key `0`. -/
def key (x : F64) : Int :=
  if x.sign then -((x.expo.val * 2 ^ 52 + x.frac.val : Nat) : Int)
  else ((x.expo.val * 2 ^ 52 + x.frac.val : Nat) : Int)

/-- Go `x < y` on `float64`: false when either operand is NaN. -/
def lt (x y : F64) : Bool := !x.isNaN && !y.isNaN && decide (x.key < y.key)

/-- Go `x <= y` on `float64`: false when either operand is NaN. -/
def le (x y : F64) : Bool := !x.isNaN && !y.isNaN && decide (x.key ≤ y.key)

/-- Go `x == y` on `float64`: false when either operand is NaN, true on `+0` and `-0`. -/
def eq (x y : F64) : Bool := !x.isNaN && !y.isNaN && decide (x.key = y.key)

/-- Go unary minus. -/
def neg (x : F64) : F64 := { x with sign := !x.sign }

/-- The rational value of a finite `float64`; `none` for infinities and NaN. -/
def toRat (x : F64) : Option ℚ :=
  if x.expo.val = 2047 then none
  else
    let m : ℚ := if x.expo.val = 0 then (x.frac.val : ℚ) * 2 ^ (-1074 : Int)
      else ((2 ^ 52 + x.frac.val : Nat) : ℚ) * 2 ^ ((x.expo.val : Int) - 1075)
    some (if x.sign then -m else m)

/-- The integer nearest to `num / den`, ties going to the even one. -/
def roundHalfEven (num den : Nat) : Nat :=
  let q := num / den
  let r := num % den
  if 2 * r < den then q
  else if den < 2 * r then q + 1
  else if q % 2 = 0 then q else q + 1

/-- Position of the highest set bit of `n` (Go `bits.Len(n) - 1`), `0` for `n = 0`;
`fuel` bounds the number of halvings. -/
def log2Fuel : Nat → Nat → Nat
  | 0, _ => 0
  | fuel + 1, n => if 2 ≤ n then log2Fuel fuel (n / 2) + 1 else 0

/-- Position of the highest set bit of `n`: `2 ^ log2 n ≤ n < 2 ^ (log2 n + 1)` for `n ≠ 0`. -/
def log2 (n : Nat) : Nat := log2Fuel n n

/-- The `float64` nearest to the non-negative rational `num / den` (`den ≠ 0`), ties
to even, `+Inf` beyond the largest finite value: IEEE 754 round-to-nearest-even,
the rounding of Go conversions and of `strconv.ParseFloat`. The binary exponent
`e` is chosen so that `2 ^ 52 ≤ num / den / 2 ^ e < 2 ^ 53`, or `e = -1074` for
subnormal results; the rounded significand is added to the exponent field so that
a carry out of the significand moves to the exponent. -/
def ofRatio (num den : Nat) : F64 :=
  if num = 0 then zero
  else
    let e0 : Int := (log2 num : Int) - (log2 den : Int) - 52
    let e1 : Int :=
      if num * 2 ^ (-e0).toNat < den * 2 ^ e0.toNat * 2 ^ 52 then e0 - 1 else e0
    let e : Int := max e1 (-1074)
    let m : Nat := roundHalfEven (num * 2 ^ (-e).toNat) (den * 2 ^ e.toNat)
    let bits : Nat := (e + 1074).toNat * 2 ^ 52 + m
    if 2047 * 2 ^ 52 ≤ bits then inf else ofBits false bits

/-- Go conversion `float64(n)` of a non-negative integer. -/
def ofNat (n : Nat) : F64 := ofRatio n 1

/-- Go conversion `float64(i)` of an `int`. -/
def ofInt (i : Int) : F64 :=
  if i < 0 then neg (ofNat i.natAbs) else ofNat i.natAbs

end F64

/-- Struct `plotter.XY`. -/
structure XY where
  X : F64
  Y : F64
  deriving DecidableEq

/-- The `range` loop of `toXYs` (main.go 33-41): `i` is the index of the head of
the remaining data, `pts` the points appended so far. -/
def toXYsLoop : Nat → List Int → List XY → List XY
  | _, [], pts => pts
  | i, val :: rest, pts =>
    if val = 0 then toXYsLoop (i + 1) rest pts
    else toXYsLoop (i + 1) rest (pts ++ [{ X := F64.ofInt (i : Int), Y := F64.ofInt val }])

/-- Function `toXYs` of main.go (31-43). -/
def toXYs (data : List Int) : List XY :=
  toXYsLoop 0 data []

/-!
# Benchmark record parser and bar chart series (`benchplot/main.go`)

Go strings are taken as sequences of runes (valid UTF-8).
-/

/-- Struct `Benchmark`. -/
structure Benchmark where
  Name : String
  NsPerOp : F64
  Throughput : F64
  Chunks : F64
  deriving DecidableEq

/-- Perl character class `\s` of Go `regexp`: `[\t\n\f\r ]`. -/
def reSpace (c : Char) : Bool :=
  c == '\t' || c == '\n' || c == '\x0c' || c == '\r' || c == ' '

/-- Perl character class `\S`. -/
def reNotSpace (c : Char) : Bool := !reSpace c

/-- Perl character class `\d`: `[0-9]`. -/
def reDigit (c : Char) : Bool := decide ('0' ≤ c) && decide (c ≤ '9')

/-- Character class `[\d.]`. -/
def reDigitDot (c : Char) : Bool := reDigit c || c == '.'

/-- The pieces a pattern such as the one of `parseLine` is a sequence of: a literal
string, a greedy repetition `c+` of a character class, and a capturing group
`(c+)` around such a repetition. -/
inductive RegexItem where
  | lit (s : List Char)
  | plus (cls : Char → Bool)
  | group (cls : Char → Bool)

/-- Match a sequence of items at the start of `s`, as the leftmost-first
(backtracking) semantics of Go `regexp` does for submatches: a greedy repetition
takes the longest run first and gives characters back one at a time while the
rest of the pattern fails. Returns the captured groups and the unmatched rest. -/
def matchFrom : List RegexItem → List Char → Option (List (List Char) × List Char)
  | [], s => some ([], s)
  | RegexItem.lit l :: items, s =>
    if l.isPrefixOf s then matchFrom items (s.drop l.length) else none
  | RegexItem.plus cls :: items, s =>
    (List.iota (s.takeWhile cls).length).findSome? (fun n => matchFrom items (s.drop n))
  | RegexItem.group cls :: items, s =>
    (List.iota (s.takeWhile cls).length).findSome? (fun n =>
      (matchFrom items (s.drop n)).map (fun r => (s.take n :: r.1, r.2)))

/-- Method `FindStringSubmatch` of a pattern anchored by `^`: the whole match
followed by the groups, or `nil` (here the empty list) when the text does not match. -/
def FindStringSubmatch (re : List RegexItem) (s : List Char) : List (List Char) :=
  match matchFrom re s with
  | none => []
  | some (groups, rest) => s.take (s.length - rest.length) :: groups

/-- The pattern of `parseLine` (benchplot/main.go 27):
`^Benchmark_(\S+)\s+\d+\s+(\d+)\s+ns/op\s+([\d.]+)\s+MB/s\s+(\d+)\s+chunks`. -/
def benchmarkRe : List RegexItem :=
  [RegexItem.lit "Benchmark_".data, RegexItem.group reNotSpace, RegexItem.plus reSpace,
    RegexItem.plus reDigit, RegexItem.plus reSpace, RegexItem.group reDigit,
    RegexItem.plus reSpace, RegexItem.lit "ns/op".data, RegexItem.plus reSpace,
    RegexItem.group reDigitDot, RegexItem.plus reSpace, RegexItem.lit "MB/s".data,
    RegexItem.plus reSpace, RegexItem.group reDigit, RegexItem.plus reSpace,
    RegexItem.lit "chunks".data]

/-- State of the scan of a decimal numeral: the digits read so far as an integer
`mant`, the number `scale` of digits read after the point, and the two flags of
`readFloat` in `strconv`. -/
structure DecimalScan where
  mant : Nat
  scale : Nat
  sawdigits : Bool
  sawdot : Bool
  deriving DecidableEq

/-- Scan of a numeral made of digits and points, as `strconv` reads it: a second
point or the absence of any digit is a syntax error (`none`). Signs, exponents,
hexadecimal forms and the words `inf` and `nan` cannot occur in what the pattern
of `parseLine` captures and are not modelled: any other character is an error. -/
def readDecimal : List Char → DecimalScan → Option DecimalScan
  | [], d => if d.sawdigits then some d else none
  | c :: cs, d =>
    if c = '.' then
      if d.sawdot then none else readDecimal cs { d with sawdot := true }
    else if reDigit c then
      readDecimal cs { d with
        mant := d.mant * 10 + (c.toNat - '0'.toNat)
        scale := if d.sawdot then d.scale + 1 else d.scale
        sawdigits := true }
    else none

/-- Function `strconv.ParseFloat(s, 64)` on the strings of digits and points that
the pattern of `parseLine` captures: the nearest `float64` of the decimal value
(`+Inf` with a range error beyond the largest finite value), or `0` with a
syntax error. -/
def ParseFloat (s : List Char) : F64 × Option GoError :=
  match readDecimal s ⟨0, 0, false, false⟩ with
  | none => (F64.zero, some (GoError.other "invalid syntax"))
  | some d =>
    let f := F64.ofRatio d.mant (10 ^ d.scale)
    if f = F64.inf then (f, some (GoError.other "value out of range")) else (f, none)

/-- Function `parseLine` of benchplot/main.go (26-43); `nil` is `none`. -/
def parseLine (line : String) : Option Benchmark :=
  let re := benchmarkRe
  let submatches := FindStringSubmatch re line.data
  if submatches.length ≠ 5 then none
  else
    let nsPerOp := (ParseFloat (submatches.getD 2 [])).1
    let throughput := (ParseFloat (submatches.getD 3 [])).1
    let chunks := (ParseFloat (submatches.getD 4 [])).1
    some { Name := String.mk (submatches.getD 1 []), NsPerOp := nsPerOp,
           Throughput := throughput, Chunks := chunks }

/-- Function `strings.TrimPrefix`. -/
def TrimPrefix (s pre : List Char) : List Char :=
  if pre.isPrefixOf s then s.drop pre.length else s

/-- Function `strings.TrimSuffix`. -/
def TrimSuffix (s suf : List Char) : List Char :=
  if suf.isSuffixOf s then s.take (s.length - suf.length) else s

/-- The display label that `plotBar` computes for a record (benchplot/main.go 54). -/
def barLabel (b : Benchmark) : String :=
  String.mk (TrimSuffix (TrimPrefix b.Name.data "Benchmark_".data) "-14".data)

/-!
# `sort.Slice` (Go standard library, package `sort`)

`plotBar` sorts with `sort.Slice`, the pattern-defeating quicksort of the Go
standard library (`sort/slice.go`, `sort/zsortfunc.go`, `sort/sort.go`). The
functions below follow that source; a slice is a list, and `data.Less(i, j)` and
`data.Swap(i, j)` of the `lessSwap` interface read and exchange its elements.
-/

/-- Call `data.Less(i, j)`: the `less` closure on the elements at `i` and `j`. -/
def LessAt {α : Type} (less : α → α → Bool) (data : List α) (i j : Nat) : Bool :=
  match data[i]?, data[j]? with
  | some x, some y => less x y
  | _, _ => false

/-- Call `data.Swap(i, j)`. -/
def SwapAt {α : Type} (data : List α) (i j : Nat) : List α :=
  match data[i]?, data[j]? with
  | some x, some y => (data.set i y).set j x
  | _, _ => data

/-- Function `bits.Len`: the number of bits needed to write `n`. -/
def bitsLen (n : Nat) : Nat :=
  if n = 0 then 0 else F64.log2 n + 1

/-- The inner loop of `insertionSort_func`:
`for j := i; j > a && data.Less(j, j-1); j-- { data.Swap(j, j-1) }`. -/
def insertionSortInner {α : Type} (less : α → α → Bool) (a : Nat) : Nat → List α → List α
  | 0, data => data
  | j + 1, data =>
    if j + 1 > a ∧ LessAt less data (j + 1) j = true then
      insertionSortInner less a j (SwapAt data (j + 1) j)
    else data

/-- Function `insertionSort_func`: sorts `data[a:b]` using insertion sort. -/
def insertionSort_func {α : Type} (less : α → α → Bool) (data : List α) (a b : Nat) : List α :=
  (List.range' (a + 1) (b - (a + 1))).foldl (fun data i => insertionSortInner less a i data) data

/-- The loop of `siftDown_func` from the node `root`; `fuel` bounds the iterations
(`root` grows at each of them and stays below `hi`). -/
def siftDownLoop {α : Type} (less : α → α → Bool) (hi first : Nat) :
    Nat → Nat → List α → List α
  | 0, _, data => data
  | fuel + 1, root, data =>
    let child := 2 * root + 1
    if child ≥ hi then data
    else
      let child :=
        if child + 1 < hi ∧ LessAt less data (first + child) (first + child + 1) = true then
          child + 1
        else child
      if LessAt less data (first + root) (first + child) = false then data
      else siftDownLoop less hi first fuel child (SwapAt data (first + root) (first + child))

/-- Function `siftDown_func`: implements the heap property on `data[lo:hi]`. -/
def siftDown_func {α : Type} (less : α → α → Bool) (data : List α) (lo hi first : Nat) : List α :=
  siftDownLoop less hi first hi lo data

/-- The first loop of `heapSort_func`, `for i := (hi - 1) / 2; i >= 0; i--`, with
`n = i + 1` iterations left. -/
def heapBuild {α : Type} (less : α → α → Bool) (hi first : Nat) : Nat → List α → List α
  | 0, data => data
  | i + 1, data => heapBuild less hi first i (siftDown_func less data i hi first)

/-- The second loop of `heapSort_func`, `for i := hi - 1; i >= 0; i--`, with
`n = i + 1` iterations left. -/
def heapPop {α : Type} (less : α → α → Bool) (first : Nat) : Nat → List α → List α
  | 0, data => data
  | i + 1, data =>
    heapPop less first i (siftDown_func less (SwapAt data first (first + i)) 0 i first)

/-- Function `heapSort_func`. -/
def heapSort_func {α : Type} (less : α → α → Bool) (data : List α) (a b : Nat) : List α :=
  let first := a
  let hi := b - a
  let data := heapBuild less hi first ((hi - 1) / 2 + 1) data
  heapPop less first hi data

/-- Type `sortedHint`. -/
inductive sortedHint where
  | unknownHint
  | increasingHint
  | decreasingHint
  deriving DecidableEq

/-- Method `Next` of `xorshift`, on a 64-bit state. The generator only chooses
which elements `breakPatterns_func` exchanges. -/
def xorshiftNext (r : Nat) : Nat :=
  let r := r ^^^ (r <<< 13 % 2 ^ 64)
  let r := r ^^^ (r >>> 7)
  r ^^^ (r <<< 17 % 2 ^ 64)

/-- Function `nextPowerOfTwo`. -/
def nextPowerOfTwo (length : Nat) : Nat :=
  1 <<< bitsLen length % 2 ^ 64

/-- The loop of `breakPatterns_func`, `for i := 0; i < 3; i++`, with `random` the
state of the generator. -/
def breakPatternsLoop {α : Type} (a length modulus idx : Nat) :
    List Nat → Nat → List α → List α
  | [], _, data => data
  | i :: is, random, data =>
    let random := xorshiftNext random
    let other := random &&& (modulus - 1)
    let other := if other ≥ length then other - length else other
    breakPatternsLoop a length modulus idx is random (SwapAt data (idx - 1 + i) (a + other))

/-- Function `breakPatterns_func`. -/
def breakPatterns_func {α : Type} (data : List α) (a b : Nat) : List α :=
  let length := b - a
  if length ≥ 8 then
    let random := length
    let modulus := nextPowerOfTwo length
    let idx := a + (length / 4) * 2 - 1
    breakPatternsLoop a length modulus idx [0, 1, 2] random data
  else data

/-- Function `order2_func`; the counter `swaps` is threaded through. -/
def order2_func {α : Type} (less : α → α → Bool) (data : List α) (a b swaps : Nat) :
    Nat × Nat × Nat :=
  if LessAt less data b a = true then (b, a, swaps + 1) else (a, b, swaps)

/-- Function `median_func`. -/
def median_func {α : Type} (less : α → α → Bool) (data : List α) (a b c swaps : Nat) :
    Nat × Nat :=
  match order2_func less data a b swaps with
  | (a, b, swaps) =>
    match order2_func less data b c swaps with
    | (b, _, swaps) =>
      match order2_func less data a b swaps with
      | (_, b, swaps) => (b, swaps)

/-- Function `medianAdjacent_func`. -/
def medianAdjacent_func {α : Type} (less : α → α → Bool) (data : List α) (a swaps : Nat) :
    Nat × Nat :=
  median_func less data (a - 1) a (a + 1) swaps

/-- Function `choosePivot_func`: chooses a pivot in `data[a:b]`; `r` holds the index
`j` and the counter `swaps` after the medians. -/
def choosePivot_func {α : Type} (less : α → α → Bool) (data : List α) (a b : Nat) :
    Nat × sortedHint :=
  let l := b - a
  let i := a + l / 4 * 1
  let j := a + l / 4 * 2
  let k := a + l / 4 * 3
  let r : Nat × Nat :=
    if l ≥ 8 then
      if l ≥ 50 then
        let ri := medianAdjacent_func less data i 0
        let rj := medianAdjacent_func less data j ri.2
        let rk := medianAdjacent_func less data k rj.2
        median_func less data ri.1 rj.1 rk.1 rk.2
      else median_func less data i j k 0
    else (j, 0)
  if r.2 = 0 then (r.1, sortedHint.increasingHint)
  else if r.2 = 4 * 3 then (r.1, sortedHint.decreasingHint)
  else (r.1, sortedHint.unknownHint)

/-- The loop of `reverseRange_func`, `for i < j`. -/
def reverseRangeLoop {α : Type} : Nat → Nat → Nat → List α → List α
  | 0, _, _, data => data
  | fuel + 1, i, j, data =>
    if i < j then reverseRangeLoop fuel (i + 1) (j - 1) (SwapAt data i j) else data

/-- Function `reverseRange_func`. -/
def reverseRange_func {α : Type} (data : List α) (a b : Nat) : List α :=
  reverseRangeLoop (b - a) a (b - 1) data

/-- Loop `for i <= j && data.Less(i, a) { i++ }` of `partition_func`. -/
def scanLess {α : Type} (less : α → α → Bool) (data : List α) (a j : Nat) : Nat → Nat → Nat
  | 0, i => i
  | fuel + 1, i =>
    if i ≤ j ∧ LessAt less data i a = true then scanLess less data a j fuel (i + 1) else i

/-- Loop `for i <= j && !data.Less(j, a) { j-- }` of `partition_func`. -/
def scanNotLess {α : Type} (less : α → α → Bool) (data : List α) (a i : Nat) : Nat → Nat → Nat
  | 0, j => j
  | fuel + 1, j =>
    if i ≤ j ∧ LessAt less data j a = false then scanNotLess less data a i fuel (j - 1) else j

/-- The main loop of `partition_func`; returns the data and the final `j`. -/
def partitionLoop {α : Type} (less : α → α → Bool) (a : Nat) :
    Nat → Nat → Nat → List α → List α × Nat
  | 0, _, j, data => (data, j)
  | fuel + 1, i, j, data =>
    let i := scanLess less data a j (j + 1 - i) i
    let j := scanNotLess less data a i (j + 1 - i) j
    if i > j then (data, j)
    else partitionLoop less a fuel (i + 1) (j - 1) (SwapAt data i j)

/-- Function `partition_func`: one quicksort partition; returns the data, the new
index of the pivot and whether the slice was already partitioned. -/
def partition_func {α : Type} (less : α → α → Bool) (data : List α) (a b pivot : Nat) :
    List α × Nat × Bool :=
  let data := SwapAt data a pivot
  let i := a + 1
  let j := b - 1
  let i := scanLess less data a j (j + 1 - i) i
  let j := scanNotLess less data a i (j + 1 - i) j
  if i > j then
    (SwapAt data j a, j, true)
  else
    let data := SwapAt data i j
    let i := i + 1
    let j := j - 1
    match partitionLoop less a (j + 1 - i + 1) i j data with
    | (data, j) => (SwapAt data j a, j, false)

/-- Loop `for i <= j && !data.Less(a, i) { i++ }` of `partitionEqual_func`. -/
def scanNotGreater {α : Type} (less : α → α → Bool) (data : List α) (a j : Nat) :
    Nat → Nat → Nat
  | 0, i => i
  | fuel + 1, i =>
    if i ≤ j ∧ LessAt less data a i = false then scanNotGreater less data a j fuel (i + 1)
    else i

/-- Loop `for i <= j && data.Less(a, j) { j-- }` of `partitionEqual_func`. -/
def scanGreater {α : Type} (less : α → α → Bool) (data : List α) (a i : Nat) : Nat → Nat → Nat
  | 0, j => j
  | fuel + 1, j =>
    if i ≤ j ∧ LessAt less data a j = true then scanGreater less data a i fuel (j - 1) else j

/-- The loop of `partitionEqual_func`; returns the data and the final `i`. -/
def partitionEqualLoop {α : Type} (less : α → α → Bool) (a : Nat) :
    Nat → Nat → Nat → List α → List α × Nat
  | 0, i, _, data => (data, i)
  | fuel + 1, i, j, data =>
    let i := scanNotGreater less data a j (j + 1 - i) i
    let j := scanGreater less data a i (j + 1 - i) j
    if i > j then (data, i)
    else partitionEqualLoop less a fuel (i + 1) (j - 1) (SwapAt data i j)

/-- Function `partitionEqual_func`: partitions `data[a:b]` into the elements equal to
the pivot followed by the elements greater than it. -/
def partitionEqual_func {α : Type} (less : α → α → Bool) (data : List α) (a b pivot : Nat) :
    List α × Nat :=
  let data := SwapAt data a pivot
  let i := a + 1
  let j := b - 1
  partitionEqualLoop less a (j + 1 - i + 1) i j data

/-- Loop `for i < b && !data.Less(i, i-1) { i++ }` of `partialInsertionSort_func`. -/
def scanSorted {α : Type} (less : α → α → Bool) (data : List α) (b : Nat) : Nat → Nat → Nat
  | 0, i => i
  | fuel + 1, i =>
    if i < b ∧ LessAt less data i (i - 1) = false then scanSorted less data b fuel (i + 1) else i

/-- Loop `for j := i - 1; j >= 1; j--` of `partialInsertionSort_func`, shifting the
smaller element to the left. -/
def shiftLeft {α : Type} (less : α → α → Bool) : Nat → List α → List α
  | 0, data => data
  | j + 1, data =>
    if LessAt less data (j + 1) j = false then data
    else shiftLeft less j (SwapAt data (j + 1) j)

/-- Loop `for j := i + 1; j < b; j++` of `partialInsertionSort_func`, shifting the
greater element to the right. -/
def shiftRight {α : Type} (less : α → α → Bool) (b : Nat) : Nat → Nat → List α → List α
  | 0, _, data => data
  | fuel + 1, j, data =>
    if j < b then
      if LessAt less data j (j - 1) = false then data
      else shiftRight less b fuel (j + 1) (SwapAt data j (j - 1))
    else data

/-- The loop `for j := 0; j < maxSteps; j++` of `partialInsertionSort_func`, with
`steps` iterations left. -/
def partialInsertionSortLoop {α : Type} (less : α → α → Bool) (a b : Nat) :
    Nat → Nat → List α → List α × Bool
  | 0, _, data => (data, false)
  | steps + 1, i, data =>
    let i := scanSorted less data b (b - i) i
    if i = b then (data, true)
    else if b - a < 50 then (data, false)
    else
      let data := SwapAt data i (i - 1)
      let data := if i - a ≥ 2 then shiftLeft less (i - 1) data else data
      let data := if b - i ≥ 2 then shiftRight less b (b - (i + 1)) (i + 1) data else data
      partialInsertionSortLoop less a b steps i data

/-- Function `partialInsertionSort_func`: partially sorts a slice, returns `true` if
the slice is sorted at the end. -/
def partialInsertionSort_func {α : Type} (less : α → α → Bool) (data : List α) (a b : Nat) :
    List α × Bool :=
  partialInsertionSortLoop less a b 5 (a + 1) data

/-- Function `pdqsort_func`: sorts `data[a:b]`. The arguments `wasBalanced` and
`wasPartitioned` are the two local variables of the `for` loop, `true` on entry;
an iteration of the loop that continues is a call with the updated `a`, `b`,
`limit` and variables. `fuel` bounds the nesting of calls and iterations, each of
which shortens `data[a:b]`. -/
def pdqsort_func {α : Type} (less : α → α → Bool) :
    Nat → List α → Nat → Nat → Nat → Bool → Bool → List α
  | 0, data, _, _, _, _, _ => data
  | fuel + 1, data, a, b, limit, wasBalanced, wasPartitioned =>
    let length := b - a
    if length ≤ 12 then insertionSort_func less data a b
    else if limit = 0 then heapSort_func less data a b
    else
      let data := if wasBalanced = false then breakPatterns_func data a b else data
      let limit := if wasBalanced = false then limit - 1 else limit
      match choosePivot_func less data a b with
      | (pivot, hint) =>
        let data := if hint = sortedHint.decreasingHint then reverseRange_func data a b else data
        let pivot := if hint = sortedHint.decreasingHint then (b - 1) - (pivot - a) else pivot
        let hint := if hint = sortedHint.decreasingHint then sortedHint.increasingHint else hint
        match (if wasBalanced = true ∧ wasPartitioned = true ∧ hint = sortedHint.increasingHint
               then partialInsertionSort_func less data a b else (data, false)) with
        | (data, true) => data
        | (data, false) =>
          if a > 0 ∧ LessAt less data (a - 1) pivot = false then
            match partitionEqual_func less data a b pivot with
            | (data, mid) => pdqsort_func less fuel data mid b limit wasBalanced wasPartitioned
          else
            match partition_func less data a b pivot with
            | (data, mid, alreadyPartitioned) =>
              let wasPartitioned := alreadyPartitioned
              let leftLen := mid - a
              let rightLen := b - mid
              let balanceThreshold := length / 8
              if leftLen < rightLen then
                let wasBalanced := decide (leftLen ≥ balanceThreshold)
                let data := pdqsort_func less fuel data a mid limit true true
                pdqsort_func less fuel data (mid + 1) b limit wasBalanced wasPartitioned
              else
                let wasBalanced := decide (rightLen ≥ balanceThreshold)
                let data := pdqsort_func less fuel data (mid + 1) b limit true true
                pdqsort_func less fuel data a mid limit wasBalanced wasPartitioned

/-- Function `sort.Slice`: sorts the slice given the `less` function. -/
def Slice {α : Type} (x : List α) (less : α → α → Bool) : List α :=
  let length := x.length
  let limit := bitsLen length
  pdqsort_func less length x 0 length limit true true

/-- What `plotBar` hands to the plotting library: the bar values and the nominal
labels of the X axis. -/
structure BarChart where
  values : List F64
  labels : List String
  deriving DecidableEq

/-- Function `plotBar` of benchplot/main.go (45-75), up to the rendering calls. -/
def plotBar (data : List Benchmark) (valueSelector : Benchmark → F64) : BarChart :=
  let data := Slice data (fun x y => F64.lt (valueSelector x) (valueSelector y))
  { values := data.map valueSelector, labels := data.map barLabel }

/-- Three benchmark records, as parsed from a benchmark report. -/
def sampleBenchmarks : List Benchmark :=
  [ { Name := "FastCDC-14", NsPerOp := F64.ofNat 345, Throughput := F64.ofRatio 1205 10,
      Chunks := F64.ofNat 83 },
    { Name := "UltraCDC-14", NsPerOp := F64.ofNat 200, Throughput := F64.ofRatio 2088 10,
      Chunks := F64.ofNat 91 },
    { Name := "JC-14", NsPerOp := F64.ofNat 345, Throughput := F64.ofRatio 1205 10,
      Chunks := F64.ofNat 70 } ]

/-- Thirteen benchmark records named `b0` to `b12`; the first takes one nanosecond
per operation, the twelve others take zero. -/
def thirteenBenchmarks : List Benchmark :=
  (List.range 13).map (fun i =>
    { Name := String.mk ('b' :: Nat.toDigits 10 i),
      NsPerOp := if i = 0 then F64.ofNat 1 else F64.ofNat 0,
      Throughput := F64.zero, Chunks := F64.zero })

/-- The integer written by a string of decimal digits. -/
def digitsValue (l : List Char) : Nat :=
  l.foldl (fun a c => a * 10 + (c.toNat - '0'.toNat)) 0

/-- The sort key of the element at index `k`, `0` outside the slice. -/
def keyAt {α : Type} (key : α → Int) (d : List α) (k : Nat) : Int :=
  match d[k]? with
  | some x => key x
  | none => 0

/-- Slice `d2` is `d1` with the elements of `d1[a:b]` permuted: the same length,
and an index permutation that fixes every index outside `[a, b)`. -/
def PermOn {α : Type} (a b : Nat) (d1 d2 : List α) : Prop :=
  d2.length = d1.length ∧
    ∃ σ : Equiv.Perm Nat, (∀ k, k < a ∨ b ≤ k → σ k = k) ∧ ∀ k, d2[k]? = d1[σ k]?

/-- The comparison context of a sort: on the elements satisfying `ok`, `less` is
the strict order of the integer `key`. -/
structure KeyOrder (α : Type) where
  less : α → α → Bool
  key : α → Int
  ok : α → Prop
  less_iff : ∀ x y, ok x → ok y → (less x y = true ↔ key x < key y)

/-- The keys of `d[a:b]` are in non-decreasing order. -/
def SortedOn {α : Type} (key : α → Int) (a b : Nat) (d : List α) : Prop :=
  ∀ i j, a ≤ i → i ≤ j → j < b → keyAt key d i ≤ keyAt key d j

/-- Adjacent keys of `d[a:b]` are in order. -/
def AdjSorted {α : Type} (key : α → Int) (a b : Nat) (d : List α) : Prop :=
  ∀ k, a ≤ k → k + 1 < b → keyAt key d k ≤ keyAt key d (k + 1)

/-- The state of a partition around the pivot key at `a`: keys below it on
`(a, i)`, keys not below it on `(j, b)`. -/
def PartInv {α : Type} (key : α → Int) (a b i j : Nat) (d : List α) : Prop :=
  a + 1 ≤ i ∧ j < b ∧ i ≤ j + 1 ∧
    (∀ k, a < k → k < i → keyAt key d k < keyAt key d a) ∧
    (∀ k, j < k → k < b → keyAt key d a ≤ keyAt key d k)

/-- The result of a partition: the pivot at `mid`, smaller keys before it, keys
not smaller after it. -/
def Partitioned {α : Type} (key : α → Int) (a b mid : Nat) (d : List α) : Prop :=
  a ≤ mid ∧ mid < b ∧ (∀ k, a ≤ k → k < mid → keyAt key d k < keyAt key d mid) ∧
    (∀ k, mid < k → k < b → keyAt key d mid ≤ keyAt key d k)

/-- The state of `partitionEqual_func` around the pivot key at `a`: keys not above
it on `(a, i)`, keys above it on `(j, b)`. -/
def EqInv {α : Type} (key : α → Int) (a b i j : Nat) (d : List α) : Prop :=
  a + 1 ≤ i ∧ j < b ∧ i ≤ j + 1 ∧
    (∀ k, a < k → k < i → keyAt key d k ≤ keyAt key d a) ∧
    (∀ k, j < k → k < b → keyAt key d a < keyAt key d k)

/-- When `a > 0`, the key just before `data[a:b]` is at most every key of
`data[a:b]`: the element at `a - 1` is a former pivot. -/
def LowerBound {α : Type} (key : α → Int) (a b : Nat) (d : List α) : Prop :=
  0 < a → ∀ k, a ≤ k → k < b → keyAt key d (a - 1) ≤ keyAt key d k

/-- The comparison context of `plotBar`: the records whose selected value is not a
NaN, ordered by the key of the value. -/
def selectorOrder (valueSelector : Benchmark → F64) : KeyOrder Benchmark where
  less := fun x y => F64.lt (valueSelector x) (valueSelector y)
  key := fun x => (valueSelector x).key
  ok := fun x => (valueSelector x).isNaN = false
  less_iff := by
    intro x y hx hy
    simp only [F64.lt, hx, hy, Bool.not_false, Bool.true_and, decide_eq_true_eq]

/-!
# Theorems
-/

theorem generateChunksLoop_bounds {σ : Type} (L : Chunkers σ) (min max : Int)
    (hmin : ∀ s, L.MinSize s = min) (hmax : ∀ s, L.MaxSize s = max) :
    ∀ (fuel : Nat) (s : σ) (acc : List Int) (r : ChunksResult),
      (∀ x ∈ acc, min ≤ x ∧ x ≤ max) →
      generateChunksLoop L fuel s acc = some r → r.err = none →
      (∀ x ∈ (sliceElems r.ret).dropLast, min ≤ x ∧ x ≤ max) ∧
        (∀ x, (sliceElems r.ret).getLast? = some x → x ≤ max) := by
  intro fuel
  induction fuel with
  | zero => intro s acc r _ h; simp [generateChunksLoop] at h
  | succ n ih =>
    intro s acc r hacc h herr
    unfold generateChunksLoop at h
    rcases hnx : L.Next s with ⟨⟨chunk, err⟩, s'⟩
    rw [hnx] at h
    simp only at h
    split_ifs at h with h1 h2 h3 h4
    · cases h; simp at herr; simp [herr] at h1
    · cases h; simp [sliceElems]
    · cases h; simp [sliceElems]
    · cases h
      simp only [sliceElems]
      constructor
      · intro x hx
        rw [List.dropLast_concat] at hx
        exact hacc x hx
      · intro x hx
        rw [List.getLast?_concat] at hx
        cases hx
        rw [hmax] at h3
        omega
    · refine ih s' _ r ?_ h herr
      intro x hx
      rw [List.mem_append, List.mem_singleton] at hx
      rcases hx with hx | hx
      · exact hacc x hx
      · subst hx
        rw [hmax] at h3
        rw [hmin] at h2
        have : ¬ ((chunk.length : Int) < min) := fun hlt => h2 ⟨hlt, h4⟩
        omega

theorem generateChunksLoop_emits {σ : Type} (L : Chunkers σ) :
    ∀ (chunks : List (List Byte)) (last : List Byte) (s : σ) (acc : List Int) (fuel : Nat),
      EmitsInBounds L s chunks last → chunks.length < fuel →
      generateChunksLoop L fuel s acc =
        some ⟨some (acc ++ (chunks ++ [last]).map (fun (c : List Byte) => (c.length : Int))), none⟩ := by
  intro chunks
  induction chunks with
  | nil =>
    intro last s acc fuel h hf
    obtain ⟨n, rfl⟩ : ∃ n, fuel = n + 1 := ⟨fuel - 1, by simp at hf; omega⟩
    obtain ⟨h1, h2⟩ := h
    rcases hnx : L.Next s with ⟨⟨chunk, err⟩, s'⟩
    rw [hnx] at h1 h2
    simp only [Prod.mk.injEq] at h1
    obtain ⟨rfl, rfl⟩ := h1
    unfold generateChunksLoop
    rw [hnx]
    simp only at h2 ⊢
    have h3 : ¬ ((chunk.length : Int) > L.MaxSize s') := by omega
    simp [h3]
  | cons c cs ih =>
    intro last s acc fuel h hf
    obtain ⟨n, rfl⟩ : ∃ n, fuel = n + 1 := ⟨fuel - 1, by simp at hf; omega⟩
    obtain ⟨h1, h2, h3, h4⟩ := h
    rcases hnx : L.Next s with ⟨⟨chunk, err⟩, s'⟩
    rw [hnx] at h1 h2 h3 h4
    simp only [Prod.mk.injEq] at h1
    obtain ⟨rfl, rfl⟩ := h1
    unfold generateChunksLoop
    rw [hnx]
    simp only at h2 h3 h4 ⊢
    have h5 : ¬ ((chunk.length : Int) > L.MaxSize s') := by omega
    have h6 : ¬ ((chunk.length : Int) < L.MinSize s') := by omega
    simp only [List.length_cons, Nat.add_lt_add_iff_right] at hf
    rw [if_neg (by simp), if_neg (by simp [h6]), if_neg h5, if_neg (by simp)]
    rw [ih last s' _ n h4 hf]
    simp

/-- C2. When `MinSize()` and `MaxSize()` of the chunker are the configured `min`
and `max`, every series that `generateChunks` returns without error has all its
entries but the last within `[min, max]` and its last entry at most `max`. -/
theorem generateChunks_series_within_bounds {σ : Type} (L : Chunkers σ) (fuel : Nat)
    (input : List Byte) (algorithm : String) (min avg max : Int) (r : ChunksResult)
    (hmin : ∀ s, L.MinSize s = min) (hmax : ∀ s, L.MaxSize s = max)
    (hret : generateChunks L fuel input algorithm min avg max = some r)
    (herr : r.err = none) :
    (∀ x ∈ (sliceElems r.ret).dropLast, min ≤ x ∧ x ≤ max) ∧
      (∀ x, (sliceElems r.ret).getLast? = some x → x ≤ max) := by
  unfold generateChunks at hret
  simp only at hret
  split at hret
  · cases hret; simp at herr
  · exact generateChunksLoop_bounds L min max hmin hmax fuel _ [] r (by simp) hret herr

theorem generateChunks_series_within_bounds_witness :
    generateChunks (fixedChunkers 3 2 4) 5 [1, 2, 3, 4, 5, 6, 7] "fixed" 2 3 4
        = some ⟨some [3, 3, 1], none⟩ ∧
      ((∀ x ∈ (sliceElems (some [3, 3, 1])).dropLast, (2 : Int) ≤ x ∧ x ≤ 4) ∧
        (∀ x, (sliceElems (some [3, 3, 1])).getLast? = some x → x ≤ (4 : Int))) :=
  ⟨by decide,
    generateChunks_series_within_bounds (fixedChunkers 3 2 4) 5 [1, 2, 3, 4, 5, 6, 7] "fixed"
      2 3 4 ⟨some [3, 3, 1], none⟩ (fun _ => rfl) (fun _ => rfl) (by decide) rfl⟩

/-- C8. When the chunker built for the input emits in-bounds chunks up to and
including the end-of-stream chunk, `generateChunks` (given at least one
iteration per chunk) returns without error the lengths of the emitted chunks in
emission order; when the chunks concatenate to the input, the returned series
sums to the length of the input. -/
theorem generateChunks_lengths_of_emitted {σ : Type} (L : Chunkers σ) (fuel : Nat)
    (input : List Byte) (algorithm : String) (min avg max : Int) (s : σ)
    (chunks : List (List Byte)) (last : List Byte)
    (hnew : L.NewChunker algorithm input
      { MinSize := min, MaxSize := max, NormalSize := avg, Key := none } = .ok s)
    (hrun : EmitsInBounds L s chunks last) (hfuel : chunks.length < fuel) :
    generateChunks L fuel input algorithm min avg max =
        some ⟨some ((chunks ++ [last]).map (fun (c : List Byte) => (c.length : Int))), none⟩ ∧
      ((chunks ++ [last]).flatten = input →
        ((chunks ++ [last]).map (fun (c : List Byte) => (c.length : Int))).sum = (input.length : Int)) := by
  constructor
  · unfold generateChunks
    simp only [hnew]
    rw [generateChunksLoop_emits L chunks last s [] fuel hrun hfuel]
    simp
  · intro hcat
    rw [← hcat]
    generalize chunks ++ [last] = cs
    induction cs with
    | nil => simp
    | cons c cs ih => simp [ih]

theorem generateChunks_lengths_of_emitted_witness :
    generateChunks (fixedChunkers 3 2 4) 3 [1, 2, 3, 4, 5, 6, 7] "fixed" 2 3 4 =
        some ⟨some ((([[1, 2, 3], [4, 5, 6]] : List (List Byte)) ++ [[7]]).map
          (fun (c : List Byte) => (c.length : Int))), none⟩ ∧
      ((([[1, 2, 3], [4, 5, 6]] : List (List Byte)) ++ [[7]]).flatten = [1, 2, 3, 4, 5, 6, 7] →
        ((([[1, 2, 3], [4, 5, 6]] : List (List Byte)) ++ [[7]]).map
          (fun (c : List Byte) => (c.length : Int))).sum = (([1, 2, 3, 4, 5, 6, 7] : List Byte).length : Int)) :=
  generateChunks_lengths_of_emitted (fixedChunkers 3 2 4) 3 [1, 2, 3, 4, 5, 6, 7] "fixed" 2 3 4
    [1, 2, 3, 4, 5, 6, 7] [[1, 2, 3], [4, 5, 6]] [7] rfl
    (by simp [EmitsInBounds, fixedChunkers]) (by decide)

/-- C1. A chunker whose first chunk is one byte long, returned without
end-of-stream, under `MinSize() = 2`: `generateChunks` returns the pair
`(nil, nil)`, a bounds violation reported with a `nil` error. -/
theorem generateChunks_short_chunk_nil_error :
    generateChunks (oneByteChunkers 2 4) 1 [0, 0, 0] "one" 2 3 4 = some ⟨none, none⟩ := by
  decide

/-- Over-long chunks without end-of-stream are returned with a `nil` error as well. -/
theorem generateChunks_long_chunk_nil_error :
    generateChunks (oneByteChunkers 0 0) 1 [0, 0, 0] "one" 0 0 0 = some ⟨none, none⟩ := by
  decide

/-- Any chunk below `MinSize()` that `Next` returns with a `nil` error, after a
run of in-bounds chunks, ends `generateChunks` with the pair `(nil, nil)`. -/
theorem generateChunksLoop_min_violation {σ : Type} (L : Chunkers σ) (fuel : Nat) (s : σ)
    (acc : List Int) (chunk : List Byte) (s1 : σ)
    (hnext : L.Next s = ((chunk, none), s1)) (hshort : (chunk.length : Int) < L.MinSize s1) :
    generateChunksLoop L (fuel + 1) s acc = some ⟨none, none⟩ := by
  unfold generateChunksLoop
  rw [hnext]
  simp [hshort]

/-- C9, as stated, fails: on an empty input the returned series is not empty. -/
theorem generateChunks_empty_input_not_empty_series :
    generateChunks (fixedChunkers 3 2 4) 1 [] "fixed" 2 3 4 = some ⟨some [0], none⟩ ∧
      generateChunks (fixedChunkers 3 2 4) 1 [] "fixed" 2 3 4 ≠ some ⟨some [], none⟩ := by
  decide

/-- C9, amended. When the first `Next` returns an empty chunk with `io.EOF` and
`MaxSize()` is not negative, `generateChunks` returns the one-entry series `[0]`
and no error. -/
theorem generateChunks_empty_input {σ : Type} (L : Chunkers σ) (fuel : Nat)
    (input : List Byte) (algorithm : String) (min avg max : Int) (s s1 : σ)
    (hnew : L.NewChunker algorithm input
      { MinSize := min, MaxSize := max, NormalSize := avg, Key := none } = .ok s)
    (hnext : L.Next s = (([], some GoError.EOF), s1)) (hmax : 0 ≤ L.MaxSize s1) :
    generateChunks L (fuel + 1) input algorithm min avg max = some ⟨some [0], none⟩ := by
  unfold generateChunks
  simp only [hnew]
  unfold generateChunksLoop
  rw [hnext]
  simp [hmax]

theorem generateChunks_empty_input_witness :
    generateChunks (fixedChunkers 3 2 4) (0 + 1) [] "fixed" 2 3 4 = some ⟨some [0], none⟩ :=
  generateChunks_empty_input (fixedChunkers 3 2 4) 0 [] "fixed" 2 3 4 [] [] rfl rfl (by decide)

namespace F64

theorem log2Fuel_spec : ∀ (fuel n : Nat), n ≤ fuel → 1 ≤ n →
    2 ^ log2Fuel fuel n ≤ n ∧ n < 2 ^ (log2Fuel fuel n + 1) := by
  intro fuel
  induction fuel with
  | zero => intro n h1 h2; omega
  | succ k ih =>
    intro n h1 h2
    unfold log2Fuel
    split_ifs with h
    · have := ih (n / 2) (by omega) (by omega)
      rw [pow_succ, pow_succ]
      omega
    · simp; omega

theorem log2_spec (n : Nat) (h : 1 ≤ n) : 2 ^ log2 n ≤ n ∧ n < 2 ^ (log2 n + 1) :=
  log2Fuel_spec n n le_rfl h

theorem log2_one : log2 1 = 0 := by decide

theorem roundHalfEven_one (n : Nat) : roundHalfEven n 1 = n := by
  simp [roundHalfEven, Nat.mod_one]

theorem log2_lt_of_lt (n k : Nat) (h : n < 2 ^ k) : log2 n < k ∨ n = 0 := by
  rcases Nat.eq_zero_or_pos n with h0 | h0
  · exact Or.inr h0
  · left
    have := (log2_spec n h0).1
    by_contra hc
    have : 2 ^ k ≤ 2 ^ log2 n := Nat.pow_le_pow_right (by decide) (by omega)
    omega

/-- Bits of `float64(n)` for `1 ≤ n < 2 ^ 53`: the conversion is exact. -/
theorem ofNat_eq (n : Nat) (h1 : 1 ≤ n) (h2 : n < 2 ^ 53) :
    ofNat n = ofBits false ((log2 n + 1022) * 2 ^ 52 + n * 2 ^ (52 - log2 n)) ∧
      log2 n ≤ 52 ∧ 2 ^ 52 ≤ n * 2 ^ (52 - log2 n) ∧ n * 2 ^ (52 - log2 n) < 2 ^ 53 := by
  obtain ⟨ha, hb⟩ := log2_spec n h1
  have hl : log2 n ≤ 52 := by
    rcases log2_lt_of_lt n 53 h2 with h | h <;> omega
  have hpow : 2 ^ log2 n * 2 ^ (52 - log2 n) = 2 ^ 52 := by
    rw [← pow_add]; congr 1; omega
  have hlo : 2 ^ 52 ≤ n * 2 ^ (52 - log2 n) := by
    rw [← hpow]; exact Nat.mul_le_mul_right _ ha
  have hhi : n * 2 ^ (52 - log2 n) < 2 ^ 53 := by
    have : 2 ^ (log2 n + 1) * 2 ^ (52 - log2 n) = 2 ^ 53 := by
      rw [← pow_add]; congr 1; omega
    rw [← this]
    exact Nat.mul_lt_mul_of_pos_right hb (by positivity)
  refine ⟨?_, hl, hlo, hhi⟩
  unfold ofNat ofRatio
  have hn : n ≠ 0 := by omega
  rw [if_neg hn]
  simp only [log2_one, Nat.cast_zero, sub_zero, one_mul]
  have he0 : ((log2 n : Int) - 52).toNat = 0 := by omega
  have he0n : (-((log2 n : Int) - 52)).toNat = 52 - log2 n := by omega
  have hif : ¬ (n * 2 ^ (52 - log2 n) < 2 ^ 52) := by omega
  rw [he0, he0n, pow_zero, one_mul, if_neg hif]
  have hmax : max ((log2 n : Int) - 52) (-1074) = (log2 n : Int) - 52 := by omega
  rw [hmax, he0, he0n, pow_zero, roundHalfEven_one]
  have hb : ((log2 n : Int) - 52 + 1074).toNat = log2 n + 1022 := by omega
  have : (log2 n + 1022) * 2 ^ 52 ≤ 1074 * 2 ^ 52 := Nat.mul_le_mul_right _ (by omega)
  rw [hb, if_neg (by omega)]

end F64

namespace F64

theorem ofBits_expo (s : Bool) (e f : Nat) (he : e < 2048) (hf : f < 2 ^ 52) :
    (ofBits s (e * 2 ^ 52 + f)).expo.val = e ∧ (ofBits s (e * 2 ^ 52 + f)).frac.val = f ∧
      (ofBits s (e * 2 ^ 52 + f)).sign = s := by
  refine ⟨?_, ?_, rfl⟩
  · show (e * 2 ^ 52 + f) / 2 ^ 52 % 2048 = e
    rw [Nat.add_comm, Nat.add_mul_div_right _ _ (by positivity), Nat.div_eq_of_lt hf, Nat.zero_add,
      Nat.mod_eq_of_lt he]
  · show (e * 2 ^ 52 + f) % 2 ^ 52 = f
    rw [Nat.add_comm, Nat.add_mul_mod_self_right, Nat.mod_eq_of_lt hf]

theorem ofNat_zero : ofNat 0 = zero := by
  simp [ofNat, ofRatio]

/-- Fields of `float64(n)` for `1 ≤ n < 2 ^ 53`. -/
theorem ofNat_fields (n : Nat) (h1 : 1 ≤ n) (h2 : n < 2 ^ 53) :
    (ofNat n).sign = false ∧ (ofNat n).expo.val = log2 n + 1023 ∧
      (ofNat n).frac.val = n * 2 ^ (52 - log2 n) - 2 ^ 52 ∧
      log2 n ≤ 52 ∧ 2 ^ 52 ≤ n * 2 ^ (52 - log2 n) ∧ n * 2 ^ (52 - log2 n) < 2 ^ 53 := by
  obtain ⟨h, hl, hlo, hhi⟩ := ofNat_eq n h1 h2
  have hb : (log2 n + 1022) * 2 ^ 52 + n * 2 ^ (52 - log2 n) =
      (log2 n + 1023) * 2 ^ 52 + (n * 2 ^ (52 - log2 n) - 2 ^ 52) := by
    have : (log2 n + 1023) * 2 ^ 52 = (log2 n + 1022) * 2 ^ 52 + 2 ^ 52 := by ring
    omega
  rw [h, hb]
  obtain ⟨a, b, c⟩ := ofBits_expo false (log2 n + 1023) (n * 2 ^ (52 - log2 n) - 2 ^ 52)
    (by omega) (by omega)
  exact ⟨c, a, b, hl, hlo, hhi⟩

theorem isNaN_ofNat (n : Nat) (h2 : n < 2 ^ 53) : (ofNat n).isNaN = false := by
  rcases Nat.eq_zero_or_pos n with h0 | h0
  · subst h0; rw [ofNat_zero]; decide
  · obtain ⟨_, he, _, hl, _, _⟩ := ofNat_fields n h0 h2
    have h3 : ((ofNat n).expo.val == 2047) = false := by
      rw [he]; exact beq_false_of_ne (by omega)
    simp only [isNaN, h3, Bool.false_and]

theorem key_ofNat (n : Nat) (h1 : 1 ≤ n) (h2 : n < 2 ^ 53) :
    (ofNat n).key = (((log2 n + 1022) * 2 ^ 52 + n * 2 ^ (52 - log2 n) : Nat) : Int) := by
  obtain ⟨hs, he, hf, hl, hlo, hhi⟩ := ofNat_fields n h1 h2
  simp only [key, hs, he, hf]
  have h3 : (log2 n + 1023) * 2 ^ 52 = (log2 n + 1022) * 2 ^ 52 + 2 ^ 52 := by ring
  have h4 : (log2 n + 1023) * 2 ^ 52 + (n * 2 ^ (52 - log2 n) - 2 ^ 52) =
      (log2 n + 1022) * 2 ^ 52 + n * 2 ^ (52 - log2 n) := by omega
  rw [h4]
  simp

/-- The conversion of integers below `2 ^ 53` to `float64` is strictly increasing. -/
theorem lt_ofNat (i j : Nat) (hij : i < j) (hj : j < 2 ^ 53) :
    lt (ofNat i) (ofNat j) = true := by
  have hi : i < 2 ^ 53 := by omega
  simp only [lt, isNaN_ofNat i hi, isNaN_ofNat j hj, Bool.not_false, Bool.true_and,
    decide_eq_true_eq]
  obtain ⟨_, _, _, hlj, hloj, hhij⟩ := ofNat_fields j (by omega) hj
  rw [key_ofNat j (by omega) hj]
  rcases Nat.eq_zero_or_pos i with h0 | h0
  · subst h0
    rw [ofNat_zero]
    have : zero.key = 0 := by decide
    rw [this]
    have : 0 < (log2 j + 1022) * 2 ^ 52 + j * 2 ^ (52 - log2 j) := by omega
    exact_mod_cast this
  · obtain ⟨_, _, _, hli, hloi, hhii⟩ := ofNat_fields i h0 hi
    rw [key_ofNat i h0 hi]
    have hle : log2 i ≤ log2 j := by
      by_contra hc
      have h1 := (log2_spec i h0).1
      have h2 := (log2_spec j (by omega)).2
      have : 2 ^ (log2 j + 1) ≤ 2 ^ log2 i := Nat.pow_le_pow_right (by decide) (by omega)
      omega
    have goal : (log2 i + 1022) * 2 ^ 52 + i * 2 ^ (52 - log2 i) <
        (log2 j + 1022) * 2 ^ 52 + j * 2 ^ (52 - log2 j) := by
      rcases Nat.eq_or_lt_of_le hle with heq | hlt
      · rw [heq]
        have : i * 2 ^ (52 - log2 j) < j * 2 ^ (52 - log2 j) :=
          Nat.mul_lt_mul_of_pos_right hij (by positivity)
        omega
      · have : (log2 i + 1023) * 2 ^ 52 ≤ (log2 j + 1022) * 2 ^ 52 :=
          Nat.mul_le_mul_right _ (by omega)
        have : (log2 i + 1023) * 2 ^ 52 = (log2 i + 1022) * 2 ^ 52 + 2 ^ 52 := by ring
        omega
    exact_mod_cast goal

/-- The conversion of integers up to `2 ^ 53` in magnitude is exact. -/
theorem toRat_ofNat (n : Nat) (h2 : n < 2 ^ 53) : (ofNat n).toRat = some (n : ℚ) := by
  rcases Nat.eq_zero_or_pos n with h0 | h0
  · subst h0; rw [ofNat_zero]; simp [toRat, zero, ofBits]
  · obtain ⟨hs, he, hf, hl, hlo, hhi⟩ := ofNat_fields n h0 h2
    have h1 : ¬ (log2 n + 1023 = 2047) := by omega
    have h3 : ¬ (log2 n + 1023 = 0) := by omega
    simp only [toRat, hs, he, hf, h1, h3, if_false, Bool.false_eq_true]
    congr 1
    have h4 : 2 ^ 52 + (n * 2 ^ (52 - log2 n) - 2 ^ 52) = n * 2 ^ (52 - log2 n) := by omega
    rw [h4]
    push_cast
    have h5 : ((log2 n : Int) + 1023 - 1075) = -((52 - log2 n : Nat) : Int) := by omega
    rw [h5, zpow_neg, zpow_natCast, mul_assoc, mul_inv_cancel₀ (by positivity), mul_one]

end F64

namespace F64

/-- The conversion of a non-zero integer of any size is not a zero. -/
theorem isZero_ofNat (n : Nat) (h1 : 1 ≤ n) : (ofNat n).isZero = false := by
  unfold ofNat ofRatio
  rw [if_neg (by omega)]
  simp only [log2_one, Nat.cast_zero, sub_zero]
  generalize hm : roundHalfEven _ _ = m
  generalize he1 : (if n * 2 ^ (-((log2 n : Int) - 52)).toNat <
    1 * 2 ^ ((log2 n : Int) - 52).toNat * 2 ^ 52 then (log2 n : Int) - 52 - 1
    else (log2 n : Int) - 52) = e1
  have hge : -53 ≤ e1 := by
    rw [← he1]; split_ifs <;> omega
  have hb : 1021 ≤ (max e1 (-1074) + 1074).toNat := by omega
  have hb2 : 1021 * 2 ^ 52 ≤ (max e1 (-1074) + 1074).toNat * 2 ^ 52 :=
    Nat.mul_le_mul_right _ hb
  split_ifs with h
  · decide
  · have hlt : (max e1 (-1074) + 1074).toNat * 2 ^ 52 + m < 2047 * 2 ^ 52 := by omega
    have hge2 : 1021 * 2 ^ 52 ≤ (max e1 (-1074) + 1074).toNat * 2 ^ 52 + m := by omega
    generalize (max e1 (-1074) + 1074).toNat * 2 ^ 52 + m = bits at hlt h hge2
    have h3 : 1021 ≤ bits / 2 ^ 52 := (Nat.le_div_iff_mul_le (by positivity)).2 hge2
    have h4 : bits / 2 ^ 52 < 2047 := (Nat.div_lt_iff_lt_mul (by positivity)).2 hlt
    have h5 : ((ofBits false bits).expo.val == 0) = false := by
      show (bits / 2 ^ 52 % 2048 == 0) = false
      exact beq_false_of_ne (by omega)
    simp only [isZero, h5, Bool.false_and]

theorem isZero_neg (x : F64) : (neg x).isZero = x.isZero := rfl

theorem isZero_ofInt (v : Int) (h : v ≠ 0) : (ofInt v).isZero = false := by
  unfold ofInt
  have : 1 ≤ v.natAbs := by omega
  split_ifs
  · rw [isZero_neg]; exact isZero_ofNat _ this
  · exact isZero_ofNat _ this

theorem ofInt_natCast (i : Nat) : ofInt (i : Int) = ofNat i := by
  unfold ofInt
  rw [if_neg (by omega)]
  simp

end F64

theorem toXYsLoop_eq (data : List Int) : ∀ (i : Nat) (pts : List XY),
    toXYsLoop i data pts = pts ++ ((List.enumFrom i data).filter (fun iv => decide (iv.2 ≠ 0))).map
      (fun iv => ({ X := F64.ofInt (iv.1 : Int), Y := F64.ofInt iv.2 } : XY)) := by
  induction data with
  | nil => intro i pts; simp [toXYsLoop]
  | cons v rest ih =>
    intro i pts
    unfold toXYsLoop
    split_ifs with h
    · rw [ih]; simp [List.enumFrom, h]
    · rw [ih]; simp [List.enumFrom, h]

theorem enumFrom_filter_pairwise (p : Nat × Int → Bool) (data : List Int) : ∀ (i : Nat),
    ((List.enumFrom i data).filter p).Pairwise (fun a b => a.1 < b.1) ∧
      ∀ a ∈ (List.enumFrom i data).filter p, i ≤ a.1 ∧ a.1 < i + data.length ∧
        data[a.1 - i]? = some a.2 := by
  induction data with
  | nil => intro i; simp
  | cons v rest ih =>
    intro i
    obtain ⟨h1, h2⟩ := ih (i + 1)
    have hmem : ∀ a ∈ (List.enumFrom (i + 1) rest).filter p, i ≤ a.1 ∧
        a.1 < i + (v :: rest).length ∧ (v :: rest)[a.1 - i]? = some a.2 := by
      intro a ha
      obtain ⟨h3, h4, h5⟩ := h2 a ha
      refine ⟨by omega, by simp; omega, ?_⟩
      have : a.1 - i = (a.1 - (i + 1)) + 1 := by omega
      rw [this, List.getElem?_cons_succ]
      exact h5
    simp only [List.enumFrom]
    rw [List.filter_cons]
    split_ifs with hp
    · refine ⟨List.pairwise_cons.2 ⟨?_, h1⟩, ?_⟩
      · intro a ha
        have := (h2 a ha).1
        show i < a.1
        omega
      · intro a ha
        rcases List.mem_cons.1 ha with rfl | ha
        · simp
        · exact hmem a ha
    · exact ⟨h1, hmem⟩

theorem F64.toRat_ofInt (v : Int) (h : v.natAbs < 2 ^ 53) : (F64.ofInt v).toRat = some (v : ℚ) := by
  unfold F64.ofInt
  have hn := F64.toRat_ofNat v.natAbs h
  split_ifs with hneg
  · have hx : (F64.neg (F64.ofNat v.natAbs)).toRat =
        (F64.ofNat v.natAbs).toRat.map (fun q => -q) := by
      simp only [F64.toRat, F64.neg]
      split_ifs <;> simp_all
    rw [hx, hn]
    simp only [Option.map_some']
    congr 1
    have h2 : ((v.natAbs : Nat) : ℚ) = ((|v| : Int) : ℚ) := Nat.cast_natAbs v
    rw [h2, abs_of_neg hneg]
    push_cast
    ring
  · rw [hn]
    congr 1
    have h2 : ((v.natAbs : Nat) : ℚ) = ((|v| : Int) : ℚ) := Nat.cast_natAbs v
    rw [h2, abs_of_nonneg (by omega)]

/-- C6. The points of `toXYs data` are the points `(float64(i), float64(data[i]))`
over the positions `i` with `data[i] ≠ 0`, in increasing order of `i`; no point
has `Y = 0`; and for a slice of at most `2 ^ 53` entries the `X` values are
exactly the positions and strictly increase, the `Y` values being exactly the
entries when these are below `2 ^ 53` in magnitude. -/
theorem toXYs_points (data : List Int) :
    toXYs data = ((List.enum data).filter (fun iv => decide (iv.2 ≠ 0))).map
        (fun iv => ({ X := F64.ofInt (iv.1 : Int), Y := F64.ofInt iv.2 } : XY)) ∧
      (∀ iv ∈ (List.enum data).filter (fun iv => decide (iv.2 ≠ 0)),
        data[iv.1]? = some iv.2 ∧ iv.2 ≠ 0) ∧
      ((List.enum data).filter (fun iv => decide (iv.2 ≠ 0))).Pairwise (fun a b => a.1 < b.1) ∧
      (∀ p ∈ toXYs data, p.Y.isZero = false) ∧
      (data.length ≤ 2 ^ 53 →
        (toXYs data).Pairwise (fun p q => F64.lt p.X q.X = true) ∧
        (toXYs data).map (fun p => p.X.toRat) =
          ((List.enum data).filter (fun iv => decide (iv.2 ≠ 0))).map
            (fun iv => some (iv.1 : ℚ)) ∧
        ((∀ v ∈ data, v.natAbs < 2 ^ 53) →
          (toXYs data).map (fun p => p.Y.toRat) =
            ((List.enum data).filter (fun iv => decide (iv.2 ≠ 0))).map
              (fun iv => some (iv.2 : ℚ)))) := by
  have heq : toXYs data = ((List.enum data).filter (fun iv => decide (iv.2 ≠ 0))).map
      (fun iv => ({ X := F64.ofInt (iv.1 : Int), Y := F64.ofInt iv.2 } : XY)) := by
    unfold toXYs
    rw [toXYsLoop_eq]
    rfl
  obtain ⟨hpw, hmem⟩ := enumFrom_filter_pairwise (fun iv => decide (iv.2 ≠ 0)) data 0
  have hmem2 : ∀ iv ∈ (List.enum data).filter (fun iv => decide (iv.2 ≠ 0)),
      iv.1 < data.length ∧ data[iv.1]? = some iv.2 ∧ iv.2 ≠ 0 := by
    intro iv hiv
    obtain ⟨_, h2, h3⟩ := hmem iv hiv
    have h4 := (List.mem_filter.1 hiv).2
    simp only [ne_eq, decide_eq_true_eq] at h4
    exact ⟨by omega, by simpa using h3, h4⟩
  refine ⟨heq, fun iv hiv => (hmem2 iv hiv).2, hpw, ?_, ?_⟩
  · intro p hp
    rw [heq] at hp
    obtain ⟨iv, hiv, rfl⟩ := List.mem_map.1 hp
    exact F64.isZero_ofInt _ (hmem2 iv hiv).2.2
  · intro hlen
    refine ⟨?_, ?_, ?_⟩
    · rw [heq, List.pairwise_map]
      refine (List.Pairwise.and_mem.1 hpw).imp ?_
      rintro a b ⟨ha, hb, hab⟩
      show F64.lt (F64.ofInt (a.1 : Int)) (F64.ofInt (b.1 : Int)) = true
      rw [F64.ofInt_natCast, F64.ofInt_natCast]
      have := (hmem2 b hb).1
      exact F64.lt_ofNat _ _ hab (by omega)
    · rw [heq, List.map_map]
      apply List.map_congr_left
      intro iv hiv
      show (F64.ofInt (iv.1 : Int)).toRat = some (iv.1 : ℚ)
      have := (hmem2 iv hiv).1
      rw [F64.ofInt_natCast]
      exact F64.toRat_ofNat _ (by omega)
    · intro hv
      rw [heq, List.map_map]
      apply List.map_congr_left
      intro iv hiv
      show (F64.ofInt iv.2).toRat = some (iv.2 : ℚ)
      have h := (hmem2 iv hiv).2.1
      exact F64.toRat_ofInt _ (hv _ (List.getElem?_mem h))

theorem toXYs_points_witness :
    toXYs [3, 0, 5] = [⟨F64.ofInt 0, F64.ofInt 3⟩, ⟨F64.ofInt 2, F64.ofInt 5⟩] ∧
      (toXYs [3, 0, 5]).Pairwise (fun p q => F64.lt p.X q.X = true) ∧
      (toXYs [3, 0, 5]).map (fun p => p.X.toRat) = [some 0, some 2] ∧
      (toXYs [3, 0, 5]).map (fun p => p.Y.toRat) = [some 3, some 5] := by
  obtain ⟨h1, _, _, _, h5⟩ := toXYs_points [3, 0, 5]
  obtain ⟨h6, h7, h8⟩ := h5 (by simp)
  refine ⟨by rw [h1]; simp [List.enum, List.enumFrom], h6, ?_, ?_⟩
  · rw [h7]; simp [List.enum, List.enumFrom]
  · rw [h8 (by decide)]; simp [List.enum, List.enumFrom]

namespace F64

theorem roundHalfEven_cases (num den : Nat) :
    (roundHalfEven num den = num / den ∧ 2 * (num % den) ≤ den) ∨
      (roundHalfEven num den = num / den + 1 ∧ den ≤ 2 * (num % den)) := by
  unfold roundHalfEven
  simp only
  split_ifs <;> omega

/-- The rounded quotient is an integer nearest to `num / den`. -/
theorem roundHalfEven_nearest (num den : Nat) (hden : 0 < den) (k : Int) :
    |((roundHalfEven num den : Nat) : ℚ) - (num : ℚ) / den| ≤ |(k : ℚ) - (num : ℚ) / den| := by
  have hD : (0 : ℚ) < den := by exact_mod_cast hden
  have hdm := Nat.div_add_mod num den
  have hr : num % den < den := Nat.mod_lt _ hden
  have hc := roundHalfEven_cases num den
  generalize roundHalfEven num den = m at hc
  generalize num / den = q0 at hdm hc
  generalize num % den = r at hdm hr hc
  have hN : (num : ℚ) = (den : ℚ) * (q0 : ℚ) + (r : ℚ) := by exact_mod_cast hdm.symm
  have hrq : (r : ℚ) < den := by exact_mod_cast hr
  have hr0 : (0 : ℚ) ≤ (r : ℚ) := by positivity
  have key : ∀ z : ℚ, |z - (num : ℚ) / den| = |z * den - num| / den := by
    intro z
    rw [show z - (num : ℚ) / den = (z * den - num) / den by field_simp, abs_div, abs_of_pos hD]
  rw [key, key, div_le_div_iff_of_pos_right hD]
  have hk : (r : ℚ) ≤ |(k : ℚ) * den - num| ∨ (den : ℚ) - (r : ℚ) ≤ |(k : ℚ) * den - num| := by
    rcases le_or_lt k (q0 : Int) with h | h
    · left
      have h1 : (k : ℚ) ≤ (q0 : ℚ) := by exact_mod_cast h
      have h2 : (k : ℚ) * den ≤ (q0 : ℚ) * den := mul_le_mul_of_nonneg_right h1 hD.le
      rw [abs_of_nonpos (by rw [hN]; linarith)]
      rw [hN]; linarith
    · right
      have h0 : (q0 : Int) + 1 ≤ k := h
      have h1 : (q0 : ℚ) + 1 ≤ (k : ℚ) := by exact_mod_cast h0
      have h2 : ((q0 : ℚ) + 1) * den ≤ (k : ℚ) * den := mul_le_mul_of_nonneg_right h1 hD.le
      rw [abs_of_nonneg (by rw [hN]; linarith)]
      rw [hN]; linarith
  rcases hc with ⟨rfl, h1⟩ | ⟨rfl, h1⟩
  · have h2 : (2 : ℚ) * (r : ℚ) ≤ den := by exact_mod_cast h1
    have hlo : |(m : ℚ) * den - num| = (r : ℚ) := by
      rw [abs_of_nonpos (by rw [hN]; linarith)]
      rw [hN]; ring
    rw [hlo]
    rcases hk with hk | hk <;> linarith
  · have h2 : (den : ℚ) ≤ 2 * (r : ℚ) := by exact_mod_cast h1
    have hhi : |((q0 + 1 : Nat) : ℚ) * den - num| = (den : ℚ) - (r : ℚ) := by
      push_cast
      rw [abs_of_nonneg (by rw [hN]; linarith)]
      rw [hN]; ring
    rw [hhi]
    rcases hk with hk | hk <;> linarith

/-- On a tie the rounded quotient is even. -/
theorem roundHalfEven_tie (num den : Nat) (hden : 0 < den)
    (h : |((roundHalfEven num den : Nat) : ℚ) - (num : ℚ) / den| = 1 / 2) :
    roundHalfEven num den % 2 = 0 := by
  have hD : (0 : ℚ) < den := by exact_mod_cast hden
  have hdm := Nat.div_add_mod num den
  have hr : num % den < den := Nat.mod_lt _ hden
  have hdef : roundHalfEven num den =
      if 2 * (num % den) < den then num / den
      else if den < 2 * (num % den) then num / den + 1
      else if num / den % 2 = 0 then num / den else num / den + 1 := rfl
  generalize roundHalfEven num den = m at h hdef
  generalize num / den = q0 at hdm hdef
  generalize num % den = r at hdm hr hdef
  have hN : (num : ℚ) = (den : ℚ) * (q0 : ℚ) + (r : ℚ) := by exact_mod_cast hdm.symm
  have hx : (num : ℚ) / den = (q0 : ℚ) + (r : ℚ) / den := by
    rw [hN]; field_simp; ring
  have hrq : (r : ℚ) / den < 1 := by
    rw [div_lt_one hD]; exact_mod_cast hr
  have hr0 : (0 : ℚ) ≤ (r : ℚ) / den := by positivity
  rw [hx] at h
  split_ifs at hdef with h1 h2 h3
  · exfalso
    subst hdef
    have h4 : (2 : ℚ) * (r : ℚ) < den := by exact_mod_cast h1
    have h5 : (r : ℚ) / den < 1 / 2 := by
      rw [div_lt_iff₀ hD]; linarith
    rw [abs_of_nonpos (by linarith)] at h
    linarith
  · exfalso
    subst hdef
    have h4 : (den : ℚ) < 2 * (r : ℚ) := by exact_mod_cast h2
    have h5 : 1 / 2 < (r : ℚ) / den := by
      rw [lt_div_iff₀ hD]; linarith
    push_cast at h
    rw [abs_of_nonneg (by linarith)] at h
    linarith
  · omega
  · omega

end F64

namespace F64

/-- The two integers that `ofRatio` divides are `num / den` scaled by `2 ^ (-e)`. -/
theorem scaled_eq (num den : Nat) (e : Int) :
    ((num * 2 ^ (-e).toNat : Nat) : ℚ) / ((den * 2 ^ e.toNat : Nat) : ℚ) =
      (num : ℚ) / den / (2 : ℚ) ^ e := by
  rcases le_or_lt 0 e with h | h
  · obtain ⟨n, rfl⟩ := Int.eq_ofNat_of_zero_le h
    have h1 : (-(n : Int)).toNat = 0 := by omega
    rw [h1, Int.toNat_ofNat, zpow_natCast]
    push_cast
    field_simp
  · obtain ⟨n, hn⟩ : ∃ n : Nat, e = -(n : Int) := ⟨(-e).toNat, by omega⟩
    subst hn
    have h1 : (-(n : Int)).toNat = 0 := by omega
    have h2 : (- -(n : Int)).toNat = n := by omega
    rw [h1, h2, zpow_neg, zpow_natCast]
    push_cast
    field_simp

theorem two_zpow_pos (e : Int) : (0 : ℚ) < (2 : ℚ) ^ e := zpow_pos (by norm_num) e

/-- The first estimate of the exponent is at most one too large. -/
theorem exponent_estimate (num den : Nat) (hnum : 0 < num) (hden : 0 < den) :
    (2 : ℚ) ^ 51 < (num : ℚ) / den / (2 : ℚ) ^ ((log2 num : Int) - (log2 den : Int) - 52) ∧
      (num : ℚ) / den / (2 : ℚ) ^ ((log2 num : Int) - (log2 den : Int) - 52) < (2 : ℚ) ^ 53 := by
  obtain ⟨ha1, ha2⟩ := log2_spec num hnum
  obtain ⟨hb1, hb2⟩ := log2_spec den hden
  generalize log2 num = a at ha1 ha2
  generalize log2 den = b at hb1 hb2
  have hZ : (2 : ℚ) ^ ((a : Int) - (b : Int) - 52) = (2 : ℚ) ^ a / ((2 : ℚ) ^ b * (2 : ℚ) ^ 52) := by
    rw [zpow_sub₀ (by norm_num), zpow_sub₀ (by norm_num), zpow_natCast, zpow_natCast]
    norm_num
    field_simp
  have hA : (0 : ℚ) < (2 : ℚ) ^ a := by positivity
  have hB : (0 : ℚ) < (2 : ℚ) ^ b := by positivity
  have hD : (0 : ℚ) < den := by exact_mod_cast hden
  have hn1 : (2 : ℚ) ^ a ≤ num := by exact_mod_cast ha1
  have hn2 : (num : ℚ) < 2 * (2 : ℚ) ^ a := by
    have : num < 2 ^ a * 2 := by rw [← pow_succ]; exact ha2
    have h2 : (num : ℚ) < (2 : ℚ) ^ a * 2 := by exact_mod_cast this
    linarith
  have hd1 : (2 : ℚ) ^ b ≤ den := by exact_mod_cast hb1
  have hd2 : (den : ℚ) < 2 * (2 : ℚ) ^ b := by
    have : den < 2 ^ b * 2 := by rw [← pow_succ]; exact hb2
    have h2 : (den : ℚ) < (2 : ℚ) ^ b * 2 := by exact_mod_cast this
    linarith
  rw [hZ]
  have hform : (num : ℚ) / den / ((2 : ℚ) ^ a / ((2 : ℚ) ^ b * (2 : ℚ) ^ 52)) =
      (num : ℚ) * ((2 : ℚ) ^ b * (2 : ℚ) ^ 52) / (den * (2 : ℚ) ^ a) := by
    field_simp
  rw [hform]
  constructor
  · rw [lt_div_iff₀ (by positivity)]
    have h1 : (den : ℚ) * (2 : ℚ) ^ a < 2 * (2 : ℚ) ^ b * (2 : ℚ) ^ a :=
      mul_lt_mul_of_pos_right hd2 hA
    have h2 : (2 : ℚ) ^ a * ((2 : ℚ) ^ b * (2 : ℚ) ^ 52) ≤ (num : ℚ) * ((2 : ℚ) ^ b * (2 : ℚ) ^ 52) :=
      mul_le_mul_of_nonneg_right hn1 (by positivity)
    have h3 : (2 : ℚ) ^ 51 * (den * (2 : ℚ) ^ a) < (2 : ℚ) ^ 51 * (2 * (2 : ℚ) ^ b * (2 : ℚ) ^ a) :=
      mul_lt_mul_of_pos_left h1 (by positivity)
    have h4 : (2 : ℚ) ^ 51 * (2 * (2 : ℚ) ^ b * (2 : ℚ) ^ a) =
        (2 : ℚ) ^ a * ((2 : ℚ) ^ b * (2 : ℚ) ^ 52) := by ring
    linarith
  · rw [div_lt_iff₀ (by positivity)]
    have h1 : (num : ℚ) * ((2 : ℚ) ^ b * (2 : ℚ) ^ 52) <
        2 * (2 : ℚ) ^ a * ((2 : ℚ) ^ b * (2 : ℚ) ^ 52) :=
      mul_lt_mul_of_pos_right hn2 (by positivity)
    have h2 : (2 : ℚ) ^ 53 * ((2 : ℚ) ^ b * (2 : ℚ) ^ a) ≤ (2 : ℚ) ^ 53 * (den * (2 : ℚ) ^ a) :=
      mul_le_mul_of_nonneg_left (mul_le_mul_of_nonneg_right hd1 hA.le) (by positivity)
    have h4 : 2 * (2 : ℚ) ^ a * ((2 : ℚ) ^ b * (2 : ℚ) ^ 52) =
        (2 : ℚ) ^ 53 * ((2 : ℚ) ^ b * (2 : ℚ) ^ a) := by ring
    linarith

end F64

namespace F64

/-- How `ofRatio` works on a positive ratio: a binary exponent `e ≥ -1074` and a
significand `m`, the integer nearest to the ratio scaled by `2 ^ (-e)`, which lies
below `2 ^ 53` and, unless `e = -1074`, not below `2 ^ 52`. -/
theorem ofRatio_shape (num den : Nat) (hnum : 0 < num) (hden : 0 < den) :
    ∃ (e : Int) (m : Nat), -1074 ≤ e ∧
      ofRatio num den = (if 2047 * 2 ^ 52 ≤ (e + 1074).toNat * 2 ^ 52 + m then inf
        else ofBits false ((e + 1074).toNat * 2 ^ 52 + m)) ∧
      (∀ k : Int, |(m : ℚ) - (num : ℚ) / den / (2 : ℚ) ^ e| ≤
        |(k : ℚ) - (num : ℚ) / den / (2 : ℚ) ^ e|) ∧
      (num : ℚ) / den / (2 : ℚ) ^ e < (2 : ℚ) ^ 53 ∧
      ((2 : ℚ) ^ 52 ≤ (num : ℚ) / den / (2 : ℚ) ^ e ∨ e = -1074) ∧
      (|(m : ℚ) - (num : ℚ) / den / (2 : ℚ) ^ e| = 1 / 2 → m % 2 = 0) := by
  obtain ⟨he1, he2⟩ := exponent_estimate num den hnum hden
  generalize he0 : (log2 num : Int) - (log2 den : Int) - 52 = e0 at he1 he2
  have hsc0 := scaled_eq num den e0
  have hD0 : 0 < den * 2 ^ e0.toNat := Nat.mul_pos hden (by positivity)
  have hD0q : (0 : ℚ) < ((den * 2 ^ e0.toNat : Nat) : ℚ) := by exact_mod_cast hD0
  have hcond : (num * 2 ^ (-e0).toNat < den * 2 ^ e0.toNat * 2 ^ 52) ↔
      (num : ℚ) / den / (2 : ℚ) ^ e0 < (2 : ℚ) ^ 52 := by
    rw [← hsc0, div_lt_iff₀ hD0q]
    have hcast : ((2 : ℚ) ^ 52 * ((den * 2 ^ e0.toNat : Nat) : ℚ)) =
        ((den * 2 ^ e0.toNat * 2 ^ 52 : Nat) : ℚ) := by
      push_cast; ring
    rw [hcast, Nat.cast_lt]
  -- the exponent after the correction
  have hq : (0 : ℚ) < (num : ℚ) / den := by positivity
  obtain ⟨e1, hedef, hb1, hb2⟩ : ∃ e1 : Int,
      e1 = (if num * 2 ^ (-e0).toNat < den * 2 ^ e0.toNat * 2 ^ 52 then e0 - 1 else e0) ∧
      (2 : ℚ) ^ 52 ≤ (num : ℚ) / den / (2 : ℚ) ^ e1 ∧
      (num : ℚ) / den / (2 : ℚ) ^ e1 < (2 : ℚ) ^ 53 := by
    refine ⟨_, rfl, ?_⟩
    split_ifs with hc
    · have hlt := hcond.1 hc
      have h2 : (2 : ℚ) ^ (e0 - 1) = (2 : ℚ) ^ e0 / 2 := by
        rw [zpow_sub₀ (by norm_num), zpow_one]
      have h3 : (num : ℚ) / den / ((2 : ℚ) ^ e0 / 2) = 2 * ((num : ℚ) / den / (2 : ℚ) ^ e0) := by
        have := two_zpow_pos e0
        field_simp
        ring
      rw [h2, h3]
      constructor <;> linarith
    · have hge : ¬ ((num : ℚ) / den / (2 : ℚ) ^ e0 < (2 : ℚ) ^ 52) := fun h => hc (hcond.2 h)
      exact ⟨not_lt.1 hge, he2⟩
  refine ⟨max e1 (-1074), roundHalfEven (num * 2 ^ (-(max e1 (-1074))).toNat)
    (den * 2 ^ (max e1 (-1074)).toNat), le_max_right _ _, ?_, ?_, ?_, ?_, ?_⟩
  · unfold ofRatio
    rw [if_neg (by omega)]
    simp only [he0, ← hedef]
  · intro k
    have hsc := scaled_eq num den (max e1 (-1074))
    have hD : 0 < den * 2 ^ (max e1 (-1074)).toNat := Nat.mul_pos hden (by positivity)
    rw [← hsc]
    exact roundHalfEven_nearest _ _ hD k
  · rcases le_or_lt (-1074) e1 with h | h
    · rw [max_eq_left h]; exact hb2
    · rw [max_eq_right h.le]
      have h1 : (2 : ℚ) ^ e1 ≤ (2 : ℚ) ^ (-1074 : Int) :=
        zpow_le_zpow_right₀ (by norm_num) h.le
      have h2 : (num : ℚ) / den / (2 : ℚ) ^ (-1074 : Int) ≤ (num : ℚ) / den / (2 : ℚ) ^ e1 :=
        div_le_div_of_nonneg_left hq.le (two_zpow_pos e1) h1
      linarith
  · rcases le_or_lt (-1074) e1 with h | h
    · left; rw [max_eq_left h]; exact hb1
    · right; exact max_eq_right h.le
  · have hsc := scaled_eq num den (max e1 (-1074))
    have hD : 0 < den * 2 ^ (max e1 (-1074)).toNat := Nat.mul_pos hden (by positivity)
    rw [← hsc]
    exact roundHalfEven_tie _ _ hD

end F64

namespace F64

theorem toRat_eq (y : F64) (h : y.expo.val ≠ 2047) :
    y.toRat = some ((if y.sign then -1 else 1) *
      (if y.expo.val = 0 then (y.frac.val : ℚ) * (2 : ℚ) ^ (-1074 : Int)
        else ((2 ^ 52 + y.frac.val : Nat) : ℚ) * (2 : ℚ) ^ ((y.expo.val : Int) - 1075))) := by
  unfold toRat
  rw [if_neg h]
  simp only
  cases y.sign
  · simp
  · simp only [if_true, neg_mul, one_mul]

/-- The value of the bit pattern that `ofRatio` assembles: the significand `m` times
`2 ^ e`, a carry out of the significand included. -/
theorem toRat_ofBits (E m : Nat) (hbits : E * 2 ^ 52 + m < 2047 * 2 ^ 52) (hm : m ≤ 2 ^ 53)
    (hnorm : 2 ^ 52 ≤ m ∨ E = 0) :
    (ofBits false (E * 2 ^ 52 + m)).toRat = some ((m : ℚ) * (2 : ℚ) ^ ((E : Int) - 1074)) := by
  have hfields : ∀ (e f : Nat), e < 2047 → f < 2 ^ 52 →
      (ofBits false (e * 2 ^ 52 + f)).toRat = some
        (if e = 0 then (f : ℚ) * (2 : ℚ) ^ (-1074 : Int)
          else ((2 ^ 52 + f : Nat) : ℚ) * (2 : ℚ) ^ ((e : Int) - 1075)) := by
    intro e f he hf
    obtain ⟨a, b, c⟩ := ofBits_expo false e f (by omega) hf
    rw [toRat_eq _ (by rw [a]; omega), a, b, c]
    simp
  rcases Nat.lt_or_ge m (2 ^ 52) with h1 | h1
  · have hE : E = 0 := by omega
    subst hE
    rw [hfields 0 m (by decide) h1]
    simp
  · rcases Nat.lt_or_ge m (2 ^ 53) with h2 | h2
    · have hb : E * 2 ^ 52 + m = (E + 1) * 2 ^ 52 + (m - 2 ^ 52) := by
        have : (E + 1) * 2 ^ 52 = E * 2 ^ 52 + 2 ^ 52 := by ring
        omega
      have hE : E + 1 < 2047 := by
        by_contra hc
        have : 2046 * 2 ^ 52 ≤ E * 2 ^ 52 := Nat.mul_le_mul_right _ (by omega)
        omega
      rw [hb, hfields (E + 1) (m - 2 ^ 52) hE (by omega), if_neg (by omega)]
      have e3 : 2 ^ 52 + (m - 2 ^ 52) = m := by omega
      have e4 : (((E + 1 : Nat) : Int) - 1075) = (E : Int) - 1074 := by push_cast; ring
      rw [e3, e4]
    · have hm2 : m = 2 ^ 53 := by omega
      subst hm2
      have hb : E * 2 ^ 52 + 2 ^ 53 = (E + 2) * 2 ^ 52 + 0 := by ring
      have hE : E + 2 < 2047 := by
        by_contra hc
        have : 2045 * 2 ^ 52 ≤ E * 2 ^ 52 := Nat.mul_le_mul_right _ (by omega)
        omega
      rw [hb, hfields (E + 2) 0 hE (by decide), if_neg (by omega)]
      have e4 : (((E + 2 : Nat) : Int) - 1075) = ((E : Int) - 1074) + 1 := by push_cast; ring
      rw [e4, zpow_add₀ (by norm_num), zpow_one]
      congr 1
      push_cast
      ring

/-- Every finite `float64` is an integer below `2 ^ 53` in magnitude times a power
`2 ^ t` with `t ≥ -1074`, the integer being at least `2 ^ 52` in magnitude unless
`t = -1074`. -/
theorem toRat_form (y : F64) (v : ℚ) (h : y.toRat = some v) :
    ∃ (k t : Int), v = (k : ℚ) * (2 : ℚ) ^ t ∧ |k| < 2 ^ 53 ∧ -1074 ≤ t ∧
      (2 ^ 52 ≤ |k| ∨ t = -1074) := by
  have hf := y.frac.isLt
  have he := y.expo.isLt
  have h1 : y.expo.val ≠ 2047 := by
    intro hc
    simp [toRat, hc] at h
  rw [toRat_eq y h1] at h
  simp only [Option.some.injEq] at h
  subst h
  have hsign : ∀ (s : Bool) (k : Nat) (t : Int), k < 2 ^ 53 → -1074 ≤ t →
      (2 ^ 52 ≤ k ∨ t = -1074) →
      ∃ (k2 t2 : Int), (if s then (-1 : ℚ) else 1) * ((k : ℚ) * (2 : ℚ) ^ t) =
        (k2 : ℚ) * (2 : ℚ) ^ t2 ∧ |k2| < 2 ^ 53 ∧ -1074 ≤ t2 ∧ (2 ^ 52 ≤ |k2| ∨ t2 = -1074) := by
    intro s k t hk ht hn
    cases s
    · refine ⟨(k : Int), t, by simp, ?_, ht, ?_⟩
      · rw [abs_of_nonneg (by positivity)]; exact_mod_cast hk
      · rcases hn with hn | hn
        · left; rw [abs_of_nonneg (by positivity)]; exact_mod_cast hn
        · exact Or.inr hn
    · refine ⟨-(k : Int), t, by simp, ?_, ht, ?_⟩
      · rw [abs_neg, abs_of_nonneg (by positivity)]; exact_mod_cast hk
      · rcases hn with hn | hn
        · left; rw [abs_neg, abs_of_nonneg (by positivity)]; exact_mod_cast hn
        · exact Or.inr hn
  by_cases h0 : y.expo.val = 0
  · rw [if_pos h0]
    exact hsign y.sign y.frac.val (-1074) (by omega) le_rfl (Or.inr rfl)
  · rw [if_neg h0]
    exact hsign y.sign (2 ^ 52 + y.frac.val) ((y.expo.val : Int) - 1075) (by omega) (by omega)
      (Or.inl (by omega))

end F64

namespace F64

/-- The significand chosen by `ofRatio` is at most `2 ^ 53` and, unless the exponent
is the least one, at least `2 ^ 52`. -/
theorem significand_bounds (m : Nat) (x : ℚ)
    (hnear : ∀ k : Int, |(m : ℚ) - x| ≤ |(k : ℚ) - x|) (hx : x < (2 : ℚ) ^ 53) :
    m ≤ 2 ^ 53 ∧ ((2 : ℚ) ^ 52 ≤ x → 2 ^ 52 ≤ m) := by
  constructor
  · by_contra hc
    have h1 : 2 ^ 53 + 1 ≤ m := by omega
    have h2 : ((2 : ℚ) ^ 53 + 1) ≤ (m : ℚ) := by exact_mod_cast h1
    have h3 := hnear (2 ^ 53)
    rw [abs_of_nonneg (by linarith)] at h3
    have h4 : |(((2 : Int) ^ 53 : Int) : ℚ) - x| = (2 : ℚ) ^ 53 - x := by
      push_cast
      exact abs_of_nonneg (by linarith)
    rw [h4] at h3
    linarith
  · intro hx2
    by_contra hc
    have h1 : m + 1 ≤ 2 ^ 52 := by omega
    have h2 : (m : ℚ) + 1 ≤ (2 : ℚ) ^ 52 := by exact_mod_cast h1
    have h3 := hnear (2 ^ 52)
    rw [abs_of_nonpos (by linarith)] at h3
    have h4 : |(((2 : Int) ^ 52 : Int) : ℚ) - x| = x - (2 : ℚ) ^ 52 := by
      push_cast
      rw [abs_of_nonpos (by linarith)]
      ring
    rw [h4] at h3
    linarith

/-- Function `ofRatio` rounds to nearest: unless it overflows to `+Inf`, its result
is a finite `float64` at least as close to `num / den` as every finite `float64`. -/
theorem ofRatio_nearest (num den : Nat) (hden : 0 < den) :
    ofRatio num den = inf ∨
      ∃ r : ℚ, (ofRatio num den).toRat = some r ∧
        ∀ (y : F64) (v : ℚ), y.toRat = some v →
          |r - (num : ℚ) / den| ≤ |v - (num : ℚ) / den| := by
  rcases Nat.eq_zero_or_pos num with h0 | hnum
  · subst h0
    right
    refine ⟨0, ?_, ?_⟩
    · have : ofRatio 0 den = zero := by simp [ofRatio]
      rw [this]
      simp [toRat, zero, ofBits]
    · intro y v _
      simp
  obtain ⟨e, m, he, hres, hnear, hx53, hx52, _⟩ := ofRatio_shape num den hnum hden
  rw [hres]
  split_ifs with hov
  · exact Or.inl rfl
  right
  generalize hxdef : (num : ℚ) / den / (2 : ℚ) ^ e = x at hnear hx53 hx52
  have hZ := two_zpow_pos e
  have hq : (num : ℚ) / den = x * (2 : ℚ) ^ e := by
    rw [← hxdef]; field_simp; ring
  obtain ⟨hm1, hm2⟩ := significand_bounds m x hnear hx53
  have hE : (((e + 1074).toNat : Nat) : Int) - 1074 = e := by
    rw [Int.toNat_of_nonneg (by omega)]; ring
  have hdec := toRat_ofBits (e + 1074).toNat m (by omega) hm1
    (by
      rcases hx52 with h | h
      · exact Or.inl (hm2 h)
      · right; rw [h]; rfl)
  rw [hE] at hdec
  refine ⟨_, hdec, ?_⟩
  intro y v hy
  obtain ⟨k, t, hv, hk, ht, hkn⟩ := toRat_form y v hy
  -- both distances, in units of `2 ^ e`
  have hd1 : |(m : ℚ) * (2 : ℚ) ^ e - (num : ℚ) / den| = |(m : ℚ) - x| * (2 : ℚ) ^ e := by
    rw [hq, ← sub_mul, abs_mul, abs_of_pos hZ]
  have hd2 : |v - (num : ℚ) / den| = |v / (2 : ℚ) ^ e - x| * (2 : ℚ) ^ e := by
    rw [hq, show v - x * (2 : ℚ) ^ e = (v / (2 : ℚ) ^ e - x) * (2 : ℚ) ^ e by field_simp; ring,
      abs_mul, abs_of_pos hZ]
  rw [hd1, hd2]
  apply mul_le_mul_of_nonneg_right _ hZ.le
  have hw : v / (2 : ℚ) ^ e = (k : ℚ) * (2 : ℚ) ^ (t - e) := by
    rw [hv, zpow_sub₀ (by norm_num)]; field_simp
  rw [hw]
  rcases le_or_lt e t with hte | hte
  · -- the other value is a multiple of `2 ^ e`
    obtain ⟨n, hn⟩ : ∃ n : Nat, t - e = (n : Int) := ⟨(t - e).toNat, by omega⟩
    rw [hn, zpow_natCast]
    have := hnear (k * 2 ^ n)
    push_cast at this
    exact this
  · -- the other value is below `2 ^ 52` units
    have hx52b : (2 : ℚ) ^ 52 ≤ x := by
      rcases hx52 with h | h
      · exact h
      · omega
    have hpow : (2 : ℚ) ^ (t - e) ≤ (2 : ℚ) ^ (-1 : Int) :=
      zpow_le_zpow_right₀ (by norm_num) (by omega)
    have hkq : |(k : ℚ)| < (2 : ℚ) ^ 53 := by
      have : ((|k| : Int) : ℚ) < ((2 ^ 53 : Int) : ℚ) := by exact_mod_cast hk
      simpa using this
    have hwlt : (k : ℚ) * (2 : ℚ) ^ (t - e) < (2 : ℚ) ^ 52 := by
      have h1 : (k : ℚ) * (2 : ℚ) ^ (t - e) ≤ |(k : ℚ)| * (2 : ℚ) ^ (t - e) :=
        mul_le_mul_of_nonneg_right (le_abs_self _) (two_zpow_pos _).le
      have h2 : |(k : ℚ)| * (2 : ℚ) ^ (t - e) ≤ |(k : ℚ)| * (2 : ℚ) ^ (-1 : Int) :=
        mul_le_mul_of_nonneg_left hpow (abs_nonneg _)
      have h3 : |(k : ℚ)| * (2 : ℚ) ^ (-1 : Int) < (2 : ℚ) ^ 53 * (2 : ℚ) ^ (-1 : Int) :=
        mul_lt_mul_of_pos_right hkq (two_zpow_pos _)
      have h4 : (2 : ℚ) ^ 53 * (2 : ℚ) ^ (-1 : Int) = (2 : ℚ) ^ 52 := by norm_num
      linarith
    have h5 := hnear (2 ^ 52)
    have h6 : |(((2 : Int) ^ 52 : Int) : ℚ) - x| = x - (2 : ℚ) ^ 52 := by
      push_cast
      rw [abs_of_nonpos (by linarith)]
      ring
    rw [h6] at h5
    rw [abs_of_nonpos (a := (k : ℚ) * (2 : ℚ) ^ (t - e) - x) (by linarith)]
    linarith

end F64

namespace F64

theorem ofBits_ne_inf (bits : Nat) (h : bits < 2047 * 2 ^ 52) : ofBits false bits ≠ inf := by
  intro hc
  have h1 : (ofBits false bits).expo.val = inf.expo.val := by rw [hc]
  have h2 : bits / 2 ^ 52 < 2047 := (Nat.div_lt_iff_lt_mul (by positivity)).2 h
  have h3 : inf.expo.val = 2047 := by decide
  have h4 : (ofBits false bits).expo.val = bits / 2 ^ 52 % 2048 := rfl
  omega

/-- Function `ofRatio` overflows to `+Inf` exactly from half a unit in the last
place above the largest finite `float64`, that is from `2 ^ 1024 - 2 ^ 970`. -/
theorem ofRatio_eq_inf_iff (num den : Nat) (hden : 0 < den) :
    ofRatio num den = inf ↔ (2 : ℚ) ^ 1024 - (2 : ℚ) ^ 970 ≤ (num : ℚ) / den := by
  rcases Nat.eq_zero_or_pos num with h0 | hnum
  · subst h0
    have h1 : ofRatio 0 den = zero := by simp [ofRatio]
    have h2 : zero ≠ inf := by decide
    rw [h1]
    constructor
    · intro h; exact absurd h h2
    · intro h
      exfalso
      norm_num at h
  obtain ⟨e, m, he, hres, hnear, hx53, hx52, htie⟩ := ofRatio_shape num den hnum hden
  generalize hxdef : (num : ℚ) / den / (2 : ℚ) ^ e = x at hnear hx53 hx52 htie
  have hZ := two_zpow_pos e
  have hq : (num : ℚ) / den = x * (2 : ℚ) ^ e := by
    rw [← hxdef]; field_simp; ring
  obtain ⟨hm1, hm2⟩ := significand_bounds m x hnear hx53
  have hE : (((e + 1074).toNat : Nat) : Int) = e + 1074 := Int.toNat_of_nonneg (by omega)
  generalize (e + 1074).toNat = E at hres hE
  have hxpos : 0 < x := by
    rw [← hxdef]; positivity
  constructor
  · intro hinf
    have hov : 2047 * 2 ^ 52 ≤ E * 2 ^ 52 + m := by
      by_contra hc
      rw [hres, if_neg hc] at hinf
      exact ofBits_ne_inf _ (by omega) hinf
    have hE1 : 2045 ≤ E := by
      by_contra hc
      have : E * 2 ^ 52 ≤ 2044 * 2 ^ 52 := Nat.mul_le_mul_right _ (by omega)
      omega
    rw [hq]
    rcases Nat.lt_or_ge E 2046 with hlt | hge
    · have hE2 : E = 2045 := by omega
      subst hE2
      have he2 : e = 971 := by omega
      subst he2
      have hm3 : m = 2 ^ 53 := by omega
      subst hm3
      have h1 := hnear (2 ^ 53 - 1)
      push_cast at h1
      rw [abs_of_nonneg (by linarith)] at h1
      have h2 : (2 : ℚ) ^ 53 - 1 / 2 ≤ x := by
        by_contra hc
        rw [not_le] at hc
        rcases le_or_lt ((2 : ℚ) ^ 53 - 1) x with h3 | h3
        · rw [abs_of_nonpos (by linarith)] at h1
          linarith
        · rw [abs_of_nonneg (by linarith)] at h1
          linarith
      have h3 : ((2 : ℚ) ^ 53 - 1 / 2) * (2 : ℚ) ^ (971 : Int) ≤ x * (2 : ℚ) ^ (971 : Int) :=
        mul_le_mul_of_nonneg_right h2 hZ.le
      have h4 : ((2 : ℚ) ^ 53 - 1 / 2) * (2 : ℚ) ^ (971 : Int) = (2 : ℚ) ^ 1024 - (2 : ℚ) ^ 970 := by
        norm_num
      linarith
    · have he2 : 972 ≤ e := by omega
      have hx : (2 : ℚ) ^ 52 ≤ x := by
        rcases hx52 with h | h
        · exact h
        · omega
      have h1 : (2 : ℚ) ^ (972 : Int) ≤ (2 : ℚ) ^ e := zpow_le_zpow_right₀ (by norm_num) he2
      have h2 : (2 : ℚ) ^ 52 * (2 : ℚ) ^ (972 : Int) ≤ x * (2 : ℚ) ^ e :=
        mul_le_mul hx h1 (two_zpow_pos _).le hxpos.le
      have h3 : (2 : ℚ) ^ 52 * (2 : ℚ) ^ (972 : Int) = (2 : ℚ) ^ 1024 := by norm_num
      have h4 : (0 : ℚ) < (2 : ℚ) ^ 970 := by positivity
      linarith
  · intro hthr
    rw [hres]
    by_contra hne
    have hov : ¬ (2047 * 2 ^ 52 ≤ E * 2 ^ 52 + m) := by
      intro hc
      rw [if_pos hc] at hne
      exact hne rfl
    rw [hq] at hthr
    have he1 : 971 ≤ e := by
      by_contra hc
      have h1 : (2 : ℚ) ^ e ≤ (2 : ℚ) ^ (970 : Int) := zpow_le_zpow_right₀ (by norm_num) (by omega)
      have h2 : x * (2 : ℚ) ^ e ≤ (2 : ℚ) ^ 53 * (2 : ℚ) ^ (970 : Int) :=
        mul_le_mul hx53.le h1 hZ.le (by positivity)
      have h3 : (2 : ℚ) ^ 53 * (2 : ℚ) ^ (970 : Int) = (2 : ℚ) ^ 1023 := by norm_num
      have h4 : (2 : ℚ) ^ 1023 < (2 : ℚ) ^ 1024 - (2 : ℚ) ^ 970 := by norm_num
      linarith
    have hx : (2 : ℚ) ^ 52 ≤ x := by
      rcases hx52 with h | h
      · exact h
      · omega
    have hm3 := hm2 hx
    have hE2 : E = 2045 := by
      by_contra hc
      have : 2046 * 2 ^ 52 ≤ E * 2 ^ 52 := Nat.mul_le_mul_right _ (by omega)
      omega
    subst hE2
    have he2 : e = 971 := by omega
    subst he2
    have hm4 : m + 1 ≤ 2 ^ 53 := by omega
    have hm5 : (m : ℚ) + 1 ≤ (2 : ℚ) ^ 53 := by exact_mod_cast hm4
    have hx2 : (2 : ℚ) ^ 53 - 1 / 2 ≤ x := by
      have h4 : ((2 : ℚ) ^ 53 - 1 / 2) * (2 : ℚ) ^ (971 : Int) = (2 : ℚ) ^ 1024 - (2 : ℚ) ^ 970 := by
        norm_num
      rw [← h4] at hthr
      exact le_of_mul_le_mul_right hthr hZ
    have h1 := hnear (2 ^ 53)
    push_cast at h1
    rw [abs_of_nonpos (by linarith), abs_of_nonneg (by linarith)] at h1
    have hxeq : x = (2 : ℚ) ^ 53 - 1 / 2 := by linarith
    have hmeq : (m : ℚ) = (2 : ℚ) ^ 53 - 1 := by linarith
    have hmnat : m = 2 ^ 53 - 1 := by
      have : (m : ℚ) = ((2 ^ 53 - 1 : Nat) : ℚ) := by
        rw [hmeq]; norm_num
      exact_mod_cast this
    have hev := htie (by
      rw [hmeq, hxeq, abs_of_nonpos (by norm_num)]
      norm_num)
    omega

end F64

namespace F64

theorem toRat_neg (x : F64) : (neg x).toRat = x.toRat.map (fun q => -q) := by
  simp only [toRat, neg]
  split_ifs <;> simp_all

/-- The conversion `float64(i)` of a 64-bit `int` is a finite `float64` nearest to `i`. -/
theorem ofInt_nearest (i : Int) (hi : i.natAbs ≤ 2 ^ 63) :
    ∃ r : ℚ, (ofInt i).toRat = some r ∧
      ∀ (y : F64) (v : ℚ), y.toRat = some v → |r - (i : ℚ)| ≤ |v - (i : ℚ)| := by
  have hfin : ofNat i.natAbs ≠ inf := by
    intro hc
    have h1 := (ofRatio_eq_inf_iff i.natAbs 1 (by decide)).1 hc
    have h2 : ((i.natAbs : Nat) : ℚ) ≤ (2 : ℚ) ^ 63 := by exact_mod_cast hi
    have h3 : (2 : ℚ) ^ 63 < (2 : ℚ) ^ 1024 - (2 : ℚ) ^ 970 := by norm_num
    simp only [Nat.cast_one, div_one] at h1
    linarith
  rcases ofRatio_nearest i.natAbs 1 (by decide) with h | ⟨r, hr, hnear⟩
  · exact absurd h hfin
  simp only [Nat.cast_one, div_one] at hnear
  have habs : ((i.natAbs : Nat) : ℚ) = |(i : ℚ)| := by
    rw [Nat.cast_natAbs]; push_cast; rfl
  unfold ofInt
  split_ifs with hneg
  · refine ⟨-r, by rw [toRat_neg]; simp [ofNat, hr], ?_⟩
    intro y v hy
    have hy2 : (neg y).toRat = some (-v) := by rw [toRat_neg, hy]; rfl
    have := hnear (neg y) (-v) hy2
    have hiq : (i : ℚ) < 0 := by exact_mod_cast hneg
    rw [habs, abs_of_neg hiq] at this
    rw [show -r - (i : ℚ) = -(r - -(i : ℚ)) by ring, abs_neg,
      show v - (i : ℚ) = -(-v - -(i : ℚ)) by ring, abs_neg]
    exact this
  · refine ⟨r, hr, ?_⟩
    intro y v hy
    have := hnear y v hy
    have hiq : (0 : ℚ) ≤ (i : ℚ) := by exact_mod_cast (not_lt.1 hneg)
    rw [habs, abs_of_nonneg hiq] at this
    exact this

end F64

theorem matchFrom_lit (l : List Char) (items : List RegexItem) (rest : List Char) :
    matchFrom (RegexItem.lit l :: items) (l ++ rest) = matchFrom items rest := by
  have h : l.isPrefixOf (l ++ rest) = true := by
    rw [List.isPrefixOf_iff_prefix]; exact List.prefix_append l rest
  simp [matchFrom, h]

theorem takeWhile_run (cls : Char → Bool) (run rest : List Char)
    (hrun : ∀ c ∈ run, cls c = true) (hrest : ∀ c, rest.head? = some c → cls c = false) :
    (run ++ rest).takeWhile cls = run := by
  induction run with
  | nil =>
    cases rest with
    | nil => rfl
    | cons c cs => simp [List.takeWhile, hrest c rfl]
  | cons c cs ih =>
    have h1 : cls c = true := hrun c (List.mem_cons_self _ _)
    simp only [List.cons_append, List.takeWhile, h1, List.append_eq]
    rw [ih (fun x hx => hrun x (List.mem_cons_of_mem _ hx))]

theorem matchFrom_plus (cls : Char → Bool) (items : List RegexItem) (run rest : List Char)
    (r : List (List Char) × List Char) (hne : run ≠ [])
    (hrun : ∀ c ∈ run, cls c = true) (hrest : ∀ c, rest.head? = some c → cls c = false)
    (hr : matchFrom items rest = some r) :
    matchFrom (RegexItem.plus cls :: items) (run ++ rest) = some r := by
  obtain ⟨n, hn⟩ : ∃ n, run.length = n + 1 :=
    ⟨run.length - 1, by have := List.length_pos.2 hne; omega⟩
  simp only [matchFrom, takeWhile_run cls run rest hrun hrest, hn, List.iota,
    List.findSome?, Nat.succ_eq_add_one]
  rw [← hn, List.drop_left, hr]

theorem matchFrom_group (cls : Char → Bool) (items : List RegexItem) (run rest : List Char)
    (r : List (List Char) × List Char) (hne : run ≠ [])
    (hrun : ∀ c ∈ run, cls c = true) (hrest : ∀ c, rest.head? = some c → cls c = false)
    (hr : matchFrom items rest = some r) :
    matchFrom (RegexItem.group cls :: items) (run ++ rest) = some (run :: r.1, r.2) := by
  obtain ⟨n, hn⟩ : ∃ n, run.length = n + 1 :=
    ⟨run.length - 1, by have := List.length_pos.2 hne; omega⟩
  simp only [matchFrom, takeWhile_run cls run rest hrun hrest, hn, List.iota,
    List.findSome?, Nat.succ_eq_add_one]
  rw [← hn, List.drop_left, hr, List.take_left]
  rfl

theorem reDigit_not_dot (c : Char) (h : reDigit c = true) : c ≠ '.' := by
  rintro rfl; revert h; decide

theorem reDigit_not_space (c : Char) (h : reDigit c = true) : reSpace c = false := by
  by_contra hs
  simp only [Bool.not_eq_false, reSpace, Bool.or_eq_true, beq_iff_eq] at hs
  rcases hs with (((rfl | rfl) | rfl) | rfl) | rfl <;> revert h <;> decide

theorem reDigitDot_of_digit (c : Char) (h : reDigit c = true) : reDigitDot c = true := by
  simp [reDigitDot, h]

theorem digitChar_spec (d : Nat) (h : d < 10) :
    reDigit (Nat.digitChar d) = true ∧ (Nat.digitChar d).toNat - '0'.toNat = d := by
  interval_cases d <;> decide

theorem toDigitsCore_spec : ∀ (fuel n : Nat) (ds : List Char), n < fuel →
    ∃ l, Nat.toDigitsCore 10 fuel n ds = l ++ ds ∧ l ≠ [] ∧ (∀ c ∈ l, reDigit c = true) ∧
      ∀ a, l.foldl (fun a c => a * 10 + (c.toNat - '0'.toNat)) a = a * 10 ^ l.length + n := by
  intro fuel
  induction fuel with
  | zero => intro n ds h; omega
  | succ k ih =>
    intro n ds h
    obtain ⟨hd1, hd2⟩ := digitChar_spec (n % 10) (Nat.mod_lt _ (by decide))
    unfold Nat.toDigitsCore
    simp only
    split_ifs with h0
    · refine ⟨[Nat.digitChar (n % 10)], rfl, by simp, by simpa using hd1, ?_⟩
      intro a
      simp only [List.foldl, hd2, List.length_singleton, pow_one]
      omega
    · obtain ⟨l, hl1, hl2, hl3, hl4⟩ := ih (n / 10) (Nat.digitChar (n % 10) :: ds) (by omega)
      refine ⟨l ++ [Nat.digitChar (n % 10)], by rw [hl1]; simp, by simp, ?_, ?_⟩
      · intro c hc
        rcases List.mem_append.1 hc with hc | hc
        · exact hl3 c hc
        · simp only [List.mem_singleton] at hc; rw [hc]; exact hd1
      · intro a
        rw [List.foldl_append, hl4]
        simp only [List.foldl, hd2, List.length_append, List.length_singleton, pow_succ]
        have := Nat.div_add_mod n 10
        ring_nf
        ring_nf at this
        omega

/-- The decimal writing of a natural number: digits only, at least one, reading back
as the number. -/
theorem toDigits_spec (n : Nat) :
    Nat.toDigits 10 n ≠ [] ∧ (∀ c ∈ Nat.toDigits 10 n, reDigit c = true) ∧
      digitsValue (Nat.toDigits 10 n) = n := by
  obtain ⟨l, h1, h2, h3, h4⟩ := toDigitsCore_spec (n + 1) n [] (by omega)
  unfold Nat.toDigits
  rw [h1, List.append_nil]
  refine ⟨h2, h3, ?_⟩
  unfold digitsValue
  rw [h4]
  simp

theorem readDecimal_digits : ∀ (l rest : List Char) (d : DecimalScan),
    (∀ c ∈ l, reDigit c = true) →
    readDecimal (l ++ rest) d = readDecimal rest
      { mant := l.foldl (fun a c => a * 10 + (c.toNat - '0'.toNat)) d.mant
        scale := if d.sawdot then d.scale + l.length else d.scale
        sawdigits := d.sawdigits || !l.isEmpty
        sawdot := d.sawdot } := by
  intro l
  induction l with
  | nil => intro rest d _; simp
  | cons c cs ih =>
    intro rest d h
    have hc : reDigit c = true := h c (List.mem_cons_self _ _)
    have hdot : c ≠ '.' := reDigit_not_dot c hc
    simp only [List.cons_append, readDecimal, hdot, if_false, hc, if_true, List.append_eq]
    rw [ih rest _ (fun x hx => h x (List.mem_cons_of_mem _ hx))]
    congr 1
    cases hd : d.sawdot
    · simp [hd]
    · simp [hd]; omega

theorem foldl_digits_zero (l : List Char) :
    l.foldl (fun a c => a * 10 + (c.toNat - '0'.toNat)) 0 = digitsValue l := rfl

/-- Reading a string of digits gives the `float64` nearest to the integer written. -/
theorem ParseFloat_digits (l : List Char) (hne : l ≠ []) (h : ∀ c ∈ l, reDigit c = true) :
    (ParseFloat l).1 = F64.ofNat (digitsValue l) := by
  have h1 := readDecimal_digits l [] ⟨0, 0, false, false⟩ h
  rw [List.append_nil] at h1
  have h2 : l.isEmpty = false := by cases l <;> simp_all
  unfold ParseFloat
  rw [h1]
  simp only [readDecimal, h2, Bool.false_or, Bool.not_false, if_true, Bool.false_eq_true,
    if_false, pow_zero, foldl_digits_zero]
  split_ifs <;> rfl

/-- Reading digits, a point and digits gives the `float64` nearest to the decimal written. -/
theorem ParseFloat_decimal (ip fp : List Char) (hne : ip ≠ [])
    (hi : ∀ c ∈ ip, reDigit c = true) (hf : ∀ c ∈ fp, reDigit c = true) :
    (ParseFloat (ip ++ '.' :: fp)).1 =
      F64.ofRatio (digitsValue (ip ++ fp)) (10 ^ fp.length) := by
  have h1 := readDecimal_digits ip ('.' :: fp) ⟨0, 0, false, false⟩ hi
  have h2 : ip.isEmpty = false := by cases ip <;> simp_all
  have h3 := readDecimal_digits fp []
    ⟨ip.foldl (fun a c => a * 10 + (c.toNat - '0'.toNat)) 0, 0, true, true⟩ hf
  rw [List.append_nil] at h3
  unfold ParseFloat
  rw [h1]
  simp only [readDecimal, h2, Bool.false_or, Bool.not_false, if_true, Bool.false_eq_true,
    if_false]
  rw [h3]
  simp only [readDecimal, Bool.true_or, if_true, Nat.zero_add]
  have h4 : digitsValue (ip ++ fp) =
      fp.foldl (fun a c => a * 10 + (c.toNat - '0'.toNat))
        (ip.foldl (fun a c => a * 10 + (c.toNat - '0'.toNat)) 0) := by
    unfold digitsValue; rw [List.foldl_append]
  rw [h4]
  split_ifs <;> rfl

theorem head_space_not (cls : Char → Bool) (hcls : cls ' ' = false) (t : List Char) :
    ∀ c, (' ' :: t).head? = some c → cls c = false := by
  intro c hc
  simp only [List.head?_cons, Option.some.injEq] at hc
  rw [← hc]; exact hcls

theorem benchmarkRe_match (name it nsd tp chd : List Char)
    (hname : name ≠ []) (hsp : ∀ c ∈ name, reSpace c = false)
    (hit : it ≠ []) (hitd : ∀ c ∈ it, reDigit c = true)
    (hns : nsd ≠ []) (hnsd : ∀ c ∈ nsd, reDigit c = true)
    (htp : tp ≠ []) (htpd : ∀ c ∈ tp, reDigitDot c = true)
    (hch : chd ≠ []) (hchd : ∀ c ∈ chd, reDigit c = true) :
    matchFrom benchmarkRe
      ("Benchmark_".data ++ (name ++ ([' '] ++ (it ++ ([' '] ++ (nsd ++ ([' '] ++
        ("ns/op".data ++ ([' '] ++ (tp ++ ([' '] ++ ("MB/s".data ++ ([' '] ++
          (chd ++ ([' '] ++ ("chunks".data ++ [])))))))))))))))) =
      some ([name, nsd, tp, chd], []) := by
  have hsp1 : ∀ c ∈ [' '], reSpace c = true := by
    intro c hc; simp only [List.mem_singleton] at hc; rw [hc]; decide
  have hds : ∀ l : List Char, (∀ c ∈ l, reDigit c = true) → ∀ c ∈ l, reSpace c = false :=
    fun l h c hc => reDigit_not_space c (h c hc)
  have h16 : matchFrom [RegexItem.lit "chunks".data] ("chunks".data ++ []) = some ([], []) := by
    rw [matchFrom_lit]; rfl
  have h15 := matchFrom_plus reSpace _ [' '] _ _ (by simp) hsp1
    (by intro c hc; simp only [List.append_nil] at hc; cases hc; decide) h16
  have h14 := matchFrom_group reDigit _ chd _ _ hch hchd
    (head_space_not reDigit (by decide) _) h15
  have h13 := matchFrom_plus reSpace _ [' '] _ _ (by simp) hsp1
    (by
      intro c hc
      cases chd with
      | nil => exact absurd rfl hch
      | cons d ds =>
        simp only [List.cons_append, List.head?_cons, Option.some.injEq] at hc
        rw [← hc]; exact reDigit_not_space d (hchd d (List.mem_cons_self _ _))) h14
  have h12 : matchFrom _ ("MB/s".data ++ _) = _ := (matchFrom_lit "MB/s".data _ _).trans h13
  have h11 := matchFrom_plus reSpace _ [' '] _ _ (by simp) hsp1
    (by intro c hc; cases hc; decide) h12
  have h10 := matchFrom_group reDigitDot _ tp _ _ htp htpd
    (head_space_not reDigitDot (by decide) _) h11
  have htps : ∀ c ∈ tp, reSpace c = false := by
    intro c hc
    have := htpd c hc
    simp only [reDigitDot, Bool.or_eq_true, beq_iff_eq] at this
    rcases this with h | h
    · exact reDigit_not_space c h
    · rw [h]; decide
  have h9 := matchFrom_plus reSpace _ [' '] _ _ (by simp) hsp1
    (by
      intro c hc
      cases tp with
      | nil => exact absurd rfl htp
      | cons d ds =>
        simp only [List.cons_append, List.head?_cons, Option.some.injEq] at hc
        rw [← hc]; exact htps d (List.mem_cons_self _ _)) h10
  have h8 : matchFrom _ ("ns/op".data ++ _) = _ := (matchFrom_lit "ns/op".data _ _).trans h9
  have h7 := matchFrom_plus reSpace _ [' '] _ _ (by simp) hsp1
    (by intro c hc; cases hc; decide) h8
  have h6 := matchFrom_group reDigit _ nsd _ _ hns hnsd
    (head_space_not reDigit (by decide) _) h7
  have h5 := matchFrom_plus reSpace _ [' '] _ _ (by simp) hsp1
    (by
      intro c hc
      cases nsd with
      | nil => exact absurd rfl hns
      | cons d ds =>
        simp only [List.cons_append, List.head?_cons, Option.some.injEq] at hc
        rw [← hc]; exact reDigit_not_space d (hnsd d (List.mem_cons_self _ _))) h6
  have h4 := matchFrom_plus reDigit _ it _ _ hit hitd
    (head_space_not reDigit (by decide) _) h5
  have h3 := matchFrom_plus reSpace _ [' '] _ _ (by simp) hsp1
    (by
      intro c hc
      cases it with
      | nil => exact absurd rfl hit
      | cons d ds =>
        simp only [List.cons_append, List.head?_cons, Option.some.injEq] at hc
        rw [← hc]; exact reDigit_not_space d (hitd d (List.mem_cons_self _ _))) h4
  have h2 := matchFrom_group reNotSpace _ name _ _ hname
    (by intro c hc; simp [reNotSpace, hsp c hc])
    (head_space_not reNotSpace (by decide) _) h3
  exact (matchFrom_lit "Benchmark_".data _ _).trans h2

/-- C10. A line written in the shape of the pattern, with a non-empty name free of
whitespace, natural numbers in decimal and a throughput written as digits with an
optional point and fraction digits, parses to the record holding the name, the
exact `ns` and `chunks` (below `2 ^ 53`) and, as throughput, the `float64` that
`strconv.ParseFloat` gives for the decimal written: a finite `float64` nearest to
it, or `+Inf` when it overflows. -/
theorem parseLine_round_trip (name : String) (iters ns chunks : Nat) (ip fp : List Char)
    (hname : name.data ≠ []) (hsp : ∀ c ∈ name.data, reSpace c = false)
    (hns : ns < 2 ^ 53) (hch : chunks < 2 ^ 53)
    (hip : ip ≠ []) (hipd : ∀ c ∈ ip, reDigit c = true) (hfpd : ∀ c ∈ fp, reDigit c = true) :
    ∃ b, parseLine ("Benchmark_" ++ name ++ " " ++ Nat.repr iters ++ " " ++ Nat.repr ns ++
          " ns/op " ++ String.mk (ip ++ if fp = [] then [] else '.' :: fp) ++ " MB/s " ++
          Nat.repr chunks ++ " chunks") = some b ∧
      b.Name = name ∧
      b.NsPerOp = F64.ofNat ns ∧ b.NsPerOp.toRat = some (ns : ℚ) ∧
      b.Throughput = F64.ofRatio (digitsValue (ip ++ fp)) (10 ^ fp.length) ∧
      (b.Throughput = F64.inf ∨ ∃ r : ℚ, b.Throughput.toRat = some r ∧
        ∀ (y : F64) (v : ℚ), y.toRat = some v →
          |r - (digitsValue (ip ++ fp) : ℚ) / ((10 ^ fp.length : Nat) : ℚ)| ≤
            |v - (digitsValue (ip ++ fp) : ℚ) / ((10 ^ fp.length : Nat) : ℚ)|) ∧
      b.Chunks = F64.ofNat chunks ∧ b.Chunks.toRat = some (chunks : ℚ) := by
  obtain ⟨hi1, hi2, _⟩ := toDigits_spec iters
  obtain ⟨hn1, hn2, hn3⟩ := toDigits_spec ns
  obtain ⟨hc1, hc2, hc3⟩ := toDigits_spec chunks
  have htp1 : (ip ++ if fp = [] then [] else '.' :: fp) ≠ [] := by simp [hip]
  have htp2 : ∀ c ∈ (ip ++ if fp = [] then [] else '.' :: fp), reDigitDot c = true := by
    intro c hc
    rcases List.mem_append.1 hc with h | h
    · exact reDigitDot_of_digit c (hipd c h)
    · split_ifs at h with hfp
      · simp at h
      · rcases List.mem_cons.1 h with rfl | h
        · decide
        · exact reDigitDot_of_digit c (hfpd c h)
  have hm := benchmarkRe_match name.data (Nat.toDigits 10 iters) (Nat.toDigits 10 ns)
    (ip ++ if fp = [] then [] else '.' :: fp) (Nat.toDigits 10 chunks)
    hname hsp hi1 hi2 hn1 hn2 htp1 htp2 hc1 hc2
  have hline : ("Benchmark_" ++ name ++ " " ++ Nat.repr iters ++ " " ++ Nat.repr ns ++
      " ns/op " ++ String.mk (ip ++ if fp = [] then [] else '.' :: fp) ++ " MB/s " ++
      Nat.repr chunks ++ " chunks").data =
      ("Benchmark_".data ++ (name.data ++ ([' '] ++ (Nat.toDigits 10 iters ++ ([' '] ++
        (Nat.toDigits 10 ns ++ ([' '] ++ ("ns/op".data ++ ([' '] ++
          ((ip ++ if fp = [] then [] else '.' :: fp) ++ ([' '] ++ ("MB/s".data ++ ([' '] ++
            (Nat.toDigits 10 chunks ++ ([' '] ++ ("chunks".data ++ [])))))))))))))))) := by
    simp only [String.data_append, Nat.repr, List.asString, List.append_assoc, List.append_nil]
    rfl
  have htput : (ParseFloat (ip ++ if fp = [] then [] else '.' :: fp)).1 =
      F64.ofRatio (digitsValue (ip ++ fp)) (10 ^ fp.length) := by
    split_ifs with hfp
    · subst hfp
      rw [List.append_nil, ParseFloat_digits ip hip hipd]
      simp [F64.ofNat]
    · exact ParseFloat_decimal ip fp hip hipd hfpd
  have hp : parseLine ("Benchmark_" ++ name ++ " " ++ Nat.repr iters ++ " " ++ Nat.repr ns ++
      " ns/op " ++ String.mk (ip ++ if fp = [] then [] else '.' :: fp) ++ " MB/s " ++
      Nat.repr chunks ++ " chunks") =
      some { Name := name, NsPerOp := (ParseFloat (Nat.toDigits 10 ns)).1,
             Throughput := (ParseFloat (ip ++ if fp = [] then [] else '.' :: fp)).1,
             Chunks := (ParseFloat (Nat.toDigits 10 chunks)).1 } := by
    unfold parseLine
    simp only [FindStringSubmatch, hline, hm]
    rfl
  refine ⟨_, hp, rfl, ?_, ?_, htput, ?_, ?_, ?_⟩
  · show (ParseFloat (Nat.toDigits 10 ns)).1 = _
    rw [ParseFloat_digits _ hn1 hn2, hn3]
  · show (ParseFloat (Nat.toDigits 10 ns)).1.toRat = _
    rw [ParseFloat_digits _ hn1 hn2, hn3]; exact F64.toRat_ofNat ns hns
  · show (ParseFloat (ip ++ if fp = [] then [] else '.' :: fp)).1 = F64.inf ∨ _
    rw [htput]
    exact F64.ofRatio_nearest _ _ (by positivity)
  · show (ParseFloat (Nat.toDigits 10 chunks)).1 = _
    rw [ParseFloat_digits _ hc1 hc2, hc3]
  · show (ParseFloat (Nat.toDigits 10 chunks)).1.toRat = _
    rw [ParseFloat_digits _ hc1 hc2, hc3]; exact F64.toRat_ofNat chunks hch

theorem parseLine_round_trip_witness :
    ∃ b, parseLine ("Benchmark_" ++ "FastCDC-14" ++ " " ++ Nat.repr 1000 ++ " " ++ Nat.repr 345 ++
          " ns/op " ++ String.mk (['1', '2', '0'] ++ if ['5'] = [] then [] else '.' :: ['5']) ++
          " MB/s " ++ Nat.repr 83 ++ " chunks") = some b ∧
      b.Name = "FastCDC-14" ∧
      b.NsPerOp = F64.ofNat 345 ∧ b.NsPerOp.toRat = some ((345 : Nat) : ℚ) ∧
      b.Throughput = F64.ofRatio (digitsValue (['1', '2', '0'] ++ ['5'])) (10 ^ ['5'].length) ∧
      (b.Throughput = F64.inf ∨ ∃ r : ℚ, b.Throughput.toRat = some r ∧
        ∀ (y : F64) (v : ℚ), y.toRat = some v →
          |r - (digitsValue (['1', '2', '0'] ++ ['5']) : ℚ) / ((10 ^ ['5'].length : Nat) : ℚ)| ≤
            |v - (digitsValue (['1', '2', '0'] ++ ['5']) : ℚ) / ((10 ^ ['5'].length : Nat) : ℚ)|) ∧
      b.Chunks = F64.ofNat 83 ∧ b.Chunks.toRat = some ((83 : Nat) : ℚ) :=
  parseLine_round_trip "FastCDC-14" 1000 345 83 ['1', '2', '0'] ['5'] (by decide) (by decide)
    (by decide) (by decide) (by decide) (by decide) (by decide)

/-- C3, as stated, fails: the line of the example has no `ns/op` after the
nanoseconds number, the pattern does not match it and `parseLine` returns `nil`. -/
theorem parseLine_example_without_unit :
    parseLine "Benchmark_FastCDC-14  1000  345  120.5 MB/s  83 chunks" = none := by
  decide

/-- C3, amended. With the unit `ns/op` after the nanoseconds number the line of the
example parses to the record of name `FastCDC-14` with `NsPerOp = 345`,
`Throughput = 120.5` and `Chunks = 83`. -/
theorem parseLine_example_with_unit :
    parseLine "Benchmark_FastCDC-14  1000  345 ns/op  120.5 MB/s  83 chunks" =
        some { Name := "FastCDC-14", NsPerOp := F64.ofNat 345,
               Throughput := F64.ofRatio 1205 10, Chunks := F64.ofNat 83 } ∧
      (F64.ofNat 345).toRat = some 345 ∧ (F64.ofRatio 1205 10).toRat = some (241 / 2) ∧
      (F64.ofNat 83).toRat = some 83 := by
  refine ⟨by decide, ?_, ?_, ?_⟩
  · exact_mod_cast F64.toRat_ofNat 345 (by decide)
  · have h : F64.ofRatio 1205 10 = F64.ofBits false (1029 * 2 ^ 52 + 0xE200000000000) := by
      decide
    obtain ⟨h1, h2, h3⟩ := F64.ofBits_expo false 1029 0xE200000000000 (by decide) (by decide)
    rw [h]
    simp only [F64.toRat, h1, h2, h3]
    norm_num
  · exact_mod_cast F64.toRat_ofNat 83 (by decide)

/-- C7, as stated, fails: a run-count suffix other than `-14` is kept, and a leading
`Benchmark_` is removed. -/
theorem barLabel_keeps_other_suffix :
    barLabel ⟨"FastCDC-8", F64.zero, F64.zero, F64.zero⟩ = "FastCDC-8" ∧
      barLabel ⟨"Benchmark_JC", F64.zero, F64.zero, F64.zero⟩ = "JC" := by
  decide

theorem TrimPrefix_spec (s pre : List Char) :
    (∃ r, s = pre ++ r ∧ TrimPrefix s pre = r) ∨ (¬ pre <+: s ∧ TrimPrefix s pre = s) := by
  unfold TrimPrefix
  split_ifs with h
  · left
    rw [List.isPrefixOf_iff_prefix] at h
    obtain ⟨r, rfl⟩ := h
    exact ⟨r, rfl, List.drop_left _ _⟩
  · right
    rw [List.isPrefixOf_iff_prefix] at h
    exact ⟨h, rfl⟩

theorem TrimSuffix_spec (s suf : List Char) :
    (∃ r, s = r ++ suf ∧ TrimSuffix s suf = r) ∨ (¬ suf <:+ s ∧ TrimSuffix s suf = s) := by
  unfold TrimSuffix
  split_ifs with h
  · left
    rw [List.isSuffixOf_iff_suffix] at h
    obtain ⟨r, rfl⟩ := h
    refine ⟨r, rfl, ?_⟩
    simp
  · right
    rw [List.isSuffixOf_iff_suffix] at h
    exact ⟨h, rfl⟩

/-- C7, amended. The display label is the name with a leading `Benchmark_` removed
when present, and then with a trailing `-14` removed when present; a name without
that prefix and that suffix, such as one ending in `-8`, is its own label. -/
theorem barLabel_spec (b : Benchmark) :
    ∃ core : List Char,
      ((∃ r, b.Name.data = "Benchmark_".data ++ r ∧ core = r) ∨
        (¬ "Benchmark_".data <+: b.Name.data ∧ core = b.Name.data)) ∧
      ((∃ r, core = r ++ "-14".data ∧ (barLabel b).data = r) ∨
        (¬ "-14".data <:+ core ∧ (barLabel b).data = core)) := by
  refine ⟨TrimPrefix b.Name.data "Benchmark_".data, ?_, ?_⟩
  · rcases TrimPrefix_spec b.Name.data "Benchmark_".data with ⟨r, h1, h2⟩ | ⟨h1, h2⟩
    · exact Or.inl ⟨r, h1, h2⟩
    · exact Or.inr ⟨h1, h2⟩
  · exact TrimSuffix_spec _ _

/-! ## Slices as index maps -/

theorem PermOn.refl {α : Type} (a b : Nat) (d : List α) : PermOn a b d d :=
  ⟨rfl, Equiv.refl _, fun _ _ => rfl, fun _ => rfl⟩

theorem PermOn.trans {α : Type} {a b : Nat} {d1 d2 d3 : List α}
    (h1 : PermOn a b d1 d2) (h2 : PermOn a b d2 d3) : PermOn a b d1 d3 := by
  obtain ⟨l1, σ1, f1, g1⟩ := h1
  obtain ⟨l2, σ2, f2, g2⟩ := h2
  refine ⟨l2.trans l1, σ2.trans σ1, ?_, ?_⟩
  · intro k hk
    simp only [Equiv.trans_apply]
    rw [f2 k hk, f1 k hk]
  · intro k
    simp only [Equiv.trans_apply]
    rw [g2, g1]

theorem PermOn.mono {α : Type} {a b a2 b2 : Nat} {d1 d2 : List α}
    (h : PermOn a b d1 d2) (ha : a2 ≤ a) (hb : b ≤ b2) : PermOn a2 b2 d1 d2 := by
  obtain ⟨l1, σ1, f1, g1⟩ := h
  exact ⟨l1, σ1, fun k hk => f1 k (by omega), g1⟩

theorem PermOn.length_eq {α : Type} {a b : Nat} {d1 d2 : List α} (h : PermOn a b d1 d2) :
    d2.length = d1.length := h.1

/-- Outside `[a, b)` the slice is unchanged. -/
theorem PermOn.frame {α : Type} {a b : Nat} {d1 d2 : List α} (h : PermOn a b d1 d2)
    (k : Nat) (hk : k < a ∨ b ≤ k) : d2[k]? = d1[k]? := by
  obtain ⟨_, σ, f, g⟩ := h
  rw [g, f k hk]

theorem PermOn.keyAt_frame {α : Type} (key : α → Int) {a b : Nat} {d1 d2 : List α}
    (h : PermOn a b d1 d2) (k : Nat) (hk : k < a ∨ b ≤ k) : keyAt key d2 k = keyAt key d1 k := by
  unfold keyAt
  rw [h.frame k hk]

/-- Every element of the new `[a, b)` is an element of the old `[a, b)`. -/
theorem PermOn.exists_index {α : Type} {a b : Nat} {d1 d2 : List α} (h : PermOn a b d1 d2)
    (k : Nat) (hk : a ≤ k ∧ k < b) : ∃ k2, (a ≤ k2 ∧ k2 < b) ∧ d2[k]? = d1[k2]? := by
  obtain ⟨_, σ, f, g⟩ := h
  refine ⟨σ k, ?_, g k⟩
  by_contra hc
  have h1 : σ (σ k) = σ k := f (σ k) (by omega)
  have h2 : σ k = k := σ.injective h1
  omega

/-- A bound on the keys of `[a, b)` is kept by a permutation of `[a, b)`. -/
theorem PermOn.keys {α : Type} (key : α → Int) {a b : Nat} {d1 d2 : List α}
    (h : PermOn a b d1 d2) (P : Int → Prop) (hP : ∀ k, a ≤ k → k < b → P (keyAt key d1 k)) :
    ∀ k, a ≤ k → k < b → P (keyAt key d2 k) := by
  intro k hk1 hk2
  obtain ⟨k2, hk2r, he⟩ := h.exists_index k ⟨hk1, hk2⟩
  unfold keyAt
  rw [he]
  exact hP k2 hk2r.1 hk2r.2

theorem PermOn.mem {α : Type} {a b : Nat} {d1 d2 : List α} (h : PermOn a b d1 d2)
    (x : α) (hx : x ∈ d2) : x ∈ d1 := by
  obtain ⟨_, σ, f, g⟩ := h
  obtain ⟨k, hk⟩ := List.mem_iff_getElem?.1 hx
  rw [g] at hk
  exact List.getElem?_mem hk

theorem range_map_getElem? {α : Type} (d : List α) :
    (List.range d.length).map (fun k => d[k]?) = d.map some := by
  apply List.ext_getElem?
  intro n
  simp only [List.getElem?_map, List.getElem?_range]
  by_cases hn : n < d.length
  · simp [List.getElem?_range, hn]
  · have : d.length ≤ n := by omega
    simp [List.getElem?_eq_none, this]

/-- A permutation of the whole slice is a permutation of the list. -/
theorem PermOn.perm {α : Type} {d1 d2 : List α} {b : Nat} (h : PermOn 0 b d1 d2)
    (hb : b ≤ d1.length) : d2.Perm d1 := by
  obtain ⟨hl, σ, f, g⟩ := h
  have hf : ∀ k, d1.length ≤ k → σ k = k := fun k hk => f k (Or.inr (by omega))
  have hfs : ∀ k, d1.length ≤ k → σ.symm k = k := by
    intro k hk
    have := hf k hk
    rw [Equiv.symm_apply_eq]; exact this.symm
  have hmaps : ∀ k, k < d1.length → σ k < d1.length := by
    intro k hk
    by_contra hc
    have h1 : σ (σ k) = σ k := hf (σ k) (by omega)
    have h2 : σ k = k := σ.injective h1
    omega
  have hmapss : ∀ k, k < d1.length → σ.symm k < d1.length := by
    intro k hk
    by_contra hc
    have h1 : σ.symm (σ.symm k) = σ.symm k := hfs (σ.symm k) (by omega)
    have h2 : σ.symm k = k := σ.symm.injective h1
    omega
  have hp : ((List.range d1.length).map σ).Perm (List.range d1.length) := by
    apply (List.perm_ext_iff_of_nodup ((List.nodup_range _).map σ.injective)
      (List.nodup_range _)).2
    intro x
    simp only [List.mem_map, List.mem_range]
    constructor
    · rintro ⟨k, hk, rfl⟩; exact hmaps k hk
    · intro hx; exact ⟨σ.symm x, hmapss x hx, by simp⟩
  have h2 : d2.map some = ((List.range d1.length).map σ).map (fun k => d1[k]?) := by
    rw [← range_map_getElem? d2, hl, List.map_map]
    apply List.map_congr_left
    intro k _
    exact g k
  have h3 : (d2.map some).Perm (d1.map some) := by
    rw [h2, ← range_map_getElem? d1]
    exact hp.map _
  have h4 := h3.filterMap id
  simpa [List.filterMap_map] using h4

theorem getElem?_SwapAt {α : Type} (d : List α) (i j : Nat) (hi : i < d.length)
    (hj : j < d.length) (k : Nat) : (SwapAt d i j)[k]? = d[Equiv.swap i j k]? := by
  unfold SwapAt
  rw [List.getElem?_eq_getElem hi, List.getElem?_eq_getElem hj]
  simp only
  rw [List.getElem?_set, List.getElem?_set]
  simp only [List.length_set]
  by_cases hkj : j = k
  · subst hkj
    simp [hj, List.getElem?_eq_getElem hi]
  · by_cases hki : i = k
    · subst hki
      simp [hkj, hi, List.getElem?_eq_getElem hj]
    · rw [if_neg hkj, if_neg hki, Equiv.swap_apply_of_ne_of_ne (Ne.symm hki) (Ne.symm hkj)]

theorem length_SwapAt {α : Type} (d : List α) (i j : Nat) : (SwapAt d i j).length = d.length := by
  unfold SwapAt
  split <;> simp

/-- Exchanging two elements of `[a, b)` permutes `[a, b)`. -/
theorem PermOn.swap {α : Type} (a b : Nat) (d : List α) (i j : Nat)
    (hi : a ≤ i ∧ i < b) (hj : a ≤ j ∧ j < b) (hb : b ≤ d.length) :
    PermOn a b d (SwapAt d i j) := by
  refine ⟨length_SwapAt d i j, Equiv.swap i j, ?_, ?_⟩
  · intro k hk
    exact Equiv.swap_apply_of_ne_of_ne (by omega) (by omega)
  · intro k
    exact getElem?_SwapAt d i j (by omega) (by omega) k

theorem keyAt_SwapAt {α : Type} (key : α → Int) (d : List α) (i j : Nat) (hi : i < d.length)
    (hj : j < d.length) (k : Nat) :
    keyAt key (SwapAt d i j) k =
      if k = i then keyAt key d j else if k = j then keyAt key d i else keyAt key d k := by
  unfold keyAt
  rw [getElem?_SwapAt d i j hi hj]
  by_cases h1 : k = i
  · subst h1; simp
  · by_cases h2 : k = j
    · subst h2; simp [h1]
    · rw [Equiv.swap_apply_of_ne_of_ne h1 h2]; simp [h1, h2]

theorem KeyOrder.lessAt_iff {α : Type} (C : KeyOrder α) (d : List α) (hok : ∀ x ∈ d, C.ok x)
    (i j : Nat) (hi : i < d.length) (hj : j < d.length) :
    LessAt C.less d i j = true ↔ keyAt C.key d i < keyAt C.key d j := by
  unfold LessAt keyAt
  rw [List.getElem?_eq_getElem hi, List.getElem?_eq_getElem hj]
  exact C.less_iff _ _ (hok _ (List.getElem_mem _)) (hok _ (List.getElem_mem _))

theorem KeyOrder.lessAt_false_iff {α : Type} (C : KeyOrder α) (d : List α)
    (hok : ∀ x ∈ d, C.ok x) (i j : Nat) (hi : i < d.length) (hj : j < d.length) :
    LessAt C.less d i j = false ↔ keyAt C.key d j ≤ keyAt C.key d i := by
  rw [← Bool.not_eq_true, C.lessAt_iff d hok i j hi hj]
  omega

/-! ## Insertion sort -/

theorem AdjSorted.sortedOn {α : Type} {key : α → Int} {a b : Nat} {d : List α}
    (h : AdjSorted key a b d) : SortedOn key a b d := by
  intro i j hi hij hj
  obtain ⟨n, rfl⟩ : ∃ n, j = i + n := ⟨j - i, by omega⟩
  clear hij
  induction n with
  | zero => exact le_rfl
  | succ n ih =>
    have h1 := ih (by omega)
    have h2 := h (i + n) (by omega) (by omega)
    have h3 : i + (n + 1) = i + n + 1 := by omega
    rw [h3]
    omega

theorem SortedOn.adjSorted {α : Type} {key : α → Int} {a b : Nat} {d : List α}
    (h : SortedOn key a b d) : AdjSorted key a b d :=
  fun k hk1 hk2 => h k (k + 1) hk1 (by omega) hk2

theorem insertionSortInner_spec {α : Type} (C : KeyOrder α) (a i : Nat) :
    ∀ (j : Nat) (d : List α), (∀ x ∈ d, C.ok x) → a ≤ j → j ≤ i → i < d.length →
      (∀ k, a ≤ k → k + 1 ≤ i → k + 1 ≠ j → keyAt C.key d k ≤ keyAt C.key d (k + 1)) →
      (a < j → j < i → keyAt C.key d (j - 1) ≤ keyAt C.key d (j + 1)) →
      PermOn a (i + 1) d (insertionSortInner C.less a j d) ∧
        AdjSorted C.key a (i + 1) (insertionSortInner C.less a j d) := by
  intro j
  induction j with
  | zero =>
    intro d _ ha _ _ h1 _
    refine ⟨PermOn.refl _ _ _, ?_⟩
    intro k hk1 hk2
    exact h1 k hk1 (by omega) (by omega)
  | succ j ih =>
    intro d hok ha hji hi h1 h2
    unfold insertionSortInner
    split_ifs with hc
    · obtain ⟨hc1, hc2⟩ := hc
      rw [C.lessAt_iff d hok (j + 1) j (by omega) (by omega)] at hc2
      have hsw : PermOn a (i + 1) d (SwapAt d (j + 1) j) :=
        PermOn.swap a (i + 1) d (j + 1) j (by omega) (by omega) (by omega)
      have hK := keyAt_SwapAt C.key d (j + 1) j (by omega) (by omega)
      obtain ⟨r1, r2⟩ := ih (SwapAt d (j + 1) j) (fun x hx => hok x (hsw.mem x hx))
        (by omega) (by omega) (by rw [length_SwapAt]; exact hi)
        (by
          intro k hk1 hk2 hk3
          rw [hK k, hK (k + 1)]
          by_cases e1 : k = j
          · subst e1
            split_ifs <;> omega
          · by_cases e3 : k = j + 1
            · subst e3
              have := h2 (by omega) (by omega)
              simp only [Nat.add_sub_cancel] at this
              split_ifs <;> omega
            · have := h1 k hk1 hk2
              split_ifs <;> omega)
        (by
          intro hj1 hj2
          rw [hK (j - 1), hK (j + 1)]
          have := h1 (j - 1) (by omega) (by omega) (by omega)
          have e : j - 1 + 1 = j := by omega
          rw [e] at this
          split_ifs <;> omega)
      exact ⟨hsw.trans r1, r2⟩
    · refine ⟨PermOn.refl _ _ _, ?_⟩
      intro k hk1 hk2
      by_cases e : k + 1 = j + 1
      · have hja : j + 1 > a := by omega
        have hl : LessAt C.less d (j + 1) j = false := by
          by_contra hcon
          exact hc ⟨hja, by simpa using hcon⟩
        rw [C.lessAt_false_iff d hok (j + 1) j (by omega) (by omega)] at hl
        have e2 : k = j := by omega
        subst e2
        exact hl
      · exact h1 k hk1 (by omega) e

theorem insertionSort_fold_spec {α : Type} (C : KeyOrder α) (a b : Nat) :
    ∀ (n i : Nat) (d : List α), (∀ x ∈ d, C.ok x) → a < i → i + n ≤ b → b ≤ d.length →
      AdjSorted C.key a i d →
      PermOn a b d ((List.range' i n).foldl (fun data i => insertionSortInner C.less a i data) d) ∧
        AdjSorted C.key a (i + n)
          ((List.range' i n).foldl (fun data i => insertionSortInner C.less a i data) d) := by
  intro n
  induction n with
  | zero =>
    intro i d _ _ _ _ h
    exact ⟨PermOn.refl _ _ _, h⟩
  | succ n ih =>
    intro i d hok hai hin hb h
    simp only [List.range', List.foldl]
    obtain ⟨p1, s1⟩ := insertionSortInner_spec C a i i d hok (by omega) le_rfl (by omega)
      (fun k hk1 hk2 hk3 => h k hk1 (by omega)) (fun _ hlt => absurd hlt (lt_irrefl _))
    have p1b : PermOn a b d (insertionSortInner C.less a i d) := p1.mono le_rfl (by omega)
    obtain ⟨p2, s2⟩ := ih (i + 1) (insertionSortInner C.less a i d)
      (fun x hx => hok x (p1.mem x hx)) (by omega) (by omega) (by rw [p1.length_eq]; exact hb) s1
    refine ⟨p1b.trans p2, ?_⟩
    have e : i + (n + 1) = i + 1 + n := by omega
    rw [e]
    exact s2

/-- Insertion sort permutes `data[a:b]` into non-decreasing order of the keys. -/
theorem insertionSort_func_spec {α : Type} (C : KeyOrder α) (d : List α) (a b : Nat)
    (hok : ∀ x ∈ d, C.ok x) (hb : b ≤ d.length) :
    PermOn a b d (insertionSort_func C.less d a b) ∧
      SortedOn C.key a b (insertionSort_func C.less d a b) := by
  unfold insertionSort_func
  by_cases hab : a + 1 ≤ b
  · obtain ⟨p, s⟩ := insertionSort_fold_spec C a b (b - (a + 1)) (a + 1) d hok (by omega)
      (by omega) hb (fun k hk1 hk2 => by omega)
    have e : a + 1 + (b - (a + 1)) = b := by omega
    rw [e] at s
    exact ⟨p, s.sortedOn⟩
  · have e : b - (a + 1) = 0 := by omega
    rw [e]
    exact ⟨PermOn.refl _ _ _, fun i j h1 h2 h3 => by omega⟩

/-! ## Heap sort -/

theorem siftDownLoop_spec {α : Type} (C : KeyOrder α) (lo hi first : Nat) :
    ∀ (fuel root : Nat) (d : List α), (∀ x ∈ d, C.ok x) → first + hi ≤ d.length →
      lo ≤ root → hi ≤ root + fuel →
      (∀ i c, lo ≤ i → i < hi → i ≠ root → (c = 2 * i + 1 ∨ c = 2 * i + 2) → c < hi →
        keyAt C.key d (first + c) ≤ keyAt C.key d (first + i)) →
      (∀ p c, lo ≤ p → (root = 2 * p + 1 ∨ root = 2 * p + 2) →
        (c = 2 * root + 1 ∨ c = 2 * root + 2) → c < hi →
        keyAt C.key d (first + c) ≤ keyAt C.key d (first + p)) →
      PermOn (first + lo) (first + hi) d (siftDownLoop C.less hi first fuel root d) ∧
        (∀ i c, lo ≤ i → i < hi → (c = 2 * i + 1 ∨ c = 2 * i + 2) → c < hi →
          keyAt C.key (siftDownLoop C.less hi first fuel root d) (first + c) ≤
            keyAt C.key (siftDownLoop C.less hi first fuel root d) (first + i)) := by
  intro fuel
  induction fuel with
  | zero =>
    intro root d _ _ _ hf h1 _
    refine ⟨PermOn.refl _ _ _, ?_⟩
    intro i c hi1 hi2 hc hch
    exact h1 i c hi1 hi2 (by omega) hc hch
  | succ fuel ih =>
    intro root d hok hlen hlo hf h1 h2
    unfold siftDownLoop
    simp only
    split_ifs with hc0 hcs hls hls
    · -- no child
      refine ⟨PermOn.refl _ _ _, ?_⟩
      intro i c hi1 hi2 hc hch
      by_cases e : i = root
      · subst e; omega
      · exact h1 i c hi1 hi2 e hc hch
    · -- right child is the greater, root not less
      obtain ⟨hcs1, hcs2⟩ := hcs
      rw [C.lessAt_iff d hok _ _ (by omega) (by omega)] at hcs2
      rw [C.lessAt_false_iff d hok _ _ (by omega) (by omega)] at hls
      refine ⟨PermOn.refl _ _ _, ?_⟩
      intro i c hi1 hi2 hc hch
      by_cases e : i = root
      · subst e
        rcases hc with rfl | rfl
        · have e2 : first + (2 * i + 1 + 1) = first + (2 * i + 1) + 1 := by omega
          rw [e2] at hls
          omega
        · exact hls
      · exact h1 i c hi1 hi2 e hc hch
    · -- right child is the greater, exchange
      obtain ⟨hcs1, hcs2⟩ := hcs
      rw [C.lessAt_iff d hok _ _ (by omega) (by omega)] at hcs2
      have hls2 : LessAt C.less d (first + root) (first + (2 * root + 1 + 1)) = true := by
        simpa using hls
      rw [C.lessAt_iff d hok _ _ (by omega) (by omega)] at hls2
      have hsw : PermOn (first + lo) (first + hi) d
          (SwapAt d (first + root) (first + (2 * root + 1 + 1))) :=
        PermOn.swap _ _ d _ _ (by omega) (by omega) hlen
      have hK := keyAt_SwapAt C.key d (first + root) (first + (2 * root + 1 + 1))
        (by omega) (by omega)
      have e2 : first + (2 * root + 1) + 1 = first + (2 * root + 1 + 1) := by omega
      rw [e2] at hcs2
      obtain ⟨r1, r2⟩ := ih (2 * root + 1 + 1) (SwapAt d (first + root) (first + (2 * root + 1 + 1)))
        (fun x hx => hok x (hsw.mem x hx)) (by rw [length_SwapAt]; exact hlen) (by omega)
        (by omega)
        (by
          intro i c hi1 hi2 hne hc hch
          rw [hK (first + c), hK (first + i)]
          by_cases e : i = root
          · subst e
            rcases hc with rfl | rfl
            · rw [if_neg (by omega), if_neg (by omega), if_pos rfl]; omega
            · rw [if_neg (by omega), if_pos rfl, if_pos rfl]; omega
          · have hA := h1 i c hi1 hi2 e hc hch
            by_cases ep : c = root
            · subst ep
              have hB := h2 i (2 * c + 1 + 1) hi1 (by omega) (by omega) hcs1
              rw [if_pos rfl, if_neg (by omega), if_neg (by omega)]
              exact hB
            · rw [if_neg (by omega), if_neg (by omega), if_neg (by omega), if_neg (by omega)]
              exact hA)
        (by
          intro p c hp hpc hc hch
          have ep : p = root := by omega
          subst ep
          rw [hK (first + c), hK (first + p)]
          rw [if_neg (by omega), if_neg (by omega), if_pos rfl]
          exact h1 (2 * p + 1 + 1) c (by omega) hcs1 (by omega) hc hch)
      exact ⟨hsw.trans r1, r2⟩
    · -- left child is the candidate, root not less
      rw [C.lessAt_false_iff d hok _ _ (by omega) (by omega)] at hls
      have hsib : 2 * root + 2 < hi →
          keyAt C.key d (first + (2 * root + 2)) ≤ keyAt C.key d (first + (2 * root + 1)) := by
        intro hlt
        have hl : LessAt C.less d (first + (2 * root + 1)) (first + (2 * root + 1) + 1) = false := by
          by_contra hcon
          exact hcs ⟨hlt, by simpa using hcon⟩
        rw [C.lessAt_false_iff d hok _ _ (by omega) (by omega)] at hl
        exact hl
      refine ⟨PermOn.refl _ _ _, ?_⟩
      intro i c hi1 hi2 hc hch
      by_cases e : i = root
      · subst e
        rcases hc with rfl | rfl
        · exact hls
        · have := hsib hch
          omega
      · exact h1 i c hi1 hi2 e hc hch
    · -- left child is the candidate, exchange
      have hls2 : LessAt C.less d (first + root) (first + (2 * root + 1)) = true := by
        simpa using hls
      rw [C.lessAt_iff d hok _ _ (by omega) (by omega)] at hls2
      have hsib : 2 * root + 2 < hi →
          keyAt C.key d (first + (2 * root + 2)) ≤ keyAt C.key d (first + (2 * root + 1)) := by
        intro hlt
        have hl : LessAt C.less d (first + (2 * root + 1)) (first + (2 * root + 1) + 1) = false := by
          by_contra hcon
          exact hcs ⟨hlt, by simpa using hcon⟩
        rw [C.lessAt_false_iff d hok _ _ (by omega) (by omega)] at hl
        exact hl
      have hsw : PermOn (first + lo) (first + hi) d
          (SwapAt d (first + root) (first + (2 * root + 1))) :=
        PermOn.swap _ _ d _ _ (by omega) (by omega) hlen
      have hK := keyAt_SwapAt C.key d (first + root) (first + (2 * root + 1))
        (by omega) (by omega)
      obtain ⟨r1, r2⟩ := ih (2 * root + 1) (SwapAt d (first + root) (first + (2 * root + 1)))
        (fun x hx => hok x (hsw.mem x hx)) (by rw [length_SwapAt]; exact hlen) (by omega)
        (by omega)
        (by
          intro i c hi1 hi2 hne hc hch
          rw [hK (first + c), hK (first + i)]
          by_cases e : i = root
          · subst e
            rcases hc with rfl | rfl
            · rw [if_neg (by omega), if_pos rfl, if_pos rfl]; omega
            · have := hsib hch
              rw [if_neg (by omega), if_neg (by omega), if_pos rfl]; exact this
          · have hA := h1 i c hi1 hi2 e hc hch
            by_cases ep : c = root
            · subst ep
              have hB := h2 i (2 * c + 1) hi1 (by omega) (by omega) (by omega)
              rw [if_pos rfl, if_neg (by omega), if_neg (by omega)]
              exact hB
            · rw [if_neg (by omega), if_neg (by omega), if_neg (by omega), if_neg (by omega)]
              exact hA)
        (by
          intro p c hp hpc hc hch
          have ep : p = root := by omega
          subst ep
          rw [hK (first + c), hK (first + p)]
          rw [if_neg (by omega), if_neg (by omega), if_pos rfl]
          exact h1 (2 * p + 1) c (by omega) (by omega) (by omega) hc hch)
      exact ⟨hsw.trans r1, r2⟩

theorem heapBuild_spec {α : Type} (C : KeyOrder α) (hi first : Nat) :
    ∀ (n : Nat) (d : List α), (∀ x ∈ d, C.ok x) → first + hi ≤ d.length →
      (∀ i c, n ≤ i → i < hi → (c = 2 * i + 1 ∨ c = 2 * i + 2) → c < hi →
        keyAt C.key d (first + c) ≤ keyAt C.key d (first + i)) →
      PermOn first (first + hi) d (heapBuild C.less hi first n d) ∧
        (∀ i c, i < hi → (c = 2 * i + 1 ∨ c = 2 * i + 2) → c < hi →
          keyAt C.key (heapBuild C.less hi first n d) (first + c) ≤
            keyAt C.key (heapBuild C.less hi first n d) (first + i)) := by
  intro n
  induction n with
  | zero =>
    intro d _ _ h
    exact ⟨PermOn.refl _ _ _, fun i c h1 h2 h3 => h i c (by omega) h1 h2 h3⟩
  | succ n ih =>
    intro d hok hlen h
    unfold heapBuild siftDown_func
    obtain ⟨p1, q1⟩ := siftDownLoop_spec C n hi first hi n d hok hlen le_rfl (by omega)
      (fun i c h1 h2 h3 h4 h5 => h i c (by omega) h2 h4 h5)
      (fun p c h1 h2 h3 h4 => by omega)
    have p1b := p1.mono (show first ≤ first + n by omega) le_rfl
    obtain ⟨p2, q2⟩ := ih (siftDownLoop C.less hi first hi n d)
      (fun x hx => hok x (p1.mem x hx)) (by rw [p1.length_eq]; exact hlen) q1
    exact ⟨p1b.trans p2, q2⟩

theorem heap_root_max {α : Type} (key : α → Int) (d : List α) (first m : Nat)
    (h : ∀ i c, i < m → (c = 2 * i + 1 ∨ c = 2 * i + 2) → c < m →
      keyAt key d (first + c) ≤ keyAt key d (first + i)) :
    ∀ x, x < m → keyAt key d (first + x) ≤ keyAt key d (first + 0) := by
  intro x
  induction x using Nat.strong_induction_on with
  | _ x ih =>
    intro hx
    rcases Nat.eq_zero_or_pos x with rfl | hpos
    · exact le_rfl
    · have h1 := ih ((x - 1) / 2) (by omega) (by omega)
      have h2 := h ((x - 1) / 2) x (by omega) (by omega) hx
      omega

theorem heapPop_spec {α : Type} (C : KeyOrder α) (hi first : Nat) :
    ∀ (n : Nat) (d : List α), (∀ x ∈ d, C.ok x) → first + hi ≤ d.length → n ≤ hi →
      (∀ i c, i < n → (c = 2 * i + 1 ∨ c = 2 * i + 2) → c < n →
        keyAt C.key d (first + c) ≤ keyAt C.key d (first + i)) →
      (∀ k, n ≤ k → k + 1 < hi → keyAt C.key d (first + k) ≤ keyAt C.key d (first + (k + 1))) →
      (∀ x, x < n → n < hi → keyAt C.key d (first + x) ≤ keyAt C.key d (first + n)) →
      PermOn first (first + hi) d (heapPop C.less first n d) ∧
        (∀ k, k + 1 < hi → keyAt C.key (heapPop C.less first n d) (first + k) ≤
          keyAt C.key (heapPop C.less first n d) (first + (k + 1))) := by
  intro n
  induction n with
  | zero =>
    intro d _ _ _ _ hS _
    exact ⟨PermOn.refl _ _ _, fun k hk => hS k (by omega) hk⟩
  | succ n ih =>
    intro d hok hlen hn hH hS hB
    unfold heapPop siftDown_func
    have hmax := heap_root_max C.key d first (n + 1) hH
    have hsw : PermOn first (first + hi) d (SwapAt d first (first + n)) :=
      PermOn.swap _ _ d _ _ (by omega) (by omega) hlen
    have hK := keyAt_SwapAt C.key d first (first + n) (by omega) (by omega)
    have hok1 : ∀ x ∈ SwapAt d first (first + n), C.ok x := fun x hx => hok x (hsw.mem x hx)
    have hlen1 : first + hi ≤ (SwapAt d first (first + n)).length := by
      rw [length_SwapAt]; exact hlen
    obtain ⟨p1, q1⟩ := siftDownLoop_spec C 0 n first n 0 (SwapAt d first (first + n)) hok1
      (by omega) le_rfl (by omega)
      (by
        intro i c h1 h2 h3 h4 h5
        rw [hK (first + c), hK (first + i)]
        rw [if_neg (by omega), if_neg (by omega), if_neg (by omega), if_neg (by omega)]
        exact hH i c (by omega) h4 (by omega))
      (fun p c h1 h2 h3 h4 => by omega)
    have p1b : PermOn first (first + hi) (SwapAt d first (first + n))
        (siftDownLoop C.less n first n 0 (SwapAt d first (first + n))) :=
      p1.mono (by omega) (by omega)
    have hfr : ∀ k, n ≤ k → keyAt C.key (siftDownLoop C.less n first n 0
        (SwapAt d first (first + n))) (first + k) =
        keyAt C.key (SwapAt d first (first + n)) (first + k) :=
      fun k hk => p1.keyAt_frame C.key (first + k) (Or.inr (by omega))
    obtain ⟨p2, q2⟩ := ih (siftDownLoop C.less n first n 0 (SwapAt d first (first + n)))
      (fun x hx => hok1 x (p1.mem x hx)) (by rw [p1.length_eq]; exact hlen1) (by omega)
      (fun i c h1 h2 h3 => q1 i c (by omega) h1 h2 h3)
      (by
        intro k hk1 hk2
        rw [hfr k hk1, hfr (k + 1) (by omega), hK (first + k), hK (first + (k + 1))]
        by_cases e : k = n
        · subst e
          have := hB 0 (by omega) (by omega)
          by_cases e0 : k = 0
          · subst e0
            simp only [Nat.add_zero, if_true]
            rw [if_neg (by omega), if_neg (by omega)]
            simpa using this
          · rw [if_neg (by omega), if_pos rfl, if_neg (by omega), if_neg (by omega)]
            simpa using this
        · rw [if_neg (by omega), if_neg (by omega), if_neg (by omega), if_neg (by omega)]
          exact hS k (by omega) hk2)
      (by
        intro x hx hn2
        rw [hfr n le_rfl]
        have hall : ∀ k, first + 0 ≤ k → k < first + n →
            keyAt C.key (SwapAt d first (first + n)) k ≤
              keyAt C.key (SwapAt d first (first + n)) (first + n) := by
          intro k hk1 hk2
          rw [hK k, hK (first + n)]
          have h0 := hmax n (by omega)
          have hk := hmax (k - first) (by omega)
          have e : first + (k - first) = k := by omega
          rw [e] at hk
          simp only [Nat.add_zero] at h0 hk
          by_cases e0 : n = 0
          · omega
          · by_cases e1 : k = first
            · subst e1
              rw [if_pos rfl, if_neg (by omega), if_pos rfl]
              exact h0
            · rw [if_neg e1, if_neg (by omega), if_neg (by omega), if_pos rfl]
              exact hk
        have := p1.keys C.key (fun v => v ≤ keyAt C.key (SwapAt d first (first + n)) (first + n))
          hall (first + x) (by omega) (by omega)
        exact this)
    exact ⟨(hsw.trans p1b).trans p2, q2⟩

/-- Heap sort permutes `data[a:b]` into non-decreasing order of the keys. -/
theorem heapSort_func_spec {α : Type} (C : KeyOrder α) (d : List α) (a b : Nat)
    (hok : ∀ x ∈ d, C.ok x) (hab : a ≤ b) (hb : b ≤ d.length) :
    PermOn a b d (heapSort_func C.less d a b) ∧
      SortedOn C.key a b (heapSort_func C.less d a b) := by
  unfold heapSort_func
  simp only
  obtain ⟨p1, q1⟩ := heapBuild_spec C (b - a) a ((b - a - 1) / 2 + 1) d hok (by omega)
    (fun i c h1 h2 h3 h4 => by omega)
  obtain ⟨p2, q2⟩ := heapPop_spec C (b - a) a (b - a)
    (heapBuild C.less (b - a) a ((b - a - 1) / 2 + 1) d)
    (fun x hx => hok x (p1.mem x hx)) (by rw [p1.length_eq]; omega) le_rfl q1
    (fun k h1 h2 => by omega) (fun x h1 h2 => by omega)
  have e : a + (b - a) = b := by omega
  rw [e] at p1 p2
  refine ⟨p1.trans p2, AdjSorted.sortedOn ?_⟩
  intro k hk1 hk2
  have := q2 (k - a) (by omega)
  have e1 : a + (k - a) = k := by omega
  have e2 : a + (k - a + 1) = k + 1 := by omega
  rw [e1, e2] at this
  exact this

/-! ## Partitioning -/

theorem scanLess_spec {α : Type} (C : KeyOrder α) (d : List α) (a j : Nat)
    (hok : ∀ x ∈ d, C.ok x) (hj : j < d.length) (ha : a < d.length) :
    ∀ (fuel i : Nat), j + 1 - i ≤ fuel → i ≤ j + 1 →
      i ≤ scanLess C.less d a j fuel i ∧ scanLess C.less d a j fuel i ≤ j + 1 ∧
        (∀ k, i ≤ k → k < scanLess C.less d a j fuel i → keyAt C.key d k < keyAt C.key d a) ∧
        (scanLess C.less d a j fuel i ≤ j →
          keyAt C.key d a ≤ keyAt C.key d (scanLess C.less d a j fuel i)) := by
  intro fuel
  induction fuel with
  | zero =>
    intro i h1 h2
    simp only [scanLess]
    exact ⟨le_rfl, h2, fun k h3 h4 => by omega, fun h => by omega⟩
  | succ fuel ih =>
    intro i h1 h2
    unfold scanLess
    split_ifs with hc
    · obtain ⟨hc1, hc2⟩ := hc
      rw [C.lessAt_iff d hok i a (by omega) ha] at hc2
      obtain ⟨r1, r2, r3, r4⟩ := ih (i + 1) (by omega) (by omega)
      refine ⟨by omega, r2, ?_, r4⟩
      intro k hk1 hk2
      by_cases e : k = i
      · subst e; exact hc2
      · exact r3 k (by omega) hk2
    · refine ⟨le_rfl, h2, fun k h3 h4 => by omega, ?_⟩
      intro hle
      have hl : LessAt C.less d i a = false := by
        by_contra hcon
        exact hc ⟨hle, by simpa using hcon⟩
      rw [C.lessAt_false_iff d hok i a (by omega) ha] at hl
      exact hl

theorem scanNotLess_spec {α : Type} (C : KeyOrder α) (d : List α) (a i : Nat)
    (hok : ∀ x ∈ d, C.ok x) (ha : a < d.length) (hi : 1 ≤ i) :
    ∀ (fuel j : Nat), j + 1 - i ≤ fuel → i ≤ j + 1 → j < d.length →
      scanNotLess C.less d a i fuel j ≤ j ∧ i ≤ scanNotLess C.less d a i fuel j + 1 ∧
        (∀ k, scanNotLess C.less d a i fuel j < k → k ≤ j →
          keyAt C.key d a ≤ keyAt C.key d k) ∧
        (i ≤ scanNotLess C.less d a i fuel j →
          keyAt C.key d (scanNotLess C.less d a i fuel j) < keyAt C.key d a) := by
  intro fuel
  induction fuel with
  | zero =>
    intro j h1 h2 _
    simp only [scanNotLess]
    exact ⟨le_rfl, h2, fun k h3 h4 => by omega, fun h => by omega⟩
  | succ fuel ih =>
    intro j h1 h2 hj
    unfold scanNotLess
    split_ifs with hc
    · obtain ⟨hc1, hc2⟩ := hc
      rw [C.lessAt_false_iff d hok j a hj ha] at hc2
      obtain ⟨r1, r2, r3, r4⟩ := ih (j - 1) (by omega) (by omega) (by omega)
      refine ⟨by omega, r2, ?_, r4⟩
      intro k hk1 hk2
      by_cases e : k = j
      · subst e; exact hc2
      · exact r3 k hk1 (by omega)
    · refine ⟨le_rfl, h2, fun k h3 h4 => by omega, ?_⟩
      intro hle
      have hl : LessAt C.less d j a = true := by
        by_contra hcon
        exact hc ⟨hle, by simpa using hcon⟩
      rw [C.lessAt_iff d hok j a hj ha] at hl
      exact hl

/-- One round of the two scans of `partition_func`. -/
theorem partition_scans {α : Type} (C : KeyOrder α) (d : List α) (a b i j : Nat)
    (hok : ∀ x ∈ d, C.ok x) (hb : b ≤ d.length) (h : PartInv C.key a b i j d) :
    ∃ i2 j2, i2 = scanLess C.less d a j (j + 1 - i) i ∧
      j2 = scanNotLess C.less d a i2 (j + 1 - i2) j ∧
      i ≤ i2 ∧ j2 ≤ j ∧ PartInv C.key a b i2 j2 d ∧
      (i2 ≤ j2 → i2 < j2 ∧ keyAt C.key d j2 < keyAt C.key d a ∧
        keyAt C.key d a ≤ keyAt C.key d i2) := by
  obtain ⟨h1, h2, h3, h4, h5⟩ := h
  obtain ⟨r1, r2, r3, r4⟩ := scanLess_spec C d a j hok (by omega) (by omega) (j + 1 - i) i
    le_rfl h3
  obtain ⟨s1, s2, s3, s4⟩ := scanNotLess_spec C d a (scanLess C.less d a j (j + 1 - i) i) hok
    (by omega) (by omega) (j + 1 - scanLess C.less d a j (j + 1 - i) i) j le_rfl r2 (by omega)
  refine ⟨_, _, rfl, rfl, r1, s1, ⟨by omega, by omega, s2, ?_, ?_⟩, ?_⟩
  · intro k hk1 hk2
    by_cases e : k < i
    · exact h4 k hk1 e
    · exact r3 k (by omega) hk2
  · intro k hk1 hk2
    by_cases e : j < k
    · exact h5 k e hk2
    · exact s3 k hk1 (by omega)
  · intro hle
    have t1 := s4 hle
    have t2 := r4 (by omega)
    refine ⟨?_, t1, t2⟩
    by_contra hc
    have e : scanLess C.less d a j (j + 1 - i) i =
        scanNotLess C.less d a (scanLess C.less d a j (j + 1 - i) i)
          (j + 1 - scanLess C.less d a j (j + 1 - i) i) j := by omega
    rw [← e] at t1
    omega

/-- Exchanging the two elements on which the scans stopped keeps the invariant. -/
theorem partition_swap {α : Type} (C : KeyOrder α) (d : List α) (a b i j : Nat)
    (hb : b ≤ d.length) (h : PartInv C.key a b i j d) (hij : i < j)
    (h1 : keyAt C.key d j < keyAt C.key d a) (h2 : keyAt C.key d a ≤ keyAt C.key d i) :
    PartInv C.key a b (i + 1) (j - 1) (SwapAt d i j) ∧
      keyAt C.key (SwapAt d i j) a = keyAt C.key d a ∧
      PermOn (a + 1) b d (SwapAt d i j) := by
  obtain ⟨g1, g2, g3, g4, g5⟩ := h
  have hK := keyAt_SwapAt C.key d i j (by omega) (by omega)
  have hKa : keyAt C.key (SwapAt d i j) a = keyAt C.key d a := by
    rw [hK a, if_neg (by omega), if_neg (by omega)]
  refine ⟨⟨by omega, by omega, by omega, ?_, ?_⟩, hKa,
    PermOn.swap _ _ d i j (by omega) (by omega) hb⟩
  · intro k hk1 hk2
    rw [hKa, hK k]
    by_cases e : k = i
    · rw [if_pos e]; exact h1
    · rw [if_neg e, if_neg (by omega)]
      exact g4 k hk1 (by omega)
  · intro k hk1 hk2
    rw [hKa, hK k]
    by_cases e : k = j
    · rw [if_neg (by omega), if_pos e]; exact h2
    · rw [if_neg (by omega), if_neg e]
      exact g5 k (by omega) hk2

theorem partitionLoop_spec {α : Type} (C : KeyOrder α) (a b : Nat) :
    ∀ (fuel i j : Nat) (d : List α), (∀ x ∈ d, C.ok x) → b ≤ d.length →
      j + 1 - i < fuel → PartInv C.key a b i j d →
      PermOn (a + 1) b d (partitionLoop C.less a fuel i j d).1 ∧
        keyAt C.key (partitionLoop C.less a fuel i j d).1 a = keyAt C.key d a ∧
        ∃ i2, i2 = (partitionLoop C.less a fuel i j d).2 + 1 ∧
          PartInv C.key a b i2 (partitionLoop C.less a fuel i j d).2
            (partitionLoop C.less a fuel i j d).1 := by
  intro fuel
  induction fuel with
  | zero => intro i j d _ _ h _; omega
  | succ fuel ih =>
    intro i j d hok hb hf hinv
    obtain ⟨i2, j2, hi2, hj2, hii, hjj, hinv2, hstep⟩ := partition_scans C d a b i j hok hb hinv
    unfold partitionLoop
    simp only
    rw [← hi2, ← hj2]
    split_ifs with hc
    · refine ⟨PermOn.refl _ _ _, rfl, i2, ?_, hinv2⟩
      obtain ⟨_, _, g3, _, _⟩ := hinv2
      show i2 = j2 + 1
      omega
    · obtain ⟨hlt, k1, k2⟩ := hstep (by omega)
      obtain ⟨q1, q2, q3⟩ := partition_swap C d a b i2 j2 hb hinv2 hlt k1 k2
      obtain ⟨r1, r2, r3⟩ := ih (i2 + 1) (j2 - 1) (SwapAt d i2 j2)
        (fun x hx => hok x (q3.mem x hx)) (by rw [length_SwapAt]; exact hb) (by omega) q1
      exact ⟨q3.trans r1, r2.trans q2, r3⟩

theorem partition_finish {α : Type} (C : KeyOrder α) (d : List α) (a b j : Nat)
    (hb : b ≤ d.length) (h : PartInv C.key a b (j + 1) j d) :
    PermOn a b d (SwapAt d j a) ∧ Partitioned C.key a b j (SwapAt d j a) := by
  obtain ⟨g1, g2, g3, g4, g5⟩ := h
  have hK := keyAt_SwapAt C.key d j a (by omega) (by omega)
  refine ⟨PermOn.swap _ _ d j a (by omega) (by omega) hb, by omega, g2, ?_, ?_⟩
  · intro k hk1 hk2
    rw [hK k, hK j, if_pos rfl, if_neg (by omega)]
    by_cases e : k = a
    · rw [if_pos e]
      exact g4 j (by omega) (by omega)
    · rw [if_neg e]
      exact g4 k (by omega) (by omega)
  · intro k hk1 hk2
    rw [hK k, hK j, if_pos rfl, if_neg (by omega), if_neg (by omega)]
    exact g5 k hk1 hk2

/-- Function `partition_func` permutes `data[a:b]` around the pivot. -/
theorem partition_func_spec {α : Type} (C : KeyOrder α) (d : List α) (a b pivot : Nat)
    (hok : ∀ x ∈ d, C.ok x) (hab : a < b) (hb : b ≤ d.length)
    (hp : a ≤ pivot ∧ pivot < b) :
    PermOn a b d (partition_func C.less d a b pivot).1 ∧
      Partitioned C.key a b (partition_func C.less d a b pivot).2.1
        (partition_func C.less d a b pivot).1 := by
  have hsw : PermOn a b d (SwapAt d a pivot) :=
    PermOn.swap _ _ d a pivot (by omega) hp hb
  have hok1 : ∀ x ∈ SwapAt d a pivot, C.ok x := fun x hx => hok x (hsw.mem x hx)
  have hb1 : b ≤ (SwapAt d a pivot).length := by rw [length_SwapAt]; exact hb
  have hinv0 : PartInv C.key a b (a + 1) (b - 1) (SwapAt d a pivot) :=
    ⟨le_rfl, by omega, by omega, fun k h1 h2 => by omega, fun k h1 h2 => by omega⟩
  obtain ⟨i2, j2, hi2, hj2, hii, hjj, hinv2, hstep⟩ :=
    partition_scans C (SwapAt d a pivot) a b (a + 1) (b - 1) hok1 hb1 hinv0
  unfold partition_func
  simp only
  rw [← hi2, ← hj2]
  split_ifs with hc
  · have e : i2 = j2 + 1 := by
      obtain ⟨_, _, g3, _, _⟩ := hinv2
      omega
    rw [e] at hinv2
    obtain ⟨f1, f2⟩ := partition_finish C (SwapAt d a pivot) a b j2 hb1 hinv2
    exact ⟨hsw.trans f1, f2⟩
  · obtain ⟨hlt, k1, k2⟩ := hstep (by omega)
    obtain ⟨q1, q2, q3⟩ := partition_swap C (SwapAt d a pivot) a b i2 j2 hb1 hinv2 hlt k1 k2
    obtain ⟨r1, r2, i3, r3, r4⟩ := partitionLoop_spec C a b (j2 - 1 + 1 - (i2 + 1) + 1) (i2 + 1)
      (j2 - 1) (SwapAt (SwapAt d a pivot) i2 j2) (fun x hx => hok1 x (q3.mem x hx))
      (by rw [length_SwapAt]; exact hb1) (by omega) q1
    rw [r3] at r4
    have hb2 : b ≤ (partitionLoop C.less a (j2 - 1 + 1 - (i2 + 1) + 1) (i2 + 1) (j2 - 1)
        (SwapAt (SwapAt d a pivot) i2 j2)).1.length := by
      rw [r1.length_eq, length_SwapAt]; exact hb1
    obtain ⟨f1, f2⟩ := partition_finish C _ a b _ hb2 r4
    exact ⟨hsw.trans (((q3.trans r1).mono (by omega) le_rfl).trans f1), f2⟩

theorem scanNotGreater_spec {α : Type} (C : KeyOrder α) (d : List α) (a j : Nat)
    (hok : ∀ x ∈ d, C.ok x) (hj : j < d.length) (ha : a < d.length) :
    ∀ (fuel i : Nat), j + 1 - i ≤ fuel → i ≤ j + 1 →
      i ≤ scanNotGreater C.less d a j fuel i ∧ scanNotGreater C.less d a j fuel i ≤ j + 1 ∧
        (∀ k, i ≤ k → k < scanNotGreater C.less d a j fuel i →
          keyAt C.key d k ≤ keyAt C.key d a) ∧
        (scanNotGreater C.less d a j fuel i ≤ j →
          keyAt C.key d a < keyAt C.key d (scanNotGreater C.less d a j fuel i)) := by
  intro fuel
  induction fuel with
  | zero =>
    intro i h1 h2
    simp only [scanNotGreater]
    exact ⟨le_rfl, h2, fun k h3 h4 => by omega, fun h => by omega⟩
  | succ fuel ih =>
    intro i h1 h2
    unfold scanNotGreater
    split_ifs with hc
    · obtain ⟨hc1, hc2⟩ := hc
      rw [C.lessAt_false_iff d hok a i ha (by omega)] at hc2
      obtain ⟨r1, r2, r3, r4⟩ := ih (i + 1) (by omega) (by omega)
      refine ⟨by omega, r2, ?_, r4⟩
      intro k hk1 hk2
      by_cases e : k = i
      · subst e; exact hc2
      · exact r3 k (by omega) hk2
    · refine ⟨le_rfl, h2, fun k h3 h4 => by omega, ?_⟩
      intro hle
      have hl : LessAt C.less d a i = true := by
        by_contra hcon
        exact hc ⟨hle, by simpa using hcon⟩
      rw [C.lessAt_iff d hok a i ha (by omega)] at hl
      exact hl

theorem scanGreater_spec {α : Type} (C : KeyOrder α) (d : List α) (a i : Nat)
    (hok : ∀ x ∈ d, C.ok x) (ha : a < d.length) (hi : 1 ≤ i) :
    ∀ (fuel j : Nat), j + 1 - i ≤ fuel → i ≤ j + 1 → j < d.length →
      scanGreater C.less d a i fuel j ≤ j ∧ i ≤ scanGreater C.less d a i fuel j + 1 ∧
        (∀ k, scanGreater C.less d a i fuel j < k → k ≤ j →
          keyAt C.key d a < keyAt C.key d k) ∧
        (i ≤ scanGreater C.less d a i fuel j →
          keyAt C.key d (scanGreater C.less d a i fuel j) ≤ keyAt C.key d a) := by
  intro fuel
  induction fuel with
  | zero =>
    intro j h1 h2 _
    simp only [scanGreater]
    exact ⟨le_rfl, h2, fun k h3 h4 => by omega, fun h => by omega⟩
  | succ fuel ih =>
    intro j h1 h2 hj
    unfold scanGreater
    split_ifs with hc
    · obtain ⟨hc1, hc2⟩ := hc
      rw [C.lessAt_iff d hok a j ha hj] at hc2
      obtain ⟨r1, r2, r3, r4⟩ := ih (j - 1) (by omega) (by omega) (by omega)
      refine ⟨by omega, r2, ?_, r4⟩
      intro k hk1 hk2
      by_cases e : k = j
      · subst e; exact hc2
      · exact r3 k hk1 (by omega)
    · refine ⟨le_rfl, h2, fun k h3 h4 => by omega, ?_⟩
      intro hle
      have hl : LessAt C.less d a j = false := by
        by_contra hcon
        exact hc ⟨hle, by simpa using hcon⟩
      rw [C.lessAt_false_iff d hok a j ha hj] at hl
      exact hl

theorem partitionEqualLoop_spec {α : Type} (C : KeyOrder α) (a b : Nat) :
    ∀ (fuel i j : Nat) (d : List α), (∀ x ∈ d, C.ok x) → b ≤ d.length →
      j + 1 - i < fuel → EqInv C.key a b i j d →
      PermOn (a + 1) b d (partitionEqualLoop C.less a fuel i j d).1 ∧
        keyAt C.key (partitionEqualLoop C.less a fuel i j d).1 a = keyAt C.key d a ∧
        ∃ j2, (partitionEqualLoop C.less a fuel i j d).2 = j2 + 1 ∧
          EqInv C.key a b (partitionEqualLoop C.less a fuel i j d).2 j2
            (partitionEqualLoop C.less a fuel i j d).1 := by
  intro fuel
  induction fuel with
  | zero => intro i j d _ _ h _; omega
  | succ fuel ih =>
    intro i j d hok hb hf hinv
    obtain ⟨h1, h2, h3, h4, h5⟩ := hinv
    obtain ⟨r1, r2, r3, r4⟩ := scanNotGreater_spec C d a j hok (by omega) (by omega)
      (j + 1 - i) i le_rfl h3
    obtain ⟨s1, s2, s3, s4⟩ := scanGreater_spec C d a (scanNotGreater C.less d a j (j + 1 - i) i)
      hok (by omega) (by omega) (j + 1 - scanNotGreater C.less d a j (j + 1 - i) i) j le_rfl r2
      (by omega)
    unfold partitionEqualLoop
    simp only
    generalize hi2 : scanNotGreater C.less d a j (j + 1 - i) i = i2 at *
    generalize hj2 : scanGreater C.less d a i2 (j + 1 - i2) j = j2 at *
    have hinv2 : EqInv C.key a b i2 j2 d := by
      refine ⟨by omega, by omega, s2, ?_, ?_⟩
      · intro k hk1 hk2
        by_cases e : k < i
        · exact h4 k hk1 e
        · exact r3 k (by omega) hk2
      · intro k hk1 hk2
        by_cases e : j < k
        · exact h5 k e hk2
        · exact s3 k hk1 (by omega)
    split_ifs with hc
    · exact ⟨PermOn.refl _ _ _, rfl, j2, by show i2 = j2 + 1; omega, hinv2⟩
    · have t1 := s4 (by omega)
      have t2 := r4 (by omega)
      have hlt : i2 < j2 := by
        by_contra hcon
        have e : i2 = j2 := by omega
        rw [e] at t2
        omega
      have hK := keyAt_SwapAt C.key d i2 j2 (by omega) (by omega)
      have hKa : keyAt C.key (SwapAt d i2 j2) a = keyAt C.key d a := by
        rw [hK a, if_neg (by omega), if_neg (by omega)]
      have q3 : PermOn (a + 1) b d (SwapAt d i2 j2) :=
        PermOn.swap _ _ d i2 j2 (by omega) (by omega) hb
      have q1 : EqInv C.key a b (i2 + 1) (j2 - 1) (SwapAt d i2 j2) := by
        obtain ⟨g1, g2, g3, g4, g5⟩ := hinv2
        refine ⟨by omega, by omega, by omega, ?_, ?_⟩
        · intro k hk1 hk2
          rw [hKa, hK k]
          by_cases e : k = i2
          · rw [if_pos e]; exact t1
          · rw [if_neg e, if_neg (by omega)]
            exact g4 k hk1 (by omega)
        · intro k hk1 hk2
          rw [hKa, hK k]
          by_cases e : k = j2
          · rw [if_neg (by omega), if_pos e]; exact t2
          · rw [if_neg (by omega), if_neg e]
            exact g5 k (by omega) hk2
      obtain ⟨u1, u2, u3⟩ := ih (i2 + 1) (j2 - 1) (SwapAt d i2 j2)
        (fun x hx => hok x (q3.mem x hx)) (by rw [length_SwapAt]; exact hb) (by omega) q1
      exact ⟨q3.trans u1, u2.trans hKa, u3⟩

/-- Function `partitionEqual_func`: the keys of `[a, mid)` are not above the pivot
key, those of `[mid, b)` are above it, and the pivot is at `a`. -/
theorem partitionEqual_func_spec {α : Type} (C : KeyOrder α) (d : List α) (a b pivot : Nat)
    (hok : ∀ x ∈ d, C.ok x) (hab : a < b) (hb : b ≤ d.length)
    (hp : a ≤ pivot ∧ pivot < b) :
    PermOn a b d (partitionEqual_func C.less d a b pivot).1 ∧
      a < (partitionEqual_func C.less d a b pivot).2 ∧
      (partitionEqual_func C.less d a b pivot).2 ≤ b ∧
      (∀ k, a ≤ k → k < (partitionEqual_func C.less d a b pivot).2 →
        keyAt C.key (partitionEqual_func C.less d a b pivot).1 k ≤ keyAt C.key d pivot) ∧
      (∀ k, (partitionEqual_func C.less d a b pivot).2 ≤ k → k < b →
        keyAt C.key d pivot < keyAt C.key (partitionEqual_func C.less d a b pivot).1 k) := by
  have hsw : PermOn a b d (SwapAt d a pivot) :=
    PermOn.swap _ _ d a pivot (by omega) hp hb
  have hok1 : ∀ x ∈ SwapAt d a pivot, C.ok x := fun x hx => hok x (hsw.mem x hx)
  have hb1 : b ≤ (SwapAt d a pivot).length := by rw [length_SwapAt]; exact hb
  have hKp : keyAt C.key (SwapAt d a pivot) a = keyAt C.key d pivot := by
    rw [keyAt_SwapAt C.key d a pivot (by omega) (by omega) a, if_pos rfl]
  have hinv0 : EqInv C.key a b (a + 1) (b - 1) (SwapAt d a pivot) :=
    ⟨le_rfl, by omega, by omega, fun k h1 h2 => by omega, fun k h1 h2 => by omega⟩
  obtain ⟨r1, r2, j2, r3, r4⟩ := partitionEqualLoop_spec C a b (b - 1 + 1 - (a + 1) + 1) (a + 1)
    (b - 1) (SwapAt d a pivot) hok1 hb1 (by omega) hinv0
  unfold partitionEqual_func
  simp only
  obtain ⟨g1, g2, g3, g4, g5⟩ := r4
  rw [r2, hKp] at g4 g5
  refine ⟨hsw.trans (r1.mono (by omega) le_rfl), by omega, by omega, ?_, ?_⟩
  · intro k hk1 hk2
    by_cases e : k = a
    · subst e; rw [r2, hKp]
    · exact g4 k (by omega) hk2
  · intro k hk1 hk2
    exact g5 k (by omega) hk2

/-! ## Pivot choice, pattern breaking, partial insertion sort -/

theorem reverseRangeLoop_spec {α : Type} (a b : Nat) :
    ∀ (fuel i j : Nat) (d : List α), a ≤ i → j + 1 ≤ b → b ≤ d.length →
      PermOn a b d (reverseRangeLoop fuel i j d) := by
  intro fuel
  induction fuel with
  | zero => intro i j d _ _ _; exact PermOn.refl _ _ _
  | succ fuel ih =>
    intro i j d h1 h2 h3
    unfold reverseRangeLoop
    split_ifs with hc
    · have hsw : PermOn a b d (SwapAt d i j) :=
        PermOn.swap _ _ d i j (by omega) (by omega) h3
      exact hsw.trans (ih (i + 1) (j - 1) _ (by omega) (by omega)
        (by rw [length_SwapAt]; exact h3))
    · exact PermOn.refl _ _ _

theorem reverseRange_func_spec {α : Type} (d : List α) (a b : Nat) (hab : a < b)
    (hb : b ≤ d.length) : PermOn a b d (reverseRange_func d a b) := by
  unfold reverseRange_func
  exact reverseRangeLoop_spec a b (b - a) a (b - 1) d le_rfl (by omega) hb

theorem nextPowerOfTwo_le (length : Nat) (h : 1 ≤ length) :
    nextPowerOfTwo length ≤ 2 * length := by
  unfold nextPowerOfTwo bitsLen
  rw [if_neg (by omega), Nat.one_shiftLeft]
  have h1 := (F64.log2_spec length h).1
  have h2 : 2 ^ (F64.log2 length + 1) % 2 ^ 64 ≤ 2 ^ (F64.log2 length + 1) := Nat.mod_le _ _
  rw [pow_succ] at h2
  omega

theorem breakPatternsLoop_spec {α : Type} (a b length modulus idx : Nat)
    (hl : a + length = b) (hlen : 1 ≤ length) (hm : modulus ≤ 2 * length) :
    ∀ (is : List Nat) (random : Nat) (d : List α), b ≤ d.length →
      (∀ i ∈ is, a ≤ idx - 1 + i ∧ idx - 1 + i < b) →
      PermOn a b d (breakPatternsLoop a length modulus idx is random d) := by
  intro is
  induction is with
  | nil => intro random d _ _; exact PermOn.refl _ _ _
  | cons i is ih =>
    intro random d hb hi
    unfold breakPatternsLoop
    simp only
    have hand : xorshiftNext random &&& (modulus - 1) ≤ modulus - 1 := Nat.and_le_right
    have hother : (if xorshiftNext random &&& (modulus - 1) ≥ length then
        (xorshiftNext random &&& (modulus - 1)) - length
        else xorshiftNext random &&& (modulus - 1)) < length := by
      split_ifs with hc <;> omega
    have hsw := PermOn.swap a b d (idx - 1 + i)
      (a + if xorshiftNext random &&& (modulus - 1) ≥ length then
        (xorshiftNext random &&& (modulus - 1)) - length
        else xorshiftNext random &&& (modulus - 1))
      (hi i (List.mem_cons_self _ _)) (by omega) hb
    exact hsw.trans (ih _ _ (by rw [length_SwapAt]; exact hb)
      (fun x hx => hi x (List.mem_cons_of_mem _ hx)))

theorem breakPatterns_func_spec {α : Type} (d : List α) (a b : Nat) (hab : a ≤ b)
    (hb : b ≤ d.length) : PermOn a b d (breakPatterns_func d a b) := by
  unfold breakPatterns_func
  simp only
  split_ifs with hc
  · apply breakPatternsLoop_spec a b (b - a) _ _ (by omega) (by omega)
      (nextPowerOfTwo_le _ (by omega)) _ _ _ hb
    intro i hi
    simp only [List.mem_cons, List.mem_singleton, List.not_mem_nil, or_false] at hi
    have : 2 ≤ (b - a) / 4 := by omega
    have : (b - a) / 4 * 4 ≤ b - a := Nat.div_mul_le_self _ _
    rcases hi with rfl | rfl | rfl <;> omega
  · exact PermOn.refl _ _ _

theorem order2_func_mem {α : Type} (less : α → α → Bool) (d : List α) (a b s : Nat) :
    ((order2_func less d a b s).1 = a ∧ (order2_func less d a b s).2.1 = b) ∨
      ((order2_func less d a b s).1 = b ∧ (order2_func less d a b s).2.1 = a) := by
  unfold order2_func
  split_ifs <;> simp

theorem median_func_mem {α : Type} (less : α → α → Bool) (d : List α) (a b c s : Nat) :
    (median_func less d a b c s).1 = a ∨ (median_func less d a b c s).1 = b ∨
      (median_func less d a b c s).1 = c := by
  unfold median_func
  rcases h1 : order2_func less d a b s with ⟨a1, b1, s1⟩
  have e1 := order2_func_mem less d a b s
  rw [h1] at e1
  simp only at e1 ⊢
  rcases h2 : order2_func less d b1 c s1 with ⟨b2, c2, s2⟩
  have e2 := order2_func_mem less d b1 c s1
  rw [h2] at e2
  simp only at e2 ⊢
  rcases h3 : order2_func less d a1 b2 s2 with ⟨a3, b3, s3⟩
  have e3 := order2_func_mem less d a1 b2 s2
  rw [h3] at e3
  simp only at e3 ⊢
  omega

theorem hint_fst (r : Nat × Nat) :
    (if r.2 = 0 then (r.1, sortedHint.increasingHint)
      else if r.2 = 4 * 3 then (r.1, sortedHint.decreasingHint)
      else (r.1, sortedHint.unknownHint)).1 = r.1 := by
  split_ifs <;> rfl

/-- The pivot chosen lies in `[a, b)`. -/
theorem choosePivot_func_mem {α : Type} (less : α → α → Bool) (d : List α) (a b : Nat)
    (hab : a < b) :
    a ≤ (choosePivot_func less d a b).1 ∧ (choosePivot_func less d a b).1 < b := by
  have hq : (b - a) / 4 * 4 ≤ b - a := Nat.div_mul_le_self _ _
  unfold choosePivot_func
  simp only
  rw [hint_fst]
  split_ifs with h8 h50
  · simp only [medianAdjacent_func]
    have m1 := median_func_mem less d (a + (b - a) / 4 * 1 - 1) (a + (b - a) / 4 * 1)
      (a + (b - a) / 4 * 1 + 1) 0
    generalize median_func less d (a + (b - a) / 4 * 1 - 1) (a + (b - a) / 4 * 1)
      (a + (b - a) / 4 * 1 + 1) 0 = r1 at m1 ⊢
    have m2 := median_func_mem less d (a + (b - a) / 4 * 2 - 1) (a + (b - a) / 4 * 2)
      (a + (b - a) / 4 * 2 + 1) r1.2
    generalize median_func less d (a + (b - a) / 4 * 2 - 1) (a + (b - a) / 4 * 2)
      (a + (b - a) / 4 * 2 + 1) r1.2 = r2 at m2 ⊢
    have m3 := median_func_mem less d (a + (b - a) / 4 * 3 - 1) (a + (b - a) / 4 * 3)
      (a + (b - a) / 4 * 3 + 1) r2.2
    generalize median_func less d (a + (b - a) / 4 * 3 - 1) (a + (b - a) / 4 * 3)
      (a + (b - a) / 4 * 3 + 1) r2.2 = r3 at m3 ⊢
    have m4 := median_func_mem less d r1.1 r2.1 r3.1 r3.2
    generalize median_func less d r1.1 r2.1 r3.1 r3.2 = r4 at m4 ⊢
    omega
  · have m4 := median_func_mem less d (a + (b - a) / 4 * 1) (a + (b - a) / 4 * 2)
      (a + (b - a) / 4 * 3) 0
    generalize median_func less d (a + (b - a) / 4 * 1) (a + (b - a) / 4 * 2)
      (a + (b - a) / 4 * 3) 0 = r4 at m4 ⊢
    omega
  · simp only
    omega

theorem LowerBound.permOn {α : Type} {key : α → Int} {a b : Nat} {d1 d2 : List α}
    (h : LowerBound key a b d1) (p : PermOn a b d1 d2) : LowerBound key a b d2 := by
  intro ha k hk1 hk2
  rw [p.keyAt_frame key (a - 1) (Or.inl (by omega))]
  exact p.keys key (fun v => keyAt key d1 (a - 1) ≤ v) (h ha) k hk1 hk2

theorem scanSorted_spec {α : Type} (C : KeyOrder α) (d : List α) (b : Nat)
    (hok : ∀ x ∈ d, C.ok x) (hb : b ≤ d.length) :
    ∀ (fuel i : Nat), b - i ≤ fuel → 1 ≤ i → i ≤ b →
      i ≤ scanSorted C.less d b fuel i ∧ scanSorted C.less d b fuel i ≤ b ∧
        (∀ k, i ≤ k → k < scanSorted C.less d b fuel i →
          keyAt C.key d (k - 1) ≤ keyAt C.key d k) ∧
        (scanSorted C.less d b fuel i < b →
          keyAt C.key d (scanSorted C.less d b fuel i) <
            keyAt C.key d (scanSorted C.less d b fuel i - 1)) := by
  intro fuel
  induction fuel with
  | zero =>
    intro i h1 h2 h3
    simp only [scanSorted]
    exact ⟨le_rfl, h3, fun k h4 h5 => by omega, fun h => by omega⟩
  | succ fuel ih =>
    intro i h1 h2 h3
    unfold scanSorted
    split_ifs with hc
    · obtain ⟨hc1, hc2⟩ := hc
      rw [C.lessAt_false_iff d hok i (i - 1) (by omega) (by omega)] at hc2
      obtain ⟨r1, r2, r3, r4⟩ := ih (i + 1) (by omega) (by omega) (by omega)
      refine ⟨by omega, r2, ?_, r4⟩
      intro k hk1 hk2
      by_cases e : k = i
      · subst e; exact hc2
      · exact r3 k (by omega) hk2
    · refine ⟨le_rfl, h3, fun k h4 h5 => by omega, ?_⟩
      intro hlt
      have hl : LessAt C.less d i (i - 1) = true := by
        by_contra hcon
        exact hc ⟨hlt, by simpa using hcon⟩
      rw [C.lessAt_iff d hok i (i - 1) (by omega) (by omega)] at hl
      exact hl

/-- Under the lower bound at `a - 1`, the shift to the left is the insertion loop
of the insertion sort. -/
theorem shiftLeft_eq {α : Type} (C : KeyOrder α) (a b : Nat) :
    ∀ (j : Nat) (d : List α), (∀ x ∈ d, C.ok x) → a ≤ j → j < b → b ≤ d.length →
      LowerBound C.key a b d → shiftLeft C.less j d = insertionSortInner C.less a j d := by
  intro j
  induction j with
  | zero => intro d _ _ _ _ _; rfl
  | succ j ih =>
    intro d hok ha hj hb hlow
    unfold shiftLeft insertionSortInner
    by_cases hja : j + 1 > a
    · by_cases hl : LessAt C.less d (j + 1) j = true
      · have hsw : PermOn a b d (SwapAt d (j + 1) j) :=
          PermOn.swap _ _ d _ _ (by omega) (by omega) hb
        rw [if_neg (by simp [hl]), if_pos ⟨hja, hl⟩]
        exact ih _ (fun x hx => hok x (hsw.mem x hx)) (by omega) (by omega)
          (by rw [length_SwapAt]; exact hb) (hlow.permOn hsw)
      · have hl2 : LessAt C.less d (j + 1) j = false := by simpa using hl
        rw [if_pos hl2, if_neg (fun h => hl h.2)]
    · have e : a = j + 1 := by omega
      have h1 := hlow (by omega) a le_rfl (by omega)
      have hl2 : LessAt C.less d (j + 1) j = false := by
        rw [C.lessAt_false_iff d hok (j + 1) j (by omega) (by omega)]
        rw [e] at h1
        simpa using h1
      rw [if_pos hl2, if_neg (fun h => hja h.1)]

theorem shiftRight_spec {α : Type} (C : KeyOrder α) (i b : Nat) :
    ∀ (fuel j : Nat) (d : List α), i + 1 ≤ j → b ≤ d.length →
      PermOn i b d (shiftRight C.less b fuel j d) := by
  intro fuel
  induction fuel with
  | zero => intro j d _ _; exact PermOn.refl _ _ _
  | succ fuel ih =>
    intro j d hj hb
    unfold shiftRight
    split_ifs with h1 h2
    · exact PermOn.refl _ _ _
    · have hsw : PermOn i b d (SwapAt d j (j - 1)) :=
        PermOn.swap _ _ d _ _ (by omega) (by omega) hb
      exact hsw.trans (ih (j + 1) _ (by omega) (by rw [length_SwapAt]; exact hb))
    · exact PermOn.refl _ _ _

theorem AdjSorted.of_frame {α : Type} {key : α → Int} {a i : Nat} {d1 d2 : List α}
    (h : AdjSorted key a i d1) (hf : ∀ k, k < i → keyAt key d2 k = keyAt key d1 k) :
    AdjSorted key a i d2 := by
  intro k hk1 hk2
  rw [hf k (by omega), hf (k + 1) hk2]
  exact h k hk1 hk2

theorem partialInsertionSortLoop_spec {α : Type} (C : KeyOrder α) (a b : Nat) (hab : a < b) :
    ∀ (steps i : Nat) (d : List α), (∀ x ∈ d, C.ok x) → b ≤ d.length → a + 1 ≤ i → i ≤ b →
      LowerBound C.key a b d → AdjSorted C.key a i d →
      PermOn a b d (partialInsertionSortLoop C.less a b steps i d).1 ∧
        ((partialInsertionSortLoop C.less a b steps i d).2 = true →
          SortedOn C.key a b (partialInsertionSortLoop C.less a b steps i d).1) := by
  intro steps
  induction steps with
  | zero =>
    intro i d _ _ _ _ _ _
    exact ⟨PermOn.refl _ _ _, fun h => by simp [partialInsertionSortLoop] at h⟩
  | succ steps ih =>
    intro i d hok hb hi1 hi2 hlow hadj
    obtain ⟨r1, r2, r3, r4⟩ := scanSorted_spec C d b hok hb (b - i) i le_rfl (by omega) hi2
    unfold partialInsertionSortLoop
    simp only
    generalize scanSorted C.less d b (b - i) i = i2 at r1 r2 r3 r4 ⊢
    have hadj2 : AdjSorted C.key a i2 d := by
      intro k hk1 hk2
      by_cases e : k + 1 < i
      · exact hadj k hk1 e
      · have := r3 (k + 1) (by omega) hk2
        simpa using this
    split_ifs with h1 h2 h3 h4 h5
    · subst h1
      exact ⟨PermOn.refl _ _ _, fun _ => hadj2.sortedOn⟩
    · exact ⟨PermOn.refl _ _ _, fun h => by simp at h⟩
    all_goals
      have hsw : PermOn a b d (SwapAt d i2 (i2 - 1)) :=
        PermOn.swap _ _ d _ _ (by omega) (by omega) hb
      have hK := keyAt_SwapAt C.key d i2 (i2 - 1) (by omega) (by omega)
      have hok1 : ∀ x ∈ SwapAt d i2 (i2 - 1), C.ok x := fun x hx => hok x (hsw.mem x hx)
      have hb1 : b ≤ (SwapAt d i2 (i2 - 1)).length := by rw [length_SwapAt]; exact hb
      have hlow1 := hlow.permOn hsw
    · -- shift left and right
      rw [shiftLeft_eq C a b (i2 - 1) _ hok1 (by omega) (by omega) hb1 hlow1]
      obtain ⟨p2, s2⟩ := insertionSortInner_spec C a (i2 - 1) (i2 - 1) (SwapAt d i2 (i2 - 1)) hok1
        (by omega) le_rfl (by omega)
        (by
          intro k hk1 hk2 hk3
          rw [hK k, hK (k + 1), if_neg (by omega), if_neg (by omega), if_neg (by omega),
            if_neg (by omega)]
          exact hadj2 k hk1 (by omega))
        (fun _ hlt => absurd hlt (lt_irrefl _))
      have e : i2 - 1 + 1 = i2 := by omega
      rw [e] at p2 s2
      have p2b := p2.mono (le_refl a) (show i2 ≤ b by omega)
      generalize insertionSortInner C.less a (i2 - 1) (SwapAt d i2 (i2 - 1)) = d2 at p2 s2 p2b ⊢
      have hb2 : b ≤ d2.length := by rw [p2b.length_eq]; exact hb1
      have p3 := shiftRight_spec C i2 b (b - (i2 + 1)) (i2 + 1) d2 le_rfl hb2
      have s3 : AdjSorted C.key a i2 (shiftRight C.less b (b - (i2 + 1)) (i2 + 1) d2) :=
        s2.of_frame (fun k hk => p3.keyAt_frame C.key k (Or.inl hk))
      have p3b := p3.mono (show a ≤ i2 by omega) le_rfl
      have pall := (hsw.trans p2b).trans p3b
      obtain ⟨q1, q2⟩ := ih i2 _ (fun x hx => hok x (pall.mem x hx))
        (by rw [pall.length_eq]; exact hb) (by omega) (by omega) (hlow.permOn pall) s3
      exact ⟨pall.trans q1, q2⟩
    · -- shift right only
      have s2 : AdjSorted C.key a i2 (SwapAt d i2 (i2 - 1)) := fun k hk1 hk2 => by omega
      have p3 := shiftRight_spec C i2 b (b - (i2 + 1)) (i2 + 1) (SwapAt d i2 (i2 - 1)) le_rfl hb1
      have s3 : AdjSorted C.key a i2
          (shiftRight C.less b (b - (i2 + 1)) (i2 + 1) (SwapAt d i2 (i2 - 1))) :=
        s2.of_frame (fun k hk => p3.keyAt_frame C.key k (Or.inl hk))
      have p3b := p3.mono (show a ≤ i2 by omega) le_rfl
      have pall := hsw.trans p3b
      obtain ⟨q1, q2⟩ := ih i2 _ (fun x hx => hok x (pall.mem x hx))
        (by rw [pall.length_eq]; exact hb) (by omega) (by omega) (hlow.permOn pall) s3
      exact ⟨pall.trans q1, q2⟩
    · -- shift left only
      rw [shiftLeft_eq C a b (i2 - 1) _ hok1 (by omega) (by omega) hb1 hlow1]
      obtain ⟨p2, s2⟩ := insertionSortInner_spec C a (i2 - 1) (i2 - 1) (SwapAt d i2 (i2 - 1)) hok1
        (by omega) le_rfl (by omega)
        (by
          intro k hk1 hk2 hk3
          rw [hK k, hK (k + 1), if_neg (by omega), if_neg (by omega), if_neg (by omega),
            if_neg (by omega)]
          exact hadj2 k hk1 (by omega))
        (fun _ hlt => absurd hlt (lt_irrefl _))
      have e : i2 - 1 + 1 = i2 := by omega
      rw [e] at p2 s2
      have p2b := p2.mono (le_refl a) (show i2 ≤ b by omega)
      have pall := hsw.trans p2b
      obtain ⟨q1, q2⟩ := ih i2 _ (fun x hx => hok x (pall.mem x hx))
        (by rw [pall.length_eq]; exact hb) (by omega) (by omega) (hlow.permOn pall) s2
      exact ⟨pall.trans q1, q2⟩
    · -- no shift
      have s2 : AdjSorted C.key a i2 (SwapAt d i2 (i2 - 1)) := fun k hk1 hk2 => by omega
      obtain ⟨q1, q2⟩ := ih i2 _ hok1 hb1 (by omega) (by omega) hlow1 s2
      exact ⟨hsw.trans q1, q2⟩

/-- Function `partialInsertionSort_func` permutes `data[a:b]`, and sorts it when it
returns `true`. -/
theorem partialInsertionSort_func_spec {α : Type} (C : KeyOrder α) (d : List α) (a b : Nat)
    (hok : ∀ x ∈ d, C.ok x) (hab : a < b) (hb : b ≤ d.length)
    (hlow : LowerBound C.key a b d) :
    PermOn a b d (partialInsertionSort_func C.less d a b).1 ∧
      ((partialInsertionSort_func C.less d a b).2 = true →
        SortedOn C.key a b (partialInsertionSort_func C.less d a b).1) := by
  unfold partialInsertionSort_func
  exact partialInsertionSortLoop_spec C a b hab 5 (a + 1) d hok hb le_rfl (by omega) hlow
    (fun k hk1 hk2 => by omega)

/-! ## The quicksort loop -/

theorem SortedOn.combine {α : Type} {key : α → Int} {a b : Nat} (mid : Nat) {d : List α}
    (h1 : SortedOn key a mid d) (h2 : SortedOn key (mid + 1) b d)
    (h3 : ∀ k, a ≤ k → k < mid → keyAt key d k ≤ keyAt key d mid)
    (h4 : ∀ k, mid < k → k < b → keyAt key d mid ≤ keyAt key d k) :
    SortedOn key a b d := by
  intro i j hi hij hj
  by_cases e1 : j < mid
  · exact h1 i j hi hij e1
  · by_cases e2 : mid < i
    · exact h2 i j (by omega) hij hj
    · by_cases e3 : i = mid
      · subst e3
        by_cases e4 : j = i
        · subst e4; exact le_rfl
        · exact h4 j (by omega) hj
      · have t1 := h3 i hi (by omega)
        by_cases e4 : j = mid
        · subst e4; exact t1
        · have t2 := h4 j (by omega) hj
          omega

theorem LowerBound.sub {α : Type} {key : α → Int} {a b b2 : Nat} {d : List α}
    (h : LowerBound key a b d) (hb : b2 ≤ b) : LowerBound key a b2 d :=
  fun ha k hk1 hk2 => h ha k hk1 (by omega)

theorem pdqsort_func_spec {α : Type} (C : KeyOrder α) :
    ∀ (fuel : Nat) (d : List α) (a b limit : Nat) (wasBalanced wasPartitioned : Bool),
      (∀ x ∈ d, C.ok x) → a ≤ b → b ≤ d.length → b - a ≤ fuel → LowerBound C.key a b d →
      PermOn a b d (pdqsort_func C.less fuel d a b limit wasBalanced wasPartitioned) ∧
        SortedOn C.key a b (pdqsort_func C.less fuel d a b limit wasBalanced wasPartitioned) := by
  intro fuel
  induction fuel with
  | zero =>
    intro d a b limit wb wp _ hab _ hf _
    exact ⟨PermOn.refl _ _ _, fun i j h1 h2 h3 => by omega⟩
  | succ fuel ih =>
    intro d a b limit wb wp hok hab hb hf hlow
    unfold pdqsort_func
    by_cases h12 : b - a ≤ 12
    · simp only [if_pos h12]
      exact insertionSort_func_spec C d a b hok hb
    by_cases hl0 : limit = 0
    · simp only [if_neg h12, if_pos hl0]
      exact heapSort_func_spec C d a b hok hab hb
    simp only [if_neg h12, if_neg hl0]
    have hab2 : a < b := by omega
    -- breakPatterns
    have p1 : PermOn a b d (if wb = false then breakPatterns_func d a b else d) := by
      split_ifs
      · exact breakPatterns_func_spec d a b hab hb
      · exact PermOn.refl _ _ _
    generalize (if wb = false then breakPatterns_func d a b else d) = d1 at p1 ⊢
    generalize (if wb = false then limit - 1 else limit) = lim
    have hb1 : b ≤ d1.length := by rw [p1.length_eq]; exact hb
    -- choosePivot
    have hcp := choosePivot_func_mem C.less d1 a b hab2
    generalize choosePivot_func C.less d1 a b = cp at hcp ⊢
    have p2 : PermOn a b d1 (if cp.2 = sortedHint.decreasingHint then reverseRange_func d1 a b
        else d1) := by
      split_ifs
      · exact reverseRange_func_spec d1 a b hab2 hb1
      · exact PermOn.refl _ _ _
    generalize (if cp.2 = sortedHint.decreasingHint then reverseRange_func d1 a b else d1) = d2
      at p2 ⊢
    have hpv : a ≤ (if cp.2 = sortedHint.decreasingHint then b - 1 - (cp.1 - a) else cp.1) ∧
        (if cp.2 = sortedHint.decreasingHint then b - 1 - (cp.1 - a) else cp.1) < b := by
      split_ifs <;> omega
    generalize (if cp.2 = sortedHint.decreasingHint then b - 1 - (cp.1 - a) else cp.1) = pv
      at hpv ⊢
    generalize (if cp.2 = sortedHint.decreasingHint then sortedHint.increasingHint else cp.2) =
      hint
    have p12 := p1.trans p2
    have hok2 : ∀ x ∈ d2, C.ok x := fun x hx => hok x (p12.mem x hx)
    have hb2 : b ≤ d2.length := by rw [p12.length_eq]; exact hb
    have hlow2 := hlow.permOn p12
    -- partialInsertionSort
    have p3 : PermOn a b d2 (if wb = true ∧ wp = true ∧ hint = sortedHint.increasingHint then
          partialInsertionSort_func C.less d2 a b else (d2, false)).1 ∧
        ((if wb = true ∧ wp = true ∧ hint = sortedHint.increasingHint then
          partialInsertionSort_func C.less d2 a b else (d2, false)).2 = true →
          SortedOn C.key a b (if wb = true ∧ wp = true ∧ hint = sortedHint.increasingHint then
            partialInsertionSort_func C.less d2 a b else (d2, false)).1) := by
      split_ifs
      · exact partialInsertionSort_func_spec C d2 a b hok2 hab2 hb2 hlow2
      · exact ⟨PermOn.refl _ _ _, fun h => by simp at h⟩
    generalize (if wb = true ∧ wp = true ∧ hint = sortedHint.increasingHint then
      partialInsertionSort_func C.less d2 a b else (d2, false)) = r3 at p3 ⊢
    obtain ⟨d3, flag⟩ := r3
    obtain ⟨p3a, p3b⟩ := p3
    simp only at p3a p3b
    have p123 := p12.trans p3a
    have hok3 : ∀ x ∈ d3, C.ok x := fun x hx => hok x (p123.mem x hx)
    have hb3 : b ≤ d3.length := by rw [p123.length_eq]; exact hb
    have hlow3 := hlow.permOn p123
    cases flag with
    | true => exact ⟨p123, p3b rfl⟩
    | false =>
      simp only
      split_ifs with hc hlr
      · -- partitionEqual
        obtain ⟨ha0, hle⟩ := hc
        rw [C.lessAt_false_iff d3 hok3 (a - 1) pv (by omega) (by omega)] at hle
        obtain ⟨q1, q2, q3, q4, q5⟩ := partitionEqual_func_spec C d3 a b pv hok3 hab2 hb3 hpv
        generalize partitionEqual_func C.less d3 a b pv = r4 at q1 q2 q3 q4 q5 ⊢
        obtain ⟨d4, mid⟩ := r4
        simp only at q1 q2 q3 q4 q5 ⊢
        have p4 := p123.trans q1
        have hok4 : ∀ x ∈ d4, C.ok x := fun x hx => hok x (p4.mem x hx)
        have hb4 : b ≤ d4.length := by rw [p4.length_eq]; exact hb
        have hlow4 := hlow.permOn p4
        have hfr : keyAt C.key d4 (a - 1) = keyAt C.key d3 (a - 1) :=
          q1.keyAt_frame C.key (a - 1) (Or.inl (by omega))
        have hlowm : LowerBound C.key mid b d4 := by
          intro _ k hk1 hk2
          have t1 := q4 (mid - 1) (by omega) (by omega)
          have t2 := q5 k hk1 hk2
          omega
        obtain ⟨s1, s2⟩ := ih d4 mid b lim wb wp hok4 q3 hb4 (by omega) hlowm
        generalize pdqsort_func C.less fuel d4 mid b lim wb wp = d5 at s1 s2 ⊢
        refine ⟨p4.trans (s1.mono (by omega) le_rfl), ?_⟩
        have hk5 : ∀ k, k < mid → keyAt C.key d5 k = keyAt C.key d4 k :=
          fun k hk => s1.keyAt_frame C.key k (Or.inl hk)
        have hhi : ∀ k, mid ≤ k → k < b → keyAt C.key d3 pv < keyAt C.key d5 k :=
          s1.keys C.key (fun v => keyAt C.key d3 pv < v) q5
        intro i j hi hij hj
        by_cases e1 : mid ≤ i
        · exact s2 i j e1 hij hj
        · have ti := q4 i hi (by omega)
          have tl := hlow4 ha0 i hi (by omega)
          rw [hk5 i (by omega)]
          by_cases e2 : mid ≤ j
          · have := hhi j e2 hj
            omega
          · have tj := q4 j (by omega) (by omega)
            have tlj := hlow4 ha0 j (by omega) (by omega)
            rw [hk5 j (by omega)]
            omega
      all_goals
        obtain ⟨q1, q2⟩ := partition_func_spec C d3 a b pv hok3 hab2 hb3 hpv
        generalize partition_func C.less d3 a b pv = r4 at q1 q2 ⊢
        obtain ⟨d4, mid, already⟩ := r4
        simp only at q1 q2 ⊢
        obtain ⟨m1, m2, m3, m4⟩ := q2
        have p4 := p123.trans q1
        have hok4 : ∀ x ∈ d4, C.ok x := fun x hx => hok x (p4.mem x hx)
        have hb4 : b ≤ d4.length := by rw [p4.length_eq]; exact hb
        have hlow4 := hlow.permOn p4
      · -- left part first
        obtain ⟨s1, s2⟩ := ih d4 a mid lim true true hok4 m1 (by omega) (by omega)
          (hlow4.sub (by omega))
        generalize pdqsort_func C.less fuel d4 a mid lim true true = d5 at s1 s2 ⊢
        have hok5 : ∀ x ∈ d5, C.ok x := fun x hx => hok4 x (s1.mem x hx)
        have hb5 : b ≤ d5.length := by rw [s1.length_eq]; exact hb4
        have hk5 : ∀ k, mid ≤ k → keyAt C.key d5 k = keyAt C.key d4 k :=
          fun k hk => s1.keyAt_frame C.key k (Or.inr hk)
        have hlow5 : LowerBound C.key (mid + 1) b d5 := by
          intro _ k hk1 hk2
          rw [hk5 k (by omega), hk5 (mid + 1 - 1) (by omega)]
          exact m4 k (by omega) hk2
        obtain ⟨t1, t2⟩ := ih d5 (mid + 1) b lim (decide (mid - a ≥ (b - a) / 8)) already hok5
          (by omega) hb5 (by omega) hlow5
        generalize pdqsort_func C.less fuel d5 (mid + 1) b lim (decide (mid - a ≥ (b - a) / 8))
          already = d6 at t1 t2 ⊢
        have hk6 : ∀ k, k ≤ mid → keyAt C.key d6 k = keyAt C.key d5 k :=
          fun k hk => t1.keyAt_frame C.key k (Or.inl (by omega))
        refine ⟨(p4.trans (s1.mono le_rfl (by omega))).trans (t1.mono (by omega) le_rfl), ?_⟩
        apply SortedOn.combine mid
        · intro i j hi hij hj
          rw [hk6 i (by omega), hk6 j (by omega)]
          exact s2 i j hi hij hj
        · exact t2
        · intro k hk1 hk2
          rw [hk6 k (by omega), hk6 mid le_rfl, hk5 mid le_rfl]
          have := s1.keys C.key (fun v => v < keyAt C.key d4 mid) m3 k hk1 hk2
          exact le_of_lt this
        · intro k hk1 hk2
          rw [hk6 mid le_rfl, hk5 mid le_rfl]
          have h5 : ∀ k, mid + 1 ≤ k → k < b → keyAt C.key d4 mid ≤ keyAt C.key d5 k := by
            intro k hk1 hk2
            rw [hk5 k (by omega)]
            exact m4 k (by omega) hk2
          exact t1.keys C.key (fun v => keyAt C.key d4 mid ≤ v) h5 k (by omega) hk2
      · -- right part first
        have hlowr : LowerBound C.key (mid + 1) b d4 := by
          intro _ k hk1 hk2
          exact m4 k (by omega) hk2
        obtain ⟨s1, s2⟩ := ih d4 (mid + 1) b lim true true hok4 (by omega) hb4 (by omega) hlowr
        generalize pdqsort_func C.less fuel d4 (mid + 1) b lim true true = d5 at s1 s2 ⊢
        have hok5 : ∀ x ∈ d5, C.ok x := fun x hx => hok4 x (s1.mem x hx)
        have hb5 : b ≤ d5.length := by rw [s1.length_eq]; exact hb4
        have hk5 : ∀ k, k ≤ mid → keyAt C.key d5 k = keyAt C.key d4 k :=
          fun k hk => s1.keyAt_frame C.key k (Or.inl (by omega))
        have hlow5 : LowerBound C.key a mid d5 := by
          intro ha0 k hk1 hk2
          rw [hk5 k (by omega), hk5 (a - 1) (by omega)]
          exact hlow4 ha0 k hk1 (by omega)
        obtain ⟨t1, t2⟩ := ih d5 a mid lim (decide (b - mid ≥ (b - a) / 8)) already hok5
          m1 (by omega) (by omega) hlow5
        generalize pdqsort_func C.less fuel d5 a mid lim (decide (b - mid ≥ (b - a) / 8))
          already = d6 at t1 t2 ⊢
        have hk6 : ∀ k, mid ≤ k → keyAt C.key d6 k = keyAt C.key d5 k :=
          fun k hk => t1.keyAt_frame C.key k (Or.inr hk)
        refine ⟨(p4.trans (s1.mono (by omega) le_rfl)).trans (t1.mono le_rfl (by omega)), ?_⟩
        apply SortedOn.combine mid
        · exact t2
        · intro i j hi hij hj
          rw [hk6 i (by omega), hk6 j (by omega)]
          exact s2 i j hi hij hj
        · intro k hk1 hk2
          rw [hk6 mid le_rfl, hk5 mid le_rfl]
          have h5 : ∀ k, a ≤ k → k < mid → keyAt C.key d5 k ≤ keyAt C.key d4 mid := by
            intro k hk1 hk2
            rw [hk5 k (by omega)]
            exact le_of_lt (m3 k hk1 hk2)
          exact t1.keys C.key (fun v => v ≤ keyAt C.key d4 mid) h5 k hk1 hk2
        · intro k hk1 hk2
          rw [hk6 k (by omega), hk6 mid le_rfl, hk5 mid le_rfl]
          have h5 : ∀ k, mid + 1 ≤ k → k < b → keyAt C.key d4 mid ≤ keyAt C.key d4 k :=
            fun k hk1 hk2 => m4 k (by omega) hk2
          exact s1.keys C.key (fun v => keyAt C.key d4 mid ≤ v) h5 k (by omega) hk2

/-- Function `sort.Slice` returns a permutation of the slice in non-decreasing
order of the keys, when `less` is the strict order of the keys on its elements. -/
theorem Slice_spec {α : Type} (C : KeyOrder α) (x : List α) (hok : ∀ e ∈ x, C.ok e) :
    (Slice x C.less).Perm x ∧ SortedOn C.key 0 x.length (Slice x C.less) := by
  unfold Slice
  simp only
  obtain ⟨p, s⟩ := pdqsort_func_spec C x.length x 0 x.length (bitsLen x.length) true true hok
    (Nat.zero_le _) le_rfl (by omega) (fun h => by omega)
  exact ⟨p.perm le_rfl, s⟩

/-! ## `plotBar` -/

theorem SortedOn.pairwise {α : Type} {key : α → Int} {l : List α}
    (h : SortedOn key 0 l.length l) : l.Pairwise (fun x y => key x ≤ key y) := by
  rw [List.pairwise_iff_getElem]
  intro i j hi hj hij
  have := h i j (Nat.zero_le _) (by omega) hj
  unfold keyAt at this
  rw [List.getElem?_eq_getElem hi, List.getElem?_eq_getElem hj] at this
  exact this

theorem plotBar_zip (data : List Benchmark) (valueSelector : Benchmark → F64) :
    List.zip (plotBar data valueSelector).labels (plotBar data valueSelector).values =
      (Slice data (fun x y => F64.lt (valueSelector x) (valueSelector y))).map
        (fun b => (barLabel b, valueSelector b)) := by
  unfold plotBar
  simp only
  rw [List.zip_map']

/-- C4. When no selected value is a NaN, the (label, value) pairs that `plotBar`
builds are a permutation of the pairs of the input records, as many as the
records, and they are in non-decreasing order of the value. -/
theorem plotBar_sorted_permutation (data : List Benchmark) (valueSelector : Benchmark → F64)
    (hnan : ∀ b ∈ data, (valueSelector b).isNaN = false) :
    (List.zip (plotBar data valueSelector).labels (plotBar data valueSelector).values).Perm
        (data.map (fun b => (barLabel b, valueSelector b))) ∧
      (plotBar data valueSelector).labels.length = data.length ∧
      (plotBar data valueSelector).values.length = data.length ∧
      (List.zip (plotBar data valueSelector).labels (plotBar data valueSelector).values).Pairwise
        (fun p q => F64.le p.2 q.2 = true) := by
  obtain ⟨hp, hs⟩ := Slice_spec (selectorOrder valueSelector) data hnan
  have hlen := hp.length_eq
  change (Slice data (fun x y => F64.lt (valueSelector x) (valueSelector y))).Perm data at hp
  rw [plotBar_zip]
  refine ⟨hp.map _, ?_, ?_, ?_⟩
  · show ((Slice data _).map barLabel).length = _
    rw [List.length_map]; exact hlen
  · show ((Slice data _).map valueSelector).length = _
    rw [List.length_map]; exact hlen
  · rw [List.pairwise_map]
    rw [← hlen] at hs
    have hpw := SortedOn.pairwise hs
    change (Slice data (fun x y => F64.lt (valueSelector x) (valueSelector y))).Pairwise
      (fun x y => (valueSelector x).key ≤ (valueSelector y).key) at hpw
    refine (List.Pairwise.and_mem.1 hpw).imp ?_
    rintro x y ⟨hx, hy, hxy⟩
    have hx2 := hnan x (hp.mem_iff.1 hx)
    have hy2 := hnan y (hp.mem_iff.1 hy)
    simp only [F64.le, hx2, hy2, Bool.not_false, Bool.true_and, decide_eq_true_eq]
    exact hxy

/-! ## Order of equal values -/

theorem SwapAt_succ_cons {α : Type} (z : α) (d : List α) (j : Nat) :
    SwapAt (z :: d) (j + 1 + 1) (j + 1) = z :: SwapAt d (j + 1) j := by
  unfold SwapAt
  simp only [List.getElem?_cons_succ]
  cases d[j + 1]? <;> cases d[j]? <;> simp

/-- Exchanging two neighbours that are not both in a class keeps the sublist of the
class. -/
theorem SwapAt_adjacent_filter {α : Type} (p : α → Bool) :
    ∀ (j : Nat) (d : List α),
      (∀ x y, d[j]? = some x → d[j + 1]? = some y → ¬ (p x = true ∧ p y = true)) →
      (SwapAt d (j + 1) j).filter p = d.filter p := by
  intro j
  induction j with
  | zero =>
    intro d h
    match d with
    | [] => rfl
    | [x] => rfl
    | x :: y :: rest =>
      have := h x y rfl (by simp)
      simp only [SwapAt, List.getElem?_cons_succ, List.getElem?_cons_zero, List.set_cons_succ,
        List.set_cons_zero, List.filter_cons]
      cases hx : p x <;> cases hy : p y <;> simp_all
  | succ j ih =>
    intro d h
    match d with
    | [] => rfl
    | z :: d =>
      rw [SwapAt_succ_cons, List.filter_cons, List.filter_cons, ih d]
      intro x y hx hy
      exact h x y (by simpa using hx) (by simpa using hy)

theorem LessAt_eq_true {α : Type} (less : α → α → Bool) (d : List α) (i j : Nat)
    (h : LessAt less d i j = true) :
    ∃ x y, d[i]? = some x ∧ d[j]? = some y ∧ less x y = true := by
  unfold LessAt at h
  cases hi : d[i]? <;> cases hj : d[j]? <;> simp_all

theorem insertionSortInner_filter {α : Type} (less : α → α → Bool) (p : α → Bool)
    (hp : ∀ x y, p x = true → p y = true → less x y = false) (a : Nat) :
    ∀ (j : Nat) (d : List α), (insertionSortInner less a j d).filter p = d.filter p := by
  intro j
  induction j with
  | zero => intro d; rfl
  | succ j ih =>
    intro d
    unfold insertionSortInner
    split_ifs with hc
    · rw [ih]
      apply SwapAt_adjacent_filter
      intro x y hx hy hxy
      obtain ⟨x2, y2, h1, h2, h3⟩ := LessAt_eq_true less d (j + 1) j hc.2
      rw [hy] at h1
      rw [hx] at h2
      cases h1
      cases h2
      rw [hp y x hxy.2 hxy.1] at h3
      exact Bool.false_ne_true h3
    · rfl

theorem insertionSort_func_filter {α : Type} (less : α → α → Bool) (p : α → Bool)
    (hp : ∀ x y, p x = true → p y = true → less x y = false) (d : List α) (a b : Nat) :
    (insertionSort_func less d a b).filter p = d.filter p := by
  unfold insertionSort_func
  generalize List.range' (a + 1) (b - (a + 1)) = is
  induction is generalizing d with
  | nil => rfl
  | cons i is ih =>
    simp only [List.foldl]
    rw [ih, insertionSortInner_filter less p hp]

/-- Up to twelve elements `sort.Slice` is the insertion sort. -/
theorem Slice_eq_insertionSort {α : Type} (x : List α) (less : α → α → Bool)
    (h : x.length ≤ 12) : Slice x less = insertionSort_func less x 0 x.length := by
  unfold Slice
  simp only
  match hx : x.length with
  | 0 =>
    have : x = [] := List.length_eq_zero.1 hx
    subst this
    rfl
  | n + 1 =>
    unfold pdqsort_func
    rw [hx] at h
    simp only [Nat.sub_zero, if_pos h]

/-- C4 at three records. -/
theorem plotBar_sorted_permutation_witness :
    (List.zip (plotBar sampleBenchmarks (fun b => b.NsPerOp)).labels
        (plotBar sampleBenchmarks (fun b => b.NsPerOp)).values).Perm
        (sampleBenchmarks.map (fun b => (barLabel b, (fun b => b.NsPerOp) b))) ∧
      (plotBar sampleBenchmarks (fun b => b.NsPerOp)).labels.length = sampleBenchmarks.length ∧
      (plotBar sampleBenchmarks (fun b => b.NsPerOp)).values.length = sampleBenchmarks.length ∧
      (List.zip (plotBar sampleBenchmarks (fun b => b.NsPerOp)).labels
        (plotBar sampleBenchmarks (fun b => b.NsPerOp)).values).Pairwise
        (fun p q => F64.le p.2 q.2 = true) :=
  plotBar_sorted_permutation sampleBenchmarks (fun b => b.NsPerOp) (by decide)

/-- C5, as stated, fails: of thirteen records, twelve of them with the value `0` in
the order `b1, ..., b12`, `plotBar` puts `b6` before `b1`. -/
theorem plotBar_not_stable :
    (plotBar thirteenBenchmarks (fun b => b.NsPerOp)).labels =
        ["b6", "b1", "b2", "b3", "b4", "b5", "b7", "b8", "b9", "b10", "b11", "b12", "b0"] ∧
      (thirteenBenchmarks.map barLabel) =
        ["b0", "b1", "b2", "b3", "b4", "b5", "b6", "b7", "b8", "b9", "b10", "b11", "b12"] ∧
      (List.zip (plotBar thirteenBenchmarks (fun b => b.NsPerOp)).labels
          (plotBar thirteenBenchmarks (fun b => b.NsPerOp)).values).filter
          (fun p => F64.eq p.2 (F64.ofNat 0)) ≠
        (thirteenBenchmarks.map (fun b => (barLabel b, b.NsPerOp))).filter
          (fun p => F64.eq p.2 (F64.ofNat 0)) := by
  decide

/-- C5, amended. On at most twelve records the sort of `plotBar` is stable: the
records whose value equals a given value `v` (as Go `==`, or as the same
`float64`) come out, labels and values, in their order in the input. -/
theorem plotBar_stable_up_to_twelve (data : List Benchmark) (valueSelector : Benchmark → F64)
    (hlen : data.length ≤ 12) (v : F64) :
    (List.zip (plotBar data valueSelector).labels (plotBar data valueSelector).values).filter
        (fun p => F64.eq p.2 v) =
        (data.map (fun b => (barLabel b, valueSelector b))).filter (fun p => F64.eq p.2 v) ∧
      (List.zip (plotBar data valueSelector).labels (plotBar data valueSelector).values).filter
        (fun p => decide (p.2 = v)) =
        (data.map (fun b => (barLabel b, valueSelector b))).filter (fun p => decide (p.2 = v)) := by
  rw [plotBar_zip, Slice_eq_insertionSort data _ hlen]
  simp only [List.filter_map]
  constructor
  · congr 1
    apply insertionSort_func_filter
    intro x y hx hy
    simp only [Function.comp, F64.eq, Bool.and_eq_true, Bool.not_eq_true', decide_eq_true_eq]
      at hx hy
    simp only [F64.lt, hx.1.1, hy.1.1, Bool.not_false, Bool.true_and, decide_eq_false_iff_not]
    omega
  · congr 1
    apply insertionSort_func_filter
    intro x y hx hy
    simp only [Function.comp, decide_eq_true_eq] at hx hy
    simp only [F64.lt, hx, hy, Bool.and_eq_false_imp, Bool.and_eq_true, Bool.not_eq_true',
      decide_eq_false_iff_not]
    intro _
    omega

theorem plotBar_stable_up_to_twelve_witness :
    (List.zip (plotBar sampleBenchmarks (fun b => b.NsPerOp)).labels
        (plotBar sampleBenchmarks (fun b => b.NsPerOp)).values).filter
        (fun p => F64.eq p.2 (F64.ofNat 345)) =
        (sampleBenchmarks.map (fun b => (barLabel b, (fun b => b.NsPerOp) b))).filter
          (fun p => F64.eq p.2 (F64.ofNat 345)) ∧
      (List.zip (plotBar sampleBenchmarks (fun b => b.NsPerOp)).labels
        (plotBar sampleBenchmarks (fun b => b.NsPerOp)).values).filter
        (fun p => decide (p.2 = F64.ofNat 345)) =
        (sampleBenchmarks.map (fun b => (barLabel b, (fun b => b.NsPerOp) b))).filter
          (fun p => decide (p.2 = F64.ofNat 345)) :=
  plotBar_stable_up_to_twelve sampleBenchmarks (fun b => b.NsPerOp) (by decide) (F64.ofNat 345)
